import Mathlib

/-! http_proxy: cache engine, Cache-Control policy and connection pipeline

A shallow embedding of `src/src/cache.c` and of the cache-related part of
`src/src/proxy.c`.

Conventions of the embedding.

* A `char` is a natural number (its byte value).  A character buffer is the
  list of its bytes.  Where the C code reads a buffer as a string, the string
  is the part of the list before the first NUL byte (`cstr`); the end of the
  list counts as the terminator.
* `int` and `time_t` values are integers.  The `unsigned long` use counter and
  the `last_used` stamps are natural numbers reduced modulo `2 ^ 64`.
* The global `usage_counter` and the clock value returned by `time(NULL)` are
  passed explicitly.
* A function whose C code would index outside an array returns `none` there.
* Calls of `malloc` and `send` are taken to succeed; log output is left out.
-/

namespace HttpProxy

/-! ## Constants of `cache.h` -/

def REQUEST_SIZE : Nat := 2048
def RESPONSE_SIZE : Nat := 102400
def CACHE_SIZE : Nat := 10

/-- Value of `(unsigned long) -1`. -/
def ULONG_MAX : Nat := 2 ^ 64 - 1

/-! ## The C library functions used by the cache -/

/-- Bytes of a string literal. -/
def bytes (s : String) : List Nat := s.toList.map Char.toNat

/-- The string held by a buffer: the bytes before the first NUL. -/
def cstr (buf : List Nat) : List Nat := buf.takeWhile (fun c => c != 0)

def strlen (buf : List Nat) : Nat := (cstr buf).length

/-- `tolower` in the C locale. -/
def tolower (c : Nat) : Nat := if 65 ≤ c ∧ c ≤ 90 then c + 32 else c

/-- Test `strcmp(a, b) == 0`. -/
def strcmp_eq (a b : List Nat) : Bool := cstr a == cstr b

/-- Test `strcasecmp(a, b) == 0`. -/
def strcasecmp_eq (a b : List Nat) : Bool :=
  (cstr a).map tolower == (cstr b).map tolower

/-- Test `strncasecmp(a, b, n) == 0`: at most `n` characters are compared. -/
def strncasecmp_eq (a b : List Nat) (n : Nat) : Bool :=
  ((cstr a).take n).map tolower == ((cstr b).take n).map tolower

/-- Offset of the first occurrence of `needle` in `hay`, both already strings. -/
def find_sub (needle : List Nat) : List Nat → Option Nat
  | [] => if needle = [] then some 0 else none
  | c :: cs =>
    if needle.isPrefixOf (c :: cs) then some 0
    else (find_sub needle cs).map (fun i => i + 1)

/-- The call `strstr(hay, needle)` as an offset into `hay`, `none` for `NULL`. -/
def strstr (hay needle : List Nat) : Option Nat := find_sub (cstr needle) (cstr hay)

/-- The call `strncpy(dst, src, n)`: the string `src` is copied and padded with NUL
bytes to exactly `n` bytes; the rest of `dst` is kept. -/
def strncpy (dst src : List Nat) (n : Nat) : List Nat :=
  (cstr src).take n ++ List.replicate (n - strlen src) 0 ++ dst.drop n

/-- The call `memcpy(dst, src, n)` for a source holding at least `n` bytes. -/
def memcpy (dst src : List Nat) (n : Nat) : List Nat := src.take n ++ dst.drop n

/-- One step of tokenising the text that is left: leading delimiters are skipped,
`none` when nothing remains, otherwise the token and the text after the delimiter
that ended it. -/
def strtok_by (is_delim : Nat → Bool) (s : List Nat) : Option (List Nat × List Nat) :=
  match s.dropWhile is_delim with
  | [] => none
  | c :: cs =>
    some ((c :: cs).takeWhile (fun d => !is_delim d),
          ((c :: cs).dropWhile (fun d => !is_delim d)).drop 1)

/-- One call of `strtok` with the delimiter characters `delims` on the text that is
left. -/
def strtok (delims : List Nat) (s : List Nat) : Option (List Nat × List Nat) :=
  strtok_by (fun c => delims.contains c) s

def isspace (c : Nat) : Bool := c == 32 || (9 ≤ c && c ≤ 13)

def isdigit (c : Nat) : Bool := 48 ≤ c && c ≤ 57

/-- Value of the leading decimal digits, most significant first. -/
def digits_value : Nat → List Nat → Nat
  | acc, [] => acc
  | acc, c :: cs => if isdigit c then digits_value (acc * 10 + (c - 48)) cs else acc

/-- Conversion of an integer to `int` (two's complement, 32 bits). -/
def to_int32 (x : Int) : Int := (x + 2 ^ 31) % 2 ^ 32 - 2 ^ 31

/-- Clamp to the range of `long`, as `strtol` does on overflow. -/
def clamp_long (x : Int) : Int := max (-(2 ^ 63)) (min (2 ^ 63 - 1) x)

/-- The call `atoi(s)`, i.e. `(int) strtol(s, NULL, 10)`: white space, an optional
sign, then decimal digits. -/
def atoi (s : List Nat) : Int :=
  match (cstr s).dropWhile isspace with
  | [] => 0
  | c :: cs =>
    if c = 45 then to_int32 (clamp_long (-(digits_value 0 cs : Nat)))
    else if c = 43 then to_int32 (clamp_long (digits_value 0 cs))
    else to_int32 (clamp_long (digits_value 0 (c :: cs)))

/-! ## Cache-Control policy (`cache.c`) -/

def cache_control_keywords : List (List Nat) :=
  [bytes "private", bytes "no-store", bytes "no-cache", bytes "max-age=0",
   bytes "must-revalidate", bytes "proxy-revalidate"]

/-- The test `c == ' ' || c == '\t'`. -/
def is_blank (c : Nat) : Bool := c == 32 || c == 9

/-- The loop `while (line) { ... line = strtok(NULL, "\r\n"); }` of
`parse_cache_control`; `rest` is the text `strtok` has not consumed yet. -/
def cache_control_loop : Nat → List Nat → Option (List Nat)
  | 0, _ => none
  | fuel + 1, rest =>
    match strtok [13, 10] rest with
    | none => none
    | some (line, rest') =>
      if strncasecmp_eq line (bytes "Cache-Control:") 14 then
        some ((line.drop 14).dropWhile is_blank)
      else cache_control_loop fuel rest'

/-- Value of the first `Cache-Control:` line of the header block, `none` for `NULL`. -/
def parse_cache_control (response : List Nat) : Option (List Nat) :=
  match strstr response (bytes "\r\n\r\n") with
  | none => none
  | some headers_length =>
    let headers_copy := (cstr response).take headers_length
    cache_control_loop (headers_copy.length + 1) headers_copy

/-- The backward scan `while (end > token && (*end == ' ' || *end == '\t')) end--`,
as the final offset of `end` from `token`. -/
def skip_back (token : List Nat) : Nat → Nat
  | 0 => 0
  | e + 1 => if is_blank (token.getD (e + 1) 0) then skip_back token e else e + 1

/-- The token of `check_no_cache` after both white-space loops and the write of the
terminator at `end + 1`. -/
def trim_token (token : List Nat) : List Nat :=
  match token.dropWhile is_blank with
  | [] => []
  | c :: cs => (c :: cs).take (skip_back (c :: cs) cs.length + 1)

/-- The loop `while (token) { ... token = strtok(NULL, ","); }` of `check_no_cache`. -/
def no_cache_loop : Nat → List Nat → Int
  | 0, _ => 0
  | fuel + 1, rest =>
    match strtok [44] rest with
    | none => 0
    | some (token, rest') =>
      if cache_control_keywords.any (fun k => strcasecmp_eq (trim_token token) k) then 1
      else no_cache_loop fuel rest'

def check_no_cache (response : List Nat) : Int :=
  match parse_cache_control response with
  | none => 0
  | some cache_control_header =>
    no_cache_loop (cache_control_header.length + 1) cache_control_header

/-- The loop `while (field) { ... field = strtok(NULL, ","); }` of `get_max_age`. -/
def max_age_loop : Nat → List Nat → Int
  | 0, _ => -1
  | fuel + 1, rest =>
    match strtok [44] rest with
    | none => -1
    | some (field, rest') =>
      let field := field.dropWhile is_blank
      if strncasecmp_eq field (bytes "max-age=") 8 then atoi (field.drop 8)
      else max_age_loop fuel rest'

def get_max_age (response : List Nat) : Int :=
  match parse_cache_control response with
  | none => -1
  | some cache_control_header =>
    max_age_loop (cache_control_header.length + 1) cache_control_header

/-! ## Cache engine (`cache.h`, `cache.c`) -/

structure cache_entry_t where
  index : Int
  valid : Int
  request : List Nat
  response : List Nat
  response_size : Int
  last_used : Nat
  cached_time : Int
  max_age : Int
  deriving DecidableEq, Repr, Inhabited

structure cache_t where
  valid_entries : Int
  entries : List cache_entry_t
  deriving DecidableEq, Repr, Inhabited

/-- The slot `cache->entries[i]`. -/
def cache_t.entry (cache : cache_t) (i : Nat) : cache_entry_t :=
  cache.entries.getD i default

/-- The cache after the assignment `cache->entries[i] = e`. -/
def cache_t.set_entry (cache : cache_t) (i : Nat) (e : cache_entry_t) : cache_t :=
  { cache with entries := cache.entries.set i e }

/-- Body of the loop of `init_cache` for slot `i`. -/
def init_entry (i : Nat) (e : cache_entry_t) : cache_entry_t :=
  { e with
    valid := 0, index := i, last_used := 0, cached_time := 0, max_age := -1,
    request := e.request.set 0 0, response := e.response.set 0 0, response_size := -1 }

/-- The function `init_cache` on the memory `cache` it is handed. -/
def init_cache (cache : cache_t) : cache_t :=
  (List.range CACHE_SIZE).foldl (fun c i => c.set_entry i (init_entry i (c.entry i)))
    { cache with valid_entries := 0 }

def find_invalid_entry (cache : cache_t) : Int :=
  match (List.range CACHE_SIZE).find? (fun i => (cache.entry i).valid == 0) with
  | some i => i
  | none => -1

/-- Body of the search loop of `evict_lru_entry` on `(lru_index, lru_time)`. -/
def lru_step (cache : cache_t) (p : Int × Nat) (i : Nat) : Int × Nat :=
  if (cache.entry i).valid = 1 ∧ (cache.entry i).last_used < p.2 then
    ((i : Int), (cache.entry i).last_used)
  else p

/-- The search loop of `evict_lru_entry`: final `(lru_index, lru_time)`. -/
def lru_scan (cache : cache_t) : Int × Nat :=
  (List.range CACHE_SIZE).foldl (lru_step cache) (-1, ULONG_MAX)

/-- The function `evict_lru_entry`: the returned block (the `REQUEST_SIZE` bytes
written by `strncpy`), `none` for `NULL`, and the cache afterwards. -/
def evict_lru_entry (cache : cache_t) : Option (List Nat) × cache_t :=
  let lru_index := (lru_scan cache).1
  if lru_index = -1 then (none, cache)
  else
    let e := cache.entry lru_index.toNat
    let request_copy := strncpy [] e.request REQUEST_SIZE
    (some request_copy,
     { valid_entries := cache.valid_entries - 1,
       entries := cache.entries.set lru_index.toNat
         { e with
           valid := 0, last_used := 0, response_size := -1,
           request := e.request.set 0 0, response := e.response.set 0 0 } })

/-- The function `update_last_used`: the cache and the counter after
`cache->entries[index].last_used = ++(*usage_counter)`. -/
def update_last_used (cache : cache_t) (index : Nat) (usage_counter : Nat) : cache_t × Nat :=
  let counter := (usage_counter + 1) % 2 ^ 64
  (cache.set_entry index { cache.entry index with last_used := counter }, counter)

def search_cache_hit (cache : cache_t) (request : List Nat) : Int :=
  match (List.range CACHE_SIZE).find?
      (fun i => (cache.entry i).valid == 1 && strcmp_eq (cache.entry i).request request) with
  | some i => i
  | none => -1

/-- The function `add_cache_entry` with the global counter and the clock made explicit:
returned index, cache and counter.  The result is `none` where the C code leaves
the arrays: no invalid slot (index `-1`), a negative `response_size`, or a
`response` holding fewer than `response_size` bytes. -/
def add_cache_entry (cache : cache_t) (usage_counter : Nat) (request response : List Nat)
    (response_size : Int) (now : Int) : Option (Int × cache_t × Nat) :=
  if strlen request ≥ REQUEST_SIZE ∨ response_size > RESPONSE_SIZE then
    some (-1, cache, usage_counter)
  else
    let index := find_invalid_entry cache
    if index < 0 ∨ response_size < 0 ∨ (response.length : Int) < response_size then none
    else
      let i := index.toNat
      let e := cache.entry i
      let cache1 := cache.set_entry i
        { e with
          valid := 1,
          request := strncpy e.request request REQUEST_SIZE,
          response := memcpy e.response response response_size.toNat,
          response_size := response_size }
      let (cache2, counter) := update_last_used cache1 i usage_counter
      let cache3 := cache2.set_entry i
        { cache2.entry i with cached_time := now, max_age := get_max_age response }
      let cache4 :=
        if cache3.valid_entries < CACHE_SIZE then
          { cache3 with valid_entries := cache3.valid_entries + 1 }
        else cache3
      some (index, cache4, counter)

/-- The function `serve_from_cache` when every `send` succeeds: the bytes sent to the
client, the cache and the counter. -/
def serve_from_cache (cache : cache_t) (cache_index : Nat) (usage_counter : Nat) :
    List Nat × cache_t × Nat :=
  let response_length := (cache.entry cache_index).response_size
  let response := (cache.entry cache_index).response
  let (cache1, counter) := update_last_used cache cache_index usage_counter
  (response.take response_length.toNat, cache1, counter)

/-- The function `is_timed_out`, with `now` the value of `time(NULL)`. -/
def is_timed_out (cache : cache_t) (index : Nat) (now : Int) : Int :=
  if (cache.entry index).max_age = -1 then 0
  else if now - (cache.entry index).cached_time ≥ (cache.entry index).max_age then 1
  else 0

def evict_cache_entry (cache : cache_t) (index : Nat) : cache_t :=
  let e := cache.entry index
  { valid_entries := cache.valid_entries - 1,
    entries := cache.entries.set index
      { e with
        valid := 0, last_used := 0, cached_time := 0, max_age := -1,
        response_size := -1, request := e.request.set 0 0, response := e.response.set 0 0 } }

/-! ## Sequences of inserts and sample states -/

/-- One call `add_cache_entry(cache, request, response, response_size)` made at clock
value `now`. -/
structure insert_call where
  request : List Nat
  response : List Nat
  response_size : Int
  now : Int
  deriving DecidableEq, Repr

/-- Successive calls of `add_cache_entry`: the indices returned, the final cache and
counter. -/
def insert_all (cache : cache_t) (usage_counter : Nat) :
    List insert_call → Option (List Int × cache_t × Nat)
  | [] => some ([], cache, usage_counter)
  | r :: rs =>
    match add_cache_entry cache usage_counter r.request r.response r.response_size r.now with
    | none => none
    | some (i, cache1, counter1) =>
      match insert_all cache1 counter1 rs with
      | none => none
      | some (is, cache2, counter2) => some (i :: is, cache2, counter2)

/-- A slot as `init_cache` leaves it, with small buffers. -/
def blank_entry (i : Nat) : cache_entry_t :=
  { index := i, valid := 0, request := [0, 0, 0, 0], response := [0, 0, 0, 0],
    response_size := -1, last_used := 0, cached_time := 0, max_age := -1 }

/-- A valid slot holding `key` and `body`, stamped `tick`. -/
def used_entry (i : Nat) (key body : List Nat) (tick : Nat) : cache_entry_t :=
  { index := i, valid := 1, request := key ++ [0], response := body,
    response_size := body.length, last_used := tick, cached_time := 100, max_age := -1 }

/-- A cache with three valid slots; slot 1 is the least recently used. -/
def sample_cache : cache_t :=
  { valid_entries := 3,
    entries :=
      [used_entry 0 (bytes "a") (bytes "A") 7, used_entry 1 (bytes "b") (bytes "B") 4,
       blank_entry 2, used_entry 3 (bytes "c") (bytes "C") 9, blank_entry 4, blank_entry 5,
       blank_entry 6, blank_entry 7, blank_entry 8, blank_entry 9] }

/-- A cache whose ten slots are all valid. -/
def full_cache : cache_t :=
  { valid_entries := 10,
    entries := (List.range 10).map (fun i => used_entry i [97 + i] [65 + i] (i + 1)) }

/-- A request key of exactly `REQUEST_SIZE` characters. -/
def key_2048 : List Nat := List.replicate 2048 97

/-- The slot `e` holds what the call `r` asked to store. -/
def stores (e : cache_entry_t) (r : insert_call) : Prop :=
  e.valid = 1 ∧ cstr e.request = cstr r.request ∧ e.response_size = r.response_size ∧
  e.response.take r.response_size.toNat = r.response.take r.response_size.toNat

/-- The call `r` is within the limits of `add_cache_entry` and its buffer holds
`response_size` bytes. -/
def admissible (r : insert_call) : Prop :=
  strlen r.request < REQUEST_SIZE ∧ 0 ≤ r.response_size ∧
  r.response_size ≤ RESPONSE_SIZE ∧ r.response_size ≤ r.response.length

/-- Two inserts with distinct keys. -/
def sample_inserts : List insert_call :=
  [{ request := bytes "GET /a", response := bytes "alpha", response_size := 5, now := 10 },
   { request := bytes "GET /b", response := bytes "beta", response_size := 4, now := 11 }]

/-! ## Request metadata (`proxy.c`) -/

/-- The call `strcasestr(hay, needle)` as an offset into `hay`, `none` for `NULL`. -/
def strcasestr (hay needle : List Nat) : Option Nat :=
  find_sub ((cstr needle).map tolower) ((cstr hay).map tolower)

/-- The function `extract_host`: the text between the blanks after the first
`"\r\nHost:"` and the next `"\r\n"`; `none` for `NULL`. -/
def extract_host (request : List Nat) : Option (List Nat) :=
  match strcasestr request (bytes "\r\nHost:") with
  | none => none
  | some offset =>
    let host_line := ((cstr request).drop (offset + 7)).dropWhile is_blank
    match strstr host_line (bytes "\r\n") with
    | none => none
    | some len => some (host_line.take len)

/-- The function `extract_request_uri` on the bytes of the request buffer.  Its three
loops test for space and tab only, so they step over NUL bytes; the result is `none`
when the last loop meets no space or tab inside the buffer, where the C code reads
past the terminator at the end of the buffer. -/
def extract_request_uri (request : List Nat) : Option (List Nat) :=
  let path_start := (request.dropWhile (fun c => !is_blank c)).dropWhile is_blank
  match path_start.dropWhile (fun c => !is_blank c) with
  | [] => none
  | _ :: _ => some (path_start.takeWhile (fun c => !is_blank c))

/-! ## Connection pipeline (`start_proxy`, the body of the accept loop) -/

/-- What the upstream side of one connection does: `connect_to_host` fails,
`forward_request` returns `NULL` after `relayed` reached the client, or it relays
the whole response and returns its buffer (`response_length` is its length). -/
inductive upstream_t where
  | connect_failed
  | forward_failed (relayed : List Nat)
  | forwarded (response : List Nat)
  deriving DecidableEq, Repr

/-- The environment of one connection: the buffer `read_http_request` returns (`none`
for `NULL`), the clock read by `is_timed_out`, the upstream outcome and the clock read
by `add_cache_entry`. -/
structure conn_input where
  request : Option (List Nat)
  now_lookup : Int
  upstream : upstream_t
  now_insert : Int
  deriving DecidableEq, Repr

/-- State and observable effects after one connection: the cache, the use counter, the
bytes sent to the client and whether `connect_to_host` was called. -/
structure conn_result where
  cache : cache_t
  usage_counter : Nat
  to_client : List Nat
  connected : Bool
  deriving DecidableEq, Repr

/-- Value of `cache_index` after the block "Check if the request is in the cache". -/
def lookup_index (enable_cache : Bool) (cache : cache_t) (request : List Nat) : Int :=
  if enable_cache ∧ strlen request < REQUEST_SIZE then search_cache_hit cache request
  else -1

/-- The cache after the block "If cache is full, evict the LRU entry from the cache".
The log lines built from the evicted key are left out. -/
def lru_phase (enable_cache : Bool) (cache : cache_t) (cache_index : Int) : cache_t :=
  if enable_cache ∧ cache_index = -1 ∧ cache.valid_entries = CACHE_SIZE then
    (evict_lru_entry cache).2
  else cache

/-- The cache after `if (cache_index != -1) { evict_cache_entry(&cache, cache_index); }`. -/
def stale_phase (cache : cache_t) (cache_index : Int) : cache_t :=
  if cache_index ≠ -1 then evict_cache_entry cache cache_index.toNat else cache

/-- The part of the loop body after `forward_request` returned `response`: the
decision to cache it, the removal of the stale slot and the insert.  The result is
`none` where `add_cache_entry` leaves the slot array. -/
def store_phase (enable_cache : Bool) (cache1 : cache_t) (usage_counter : Nat)
    (cache_index : Int) (request response : List Nat) (now : Int) : Option conn_result :=
  let request_length := strlen request
  let response_length : Int := response.length
  let no_cache := check_no_cache response
  if enable_cache ∧ no_cache = 0 ∧ request_length ≤ REQUEST_SIZE ∧
      response_length ≤ RESPONSE_SIZE then
    match add_cache_entry (stale_phase cache1 cache_index) usage_counter request
        response response_length now with
    | none => none
    | some (_, cache3, counter3) => some ⟨cache3, counter3, response, true⟩
  else
    some ⟨stale_phase cache1 cache_index, usage_counter, response, true⟩

/-- The part of the loop body from `connect_to_host` on. -/
def forward_phase (enable_cache : Bool) (cache1 : cache_t) (usage_counter : Nat)
    (cache_index : Int) (request : List Nat) (inp : conn_input) : Option conn_result :=
  match inp.upstream with
  | upstream_t.connect_failed => some ⟨cache1, usage_counter, [], true⟩
  | upstream_t.forward_failed relayed => some ⟨cache1, usage_counter, relayed, true⟩
  | upstream_t.forwarded response =>
    store_phase enable_cache cache1 usage_counter cache_index request response inp.now_insert

/-- One iteration of the accept loop of `start_proxy` after a successful `accept`.
The result is `none` where the C code leaves its arrays (`extract_request_uri` or
`add_cache_entry`). -/
def handle_connection (enable_cache : Bool) (cache : cache_t) (usage_counter : Nat)
    (inp : conn_input) : Option conn_result :=
  match inp.request with
  | none => some ⟨cache, usage_counter, [], false⟩
  | some request =>
    match extract_request_uri request with
    | none => none
    | some _ =>
      if extract_host request = none then some ⟨cache, usage_counter, [], false⟩
      else
        let cache_index := lookup_index enable_cache cache request
        if cache_index ≠ -1 ∧ is_timed_out cache cache_index.toNat inp.now_lookup = 0 then
          let (sent, cache1, counter1) := serve_from_cache cache cache_index.toNat usage_counter
          some ⟨cache1, counter1, sent, false⟩
        else
          forward_phase enable_cache (lru_phase enable_cache cache cache_index) usage_counter
            cache_index request inp

/-- Cache states after `n` connections handled with the cache enabled, starting from
`init_cache` of the memory of `start_proxy` and `usage_counter = 0`. -/
inductive reachable_in : Nat → cache_t → Nat → Prop where
  | init (c0 : cache_t) (hshape : c0.entries.length = CACHE_SIZE) :
      reachable_in 0 (init_cache c0) 0
  | step (n : Nat) (cache : cache_t) (usage_counter : Nat) (inp : conn_input)
      (r : conn_result) :
      reachable_in n cache usage_counter →
      handle_connection true cache usage_counter inp = some r →
      reachable_in (n + 1) r.cache r.usage_counter

/-- Cache states reachable through any number of cache-enabled connections. -/
def reachable (cache : cache_t) (usage_counter : Nat) : Prop :=
  ∃ n, reachable_in n cache usage_counter

/-- Number of slots whose `valid` flag is 1. -/
def valid_count (cache : cache_t) : Nat :=
  cache.entries.countP (fun e => e.valid == 1)

/-- The invariant of the cache engine: `CACHE_SIZE` slots, every `valid` flag 0 or 1,
`valid_entries` the number of valid slots, and no key held by two valid slots. -/
def cache_inv (cache : cache_t) : Prop :=
  cache.entries.length = CACHE_SIZE ∧
  (∀ i < CACHE_SIZE, (cache.entry i).valid = 0 ∨ (cache.entry i).valid = 1) ∧
  cache.valid_entries = valid_count cache ∧
  (∀ i < CACHE_SIZE, ∀ j < CACHE_SIZE,
    (cache.entry i).valid = 1 → (cache.entry j).valid = 1 →
    cstr (cache.entry i).request = cstr (cache.entry j).request → i = j)

/-- No valid slot holds the key `request`. -/
def key_absent (cache : cache_t) (request : List Nat) : Prop :=
  ∀ i < CACHE_SIZE, ¬ ((cache.entry i).valid = 1 ∧
    cstr (cache.entry i).request = cstr request)

/-- Stamps after `n` connections: the counter has advanced at most `n` times and, as
long as `n` is below `2 ^ 64`, no valid slot is stamped later than the counter. -/
def tick_inv (n : Nat) (cache : cache_t) (usage_counter : Nat) : Prop :=
  usage_counter ≤ n ∧
  (n < 2 ^ 64 → ∀ i < CACHE_SIZE, (cache.entry i).valid = 1 →
    (cache.entry i).last_used ≤ usage_counter)

/-- A connection whose request misses the cache and whose response is cacheable. -/
def sample_conn : conn_input :=
  { request := some (bytes "GET /x HTTP/1.1\r\nHost: example.com\r\n\r\n"),
    now_lookup := 100,
    upstream := upstream_t.forwarded (bytes "HTTP/1.1 200 OK\r\nContent-Length: 5\r\n\r\nhello"),
    now_insert := 101 }

/-! ## The Cache-Control policy as the specification words it -/

/-- The non-empty pieces of `s` between the characters that satisfy `sep`. -/
def tokens (sep : Nat → Bool) (s : List Nat) : List (List Nat) :=
  (s.splitOnP sep).filter (fun piece => !piece.isEmpty)

/-- Carriage return or line feed. -/
def is_line_break (c : Nat) : Bool := c == 13 || c == 10

/-- The header lines of a header block: its maximal runs free of line breaks. -/
def spec_header_lines (block : List Nat) : List (List Nat) := tokens is_line_break block

/-- Case-insensitive equality of two texts. -/
def spec_caseless_eq (a b : List Nat) : Bool := a.map tolower == b.map tolower

/-- The line starts, case-insensitively, with `Cache-Control:`. -/
def spec_is_cache_control (line : List Nat) : Bool :=
  spec_caseless_eq (line.take 14) (bytes "Cache-Control:")

/-- A piece without its surrounding spaces and tabs. -/
def spec_strip (piece : List Nat) : List Nat :=
  (piece.dropWhile is_blank).rdropWhile is_blank

/-- The comma-separated pieces of a header value, each stripped. -/
def spec_directives (value : List Nat) : List (List Nat) :=
  (value.splitOnP (fun c => c == 44)).map spec_strip

/-- The piece is, case-insensitively, one of the six directives that forbid caching. -/
def spec_forbids_caching (piece : List Nat) : Bool :=
  cache_control_keywords.any (fun k => spec_caseless_eq piece k)

/-- Specification of `check_no_cache` on a header block: some `Cache-Control:` line
has a directive that forbids caching. -/
def spec_no_cache (block : List Nat) : Bool :=
  (spec_header_lines block).any
    (fun line => spec_is_cache_control line &&
      (spec_directives (line.drop 14)).any spec_forbids_caching)

/-- `block` is the text of `text` before its first `"\r\n\r\n"`. -/
def is_header_block (text block : List Nat) : Prop :=
  (∃ rest, text = block ++ bytes "\r\n\r\n" ++ rest) ∧
  ∀ k < block.length, (bytes "\r\n\r\n").isPrefixOf (text.drop k) = false

/-- A response whose `Cache-Control` value has mixed case and blanks around a directive
that forbids caching, and its header block. -/
def private_response : List Nat :=
  bytes "HTTP/1.1 200 OK\r\nCache-Control:  Private , max-age=100\r\n\r\nbody"

def private_block : List Nat :=
  bytes "HTTP/1.1 200 OK\r\nCache-Control:  Private , max-age=100"

/-- Largest value of `int`. -/
def INT_MAX : Nat := 2 ^ 31 - 1

/-- Decimal digits of `n`, most significant first (`fuel` bounds their number). -/
def decimal_digits : Nat → Nat → List Nat
  | 0, _ => []
  | fuel + 1, n =>
    if n < 10 then [n + 48] else decimal_digits fuel (n / 10) ++ [n % 10 + 48]

/-- The decimal numeral of `n` as text. -/
def spec_decimal (n : Nat) : List Nat := decimal_digits (n + 1) n

/-- The piece starts, after leading spaces and tabs and case-insensitively, with
`max-age=`. -/
def spec_is_max_age (piece : List Nat) : Bool :=
  spec_caseless_eq ((piece.dropWhile is_blank).take 8) (bytes "max-age=")

/-- Value of the first `Cache-Control:` line of a header block: the text after the
colon. -/
def spec_cache_control_value (block : List Nat) : Option (List Nat) :=
  ((spec_header_lines block).find? spec_is_cache_control).map (fun line => line.drop 14)

/-- What follows `max-age=` in the first comma-separated directive of `value` that
starts with it. -/
def spec_max_age_text (value : List Nat) : Option (List Nat) :=
  ((value.splitOnP (fun c => c == 44)).find? spec_is_max_age).map
    (fun piece => (piece.dropWhile is_blank).drop 8)

/-- The response of the specification's `max-age=120` example and its header block. -/
def max_age_response : List Nat :=
  bytes "HTTP/1.1 200 OK\r\nCache-Control: public, max-age=120\r\n\r\nbody"

def max_age_block : List Nat :=
  bytes "HTTP/1.1 200 OK\r\nCache-Control: public, max-age=120"

/-! ## A run that wraps the use counter -/

/-- Request number `i` of the run: `GET /a`, `GET /b`, ... for the host `h`. -/
def wrap_request (i : Nat) : List Nat :=
  bytes "GET /" ++ [97 + i] ++ bytes " HTTP/1.1\r\nHost: h\r\n\r\n"

/-- A cacheable response without `max-age`, so the entry never times out. -/
def wrap_response : List Nat := bytes "HTTP/1.1 200 OK\r\nContent-Length: 0\r\n\r\n"

/-- The connection that asks for `wrap_request i` and is answered by `wrap_response`. -/
def wrap_conn (i : Nat) : conn_input :=
  { request := some (wrap_request i), now_lookup := 0,
    upstream := upstream_t.forwarded wrap_response, now_insert := 0 }

/-- The first `k` slots hold the requests `0 .. k - 1` without expiry, the others are
free. -/
def filled (k : Nat) (c : cache_t) : Prop :=
  c.entries.length = CACHE_SIZE ∧ c.valid_entries = (k : Int) ∧
  (∀ i < k, (c.entry i).valid = 1 ∧ cstr (c.entry i).request = wrap_request i ∧
    (c.entry i).max_age = -1) ∧
  (∀ i, k ≤ i → i < CACHE_SIZE → (c.entry i).valid = 0)

/-! ## Request metadata as the specification words it -/

/-- Every valid slot holds a key with a `Host` header that is shorter than
`REQUEST_SIZE`, as every key stored by the pipeline is. -/
def key_inv (cache : cache_t) : Prop :=
  ∀ j < CACHE_SIZE, (cache.entry j).valid = 1 →
    extract_host (cache.entry j).request ≠ none ∧
    strlen (cache.entry j).request < REQUEST_SIZE

/-- The calls `serve_from_cache(cache, i, client)` for the slots `i` of a list, one after
the other: the cache and the counter afterwards. -/
def serve_all (cache : cache_t) (usage_counter : Nat) : List Nat → cache_t × Nat
  | [] => (cache, usage_counter)
  | i :: rest =>
    serve_all (serve_from_cache cache i usage_counter).2.1
      (serve_from_cache cache i usage_counter).2.2 rest

/-- Ten inserts with the keys `a` to `j`. -/
def ten_inserts : List insert_call :=
  (List.range 10).map (fun j =>
    { request := [97 + j], response := [65 + j], response_size := 1, now := 0 })

/-- Touches of the slots 2 to 9 and then of slot 1 until the use counter has wrapped. -/
def wrap_touches : List Nat :=
  [2, 3, 4, 5, 6, 7, 8, 9] ++ List.replicate (2 ^ 64 - 18) 1

/-! ## Reading from the sockets (`proxy.c`) -/

/-- Initial size of the buffers of the read loops (`proxy.h`). -/
def INIT_BUF_SIZE : Int := 2048

/-- Result of one call of `recv`: `-1`, or the bytes it stored in the buffer (none of
them when it returns 0). -/
inductive recv_t where
  | error
  | data (piece : List Nat)
  deriving DecidableEq, Repr

/-- How a read loop ends on a list of `recv` results: it returns the buffer with the
`total_read` bytes received (`returned`), it returns `NULL` (`failed`), it has consumed
every result and waits in `recv` (`blocked`), `bufsize *= 2` leaves the range of `int`
(`int_overflow`), a result is longer than the length passed to `recv`, which `recv`
never does (`bad_recv`), or `body_start - buffer` is computed with `body_start` being
`NULL` (`null_offset`). -/
inductive read_t where
  | returned (buffer : List Nat)
  | failed
  | blocked
  | int_overflow
  | bad_recv
  | null_offset
  deriving DecidableEq, Repr

/-- The buffer size of `read_http_request` after the `realloc` check of an iteration. -/
def request_bufsize (bufsize : Int) (total_read : Nat) : Int :=
  if (total_read : Int) > bufsize - 5 then bufsize * 2 else bufsize

/-- The length `read_http_request` passes to `recv`. -/
def request_len (bufsize : Int) (total_read : Nat) : Int := bufsize - total_read - 1

/-- The loop of `read_http_request` from the state `bufsize`, `buffer` (its first
`total_read` bytes) on the results of the coming `recv` calls. `malloc` and `realloc`
succeed. -/
def read_http_request_loop (bufsize : Int) (buffer : List Nat) : List recv_t → read_t
  | [] => read_t.blocked
  | ev :: evs =>
    let bufsize1 := request_bufsize bufsize buffer.length
    if bufsize1 > INT_MAX then read_t.int_overflow
    else
      match ev with
      | recv_t.error => read_t.failed
      | recv_t.data piece =>
        if (piece.length : Int) > request_len bufsize1 buffer.length then read_t.bad_recv
        else if piece.length = 0 then read_t.failed
        else
          let buffer1 := buffer ++ piece
          if strstr buffer1 (bytes "\r\n\r\n") ≠ none then read_t.returned buffer1
          else read_http_request_loop bufsize1 buffer1 evs

def read_http_request (events : List recv_t) : read_t :=
  read_http_request_loop INIT_BUF_SIZE [] events

/-- Every piece is at most as long as the length `read_http_request` passes to the
`recv` call that delivers it. -/
def request_respects (bufsize : Int) (total_read : Nat) : List (List Nat) → Bool
  | [] => true
  | p :: ps =>
    decide ((p.length : Int) ≤ request_len (request_bufsize bufsize total_read) total_read) &&
      request_respects (request_bufsize bufsize total_read) (total_read + p.length) ps

/-- The buffer size of `read_from_server` after the `realloc` check of an iteration. -/
def server_bufsize (bufsize : Int) (total_read : Nat) : Int :=
  if (total_read : Int) + 1 ≥ bufsize then bufsize * 2 else bufsize

/-- The length `read_from_server` passes to `recv`. -/
def server_len (bufsize : Int) (total_read : Nat) : Int := bufsize - (total_read + 1)

/-- The header check of one iteration of `read_from_server` on the NUL-terminated
buffer: the offset `body_start - buffer` (`none` for `NULL`), whether `cl` is non-`NULL`
and `content_length`. -/
def scan_headers (buffer : List Nat) (cl : Bool) (content_length : Int) :
    Option Nat × Bool × Int :=
  match strstr buffer (bytes "\r\n\r\n") with
  | none => (none, cl, content_length)
  | some off =>
    match strcasestr buffer (bytes "Content-Length:") with
    | none => (some (off + 4), false, content_length)
    | some k =>
      (some (off + 4), true,
        atoi (((cstr buffer).drop (k + strlen (bytes "Content-Length:"))).dropWhile is_blank))

/-- The loop of `read_from_server` from the state `bufsize`, `buffer` (its first
`total_read` bytes), `cl` (non-`NULL` or not) and `content_length`. -/
def read_from_server_loop (bufsize : Int) (buffer : List Nat) (cl : Bool)
    (content_length : Int) : List recv_t → read_t
  | [] => read_t.blocked
  | ev :: evs =>
    let bufsize1 := server_bufsize bufsize buffer.length
    if bufsize1 > INT_MAX then read_t.int_overflow
    else
      match ev with
      | recv_t.error => read_t.failed
      | recv_t.data piece =>
        if (piece.length : Int) > server_len bufsize1 buffer.length then read_t.bad_recv
        else
          let buffer1 := buffer ++ piece
          match scan_headers buffer1 cl content_length with
          | (body_start, cl1, content_length1) =>
            if cl1 then
              match body_start with
              | none => read_t.null_offset
              | some b =>
                if (buffer1.length : Int) - b ≥ content_length1 then read_t.returned buffer1
                else read_from_server_loop bufsize1 buffer1 cl1 content_length1 evs
            else read_from_server_loop bufsize1 buffer1 cl1 content_length1 evs

/-- The function `read_from_server`: the buffer it returns holds `*data_length` bytes. -/
def read_from_server (events : List recv_t) : read_t :=
  read_from_server_loop INIT_BUF_SIZE [] false 0 events

/-- Every piece is at most as long as the length `read_from_server` passes to the `recv`
call that delivers it. -/
def server_respects (bufsize : Int) (total_read : Nat) : List (List Nat) → Bool
  | [] => true
  | p :: ps =>
    decide ((p.length : Int) ≤ server_len (server_bufsize bufsize total_read) total_read) &&
      server_respects (server_bufsize bufsize total_read) (total_read + p.length) ps

/-- Pieces of the letter `a` that double in size: `m` pieces starting with `size` bytes. -/
def flood_from (size : Nat) : Nat → List (List Nat)
  | 0 => []
  | m + 1 => List.replicate size 97 :: flood_from (2 * size) m

/-- A request that starts with `2 ^ 30 - 1` letters `a`, delivered in pieces that fill
the buffer of `read_http_request` each time. -/
def flood_pieces : List (List Nat) := List.replicate 2047 97 :: flood_from 2048 19

/-- The text has `Content-Length:`, in any letter case, at offset `k`. -/
def spec_content_length_at (text : List Nat) (k : Nat) : Bool :=
  (bytes "content-length:").isPrefixOf ((text.map tolower).drop k)

/-- A header block whose first `Content-Length:` (in any letter case) carries the value
`n`: the block is NUL-free, has no `"\r\n\r\n"` before its end, and is `pre`, the header
name, blanks, the decimal digits of `n` and a `tail` that does not start with a digit. -/
def content_length_block (header pre name blanks tail : List Nat) (n : Nat) : Prop :=
  header = pre ++ name ++ blanks ++ spec_decimal n ++ tail ∧
  0 ∉ header ∧
  (∀ k < header.length,
    (bytes "\r\n\r\n").isPrefixOf ((header ++ bytes "\r\n\r\n").drop k) = false) ∧
  name.map tolower = bytes "content-length:" ∧
  (∀ k < pre.length, spec_content_length_at header k = false) ∧
  (∀ c ∈ blanks, is_blank c = true) ∧
  (∀ c ∈ tail.head?, isdigit c = false)

/-- A framed request whose request line is the method alone, answered by a cacheable
response. -/
def no_uri_conn : conn_input :=
  { request := some (bytes "GET\r\nHost: a b\r\n\r\n"),
    now_lookup := 100,
    upstream := upstream_t.forwarded (bytes "HTTP/1.1 200 OK\r\nContent-Length: 5\r\n\r\nhello"),
    now_insert := 101 }

/-- The bytes that a list of `recv` results delivers before the first failing call. -/
def received : List recv_t → List Nat
  | [] => []
  | recv_t.error :: _ => []
  | recv_t.data piece :: evs => piece ++ received evs

/-- Cache states reached from `init_cache`, with `usage_counter` 0, by the operations of
the cache engine: `add_cache_entry` that passes its size check and finds a free slot,
`serve_from_cache` of a valid slot, `evict_lru_entry` and `evict_cache_entry`. The first
index counts the touches (`update_last_used` calls) made on the way. -/
inductive ops_reach : Nat → cache_t → Nat → Prop where
  | init (c0 : cache_t) (hshape : c0.entries.length = CACHE_SIZE) :
      ops_reach 0 (init_cache c0) 0
  | add (t : Nat) (cache : cache_t) (usage_counter : Nat) (request response : List Nat)
      (response_size now : Int) (r : Int × cache_t × Nat) :
      ops_reach t cache usage_counter →
      strlen request < REQUEST_SIZE → response_size ≤ RESPONSE_SIZE →
      find_invalid_entry cache ≠ -1 →
      add_cache_entry cache usage_counter request response response_size now = some r →
      ops_reach (t + 1) r.2.1 r.2.2
  | serve (t : Nat) (cache : cache_t) (usage_counter : Nat) (i : Nat) :
      ops_reach t cache usage_counter →
      i < CACHE_SIZE → (cache.entry i).valid = 1 →
      ops_reach (t + 1) (serve_from_cache cache i usage_counter).2.1
        (serve_from_cache cache i usage_counter).2.2
  | evict_lru (t : Nat) (cache : cache_t) (usage_counter : Nat) :
      ops_reach t cache usage_counter →
      ops_reach t (evict_lru_entry cache).2 usage_counter
  | evict (t : Nat) (cache : cache_t) (usage_counter : Nat) (i : Nat) :
      ops_reach t cache usage_counter → i < CACHE_SIZE →
      ops_reach t (evict_cache_entry cache i) usage_counter

/-- The stamps of the valid slots: every `valid` flag is 0 or 1, every valid slot is
stamped between 1 and the counter, and no two valid slots share a stamp. -/
def stamp_inv (cache : cache_t) (usage_counter : Nat) : Prop :=
  (∀ i < CACHE_SIZE, (cache.entry i).valid = 0 ∨ (cache.entry i).valid = 1) ∧
  (∀ i < CACHE_SIZE, (cache.entry i).valid = 1 →
    1 ≤ (cache.entry i).last_used ∧ (cache.entry i).last_used ≤ usage_counter) ∧
  (∀ i < CACHE_SIZE, ∀ j < CACHE_SIZE, (cache.entry i).valid = 1 →
    (cache.entry j).valid = 1 → (cache.entry i).last_used = (cache.entry j).last_used → i = j)

/-- The fields that the cache engine reads of a valid slot are the same in both slots:
the request key, `response_size`, the first `response_size` response bytes, `last_used`,
`cached_time` and `max_age`. -/
@[reducible] def same_visible (e1 e2 : cache_entry_t) : Prop :=
  cstr e1.request = cstr e2.request ∧ e1.response_size = e2.response_size ∧
  e1.response.take e1.response_size.toNat = e2.response.take e2.response_size.toNat ∧
  e1.last_used = e2.last_used ∧ e1.cached_time = e2.cached_time ∧ e1.max_age = e2.max_age

/-- Two caches agree on `valid_entries`, on the `valid` flag of every slot and on what
the valid slots hold; the other fields of the invalid slots may differ. -/
@[reducible] def agree (c1 c2 : cache_t) : Prop :=
  c1.valid_entries = c2.valid_entries ∧
  c1.entries.length = CACHE_SIZE ∧ c2.entries.length = CACHE_SIZE ∧
  ∀ i < CACHE_SIZE, (c1.entry i).valid = (c2.entry i).valid ∧
    ((c1.entry i).valid ≠ 0 → same_visible (c1.entry i) (c2.entry i))

/-- One iteration of the loop of `read_http_request` from `bufsize` and `buffer` (its
first `total_read` bytes) on the result of its `recv` call: the outcome of the function
when the iteration ends it (`Sum.inl`), otherwise `bufsize` and `buffer` at the start of
the next iteration (`Sum.inr`). -/
def request_step (bufsize : Int) (buffer : List Nat) (ev : recv_t) :
    Sum read_t (Int × List Nat) :=
  let bufsize1 := request_bufsize bufsize buffer.length
  if bufsize1 > INT_MAX then Sum.inl read_t.int_overflow
  else
    match ev with
    | recv_t.error => Sum.inl read_t.failed
    | recv_t.data piece =>
      if (piece.length : Int) > request_len bufsize1 buffer.length then Sum.inl read_t.bad_recv
      else if piece.length = 0 then Sum.inl read_t.failed
      else if strstr (buffer ++ piece) (bytes "\r\n\r\n") ≠ none then
        Sum.inl (read_t.returned (buffer ++ piece))
      else Sum.inr (bufsize1, buffer ++ piece)

/-- The states `(bufsize, buffer)` at the start of the iterations that the loop of
`read_http_request` runs on the given `recv` results. -/
def request_iterations (bufsize : Int) (buffer : List Nat) : List recv_t → List (Int × List Nat)
  | [] => [(bufsize, buffer)]
  | ev :: evs =>
    (bufsize, buffer) ::
      match request_step bufsize buffer ev with
      | Sum.inl _ => []
      | Sum.inr s => request_iterations s.1 s.2 evs

/-- One iteration of the loop of `read_from_server`: the outcome of the function when the
iteration ends it, otherwise `bufsize`, `buffer`, `cl` (non-`NULL` or not) and
`content_length` at the start of the next iteration. -/
def server_step (bufsize : Int) (buffer : List Nat) (cl : Bool) (content_length : Int)
    (ev : recv_t) : Sum read_t (Int × List Nat × Bool × Int) :=
  let bufsize1 := server_bufsize bufsize buffer.length
  if bufsize1 > INT_MAX then Sum.inl read_t.int_overflow
  else
    match ev with
    | recv_t.error => Sum.inl read_t.failed
    | recv_t.data piece =>
      if (piece.length : Int) > server_len bufsize1 buffer.length then Sum.inl read_t.bad_recv
      else
        let buffer1 := buffer ++ piece
        match scan_headers buffer1 cl content_length with
        | (body_start, cl1, content_length1) =>
          if cl1 then
            match body_start with
            | none => Sum.inl read_t.null_offset
            | some b =>
              if (buffer1.length : Int) - b ≥ content_length1 then
                Sum.inl (read_t.returned buffer1)
              else Sum.inr (bufsize1, buffer1, cl1, content_length1)
          else Sum.inr (bufsize1, buffer1, cl1, content_length1)

/-- The states at the start of the iterations that the loop of `read_from_server` runs on
the given `recv` results. -/
def server_iterations (bufsize : Int) (buffer : List Nat) (cl : Bool) (content_length : Int) :
    List recv_t → List (Int × List Nat × Bool × Int)
  | [] => [(bufsize, buffer, cl, content_length)]
  | ev :: evs =>
    (bufsize, buffer, cl, content_length) ::
      match server_step bufsize buffer cl content_length ev with
      | Sum.inl _ => []
      | Sum.inr s => server_iterations s.1 s.2.1 s.2.2.1 s.2.2.2 evs

/-- The loop body of `start_proxy` run on one connection after the other: the cache and
the counter after the last one, `none` when a run leaves the arrays. -/
def run_connections (cache : cache_t) (usage_counter : Nat) :
    List conn_input → Option (cache_t × Nat)
  | [] => some (cache, usage_counter)
  | inp :: rest =>
    match handle_connection true cache usage_counter inp with
    | none => none
    | some r => run_connections r.cache r.usage_counter rest

/-- Eleven connections with pairwise different requests, each answered by a cacheable
response: the eleventh finds the cache full. -/
def eleven_conns : List conn_input := (List.range 11).map wrap_conn

/-- A connection whose upstream answers with a response that may be cached for one
second. -/
def short_lived_conn : conn_input :=
  { request := some (bytes "GET /x HTTP/1.1\r\nHost: example.com\r\n\r\n"),
    now_lookup := 100,
    upstream := upstream_t.forwarded
      (bytes "HTTP/1.1 200 OK\r\nCache-Control: max-age=1\r\nContent-Length: 5\r\n\r\nhello"),
    now_insert := 101 }

/-- The same request a hundred seconds later, answered with a `no-store` response. -/
def no_store_conn : conn_input :=
  { request := some (bytes "GET /x HTTP/1.1\r\nHost: example.com\r\n\r\n"),
    now_lookup := 200,
    upstream := upstream_t.forwarded
      (bytes "HTTP/1.1 200 OK\r\nCache-Control: no-store\r\nContent-Length: 5\r\n\r\nhello"),
    now_insert := 201 }

/-- The text behind the white space and the optional sign that `atoi` skips. -/
def spec_after_sign (text : List Nat) : List Nat :=
  match text.dropWhile isspace with
  | [] => []
  | c :: cs => if c = 45 ∨ c = 43 then cs else c :: cs

/-- The text starts with a number as `atoi` reads one: optional white space, an optional
sign and at least one decimal digit. -/
def spec_has_number (text : List Nat) : Bool :=
  match spec_after_sign text with
  | [] => false
  | c :: _ => isdigit c

/-! # Properties -/

/-! ## Eviction of the least recently used slot -/

theorem lru_scan_range (cache : cache_t) (n : Nat) :
    ((List.range n).foldl (lru_step cache) (-1, ULONG_MAX) = (-1, ULONG_MAX) ∧
      ∀ i < n, ¬ ((cache.entry i).valid = 1 ∧ (cache.entry i).last_used < ULONG_MAX)) ∨
    (∃ k < n,
      (List.range n).foldl (lru_step cache) (-1, ULONG_MAX)
        = ((k : Int), (cache.entry k).last_used) ∧
      (cache.entry k).valid = 1 ∧ (cache.entry k).last_used < ULONG_MAX ∧
      (∀ j < n, (cache.entry j).valid = 1 →
        (cache.entry k).last_used ≤ (cache.entry j).last_used) ∧
      (∀ j < k, (cache.entry j).valid = 1 →
        (cache.entry k).last_used < (cache.entry j).last_used)) := by
  induction n with
  | zero => left; simp
  | succ n ih =>
    rw [List.range_succ, List.foldl_append, List.foldl_cons, List.foldl_nil]
    rcases ih with ⟨hp, hnone⟩ | ⟨k, hk, hp, hv, hlt, hmin, hfirst⟩
    · rw [hp]
      by_cases hc : (cache.entry n).valid = 1 ∧ (cache.entry n).last_used < ULONG_MAX
      · right
        refine ⟨n, Nat.lt_succ_self n, ?_, hc.1, hc.2, ?_, ?_⟩
        · simp [lru_step, hc]
        · intro j hj hjv
          rcases Nat.lt_succ_iff_lt_or_eq.mp hj with hj | hj
          · have := hnone j hj
            have h2 : ¬ (cache.entry j).last_used < ULONG_MAX := fun h => this ⟨hjv, h⟩
            omega
          · subst hj; exact le_refl _
        · intro j hj hjv
          have := hnone j hj
          have h2 : ¬ (cache.entry j).last_used < ULONG_MAX := fun h => this ⟨hjv, h⟩
          omega
      · left
        refine ⟨by simp [lru_step, hc], ?_⟩
        intro i hi
        rcases Nat.lt_succ_iff_lt_or_eq.mp hi with hi | hi
        · exact hnone i hi
        · subst hi; exact hc
    · rw [hp]
      right
      by_cases hc : (cache.entry n).valid = 1 ∧
          (cache.entry n).last_used < (cache.entry k).last_used
      · refine ⟨n, Nat.lt_succ_self n, ?_, hc.1, by omega, ?_, ?_⟩
        · simp [lru_step, hc]
        · intro j hj hjv
          rcases Nat.lt_succ_iff_lt_or_eq.mp hj with hj | hj
          · have := hmin j hj hjv; omega
          · subst hj; exact le_refl _
        · intro j hj hjv
          have := hmin j hj hjv; omega
      · refine ⟨k, Nat.lt_succ_of_lt hk, ?_, hv, hlt, ?_, hfirst⟩
        · simp [lru_step, hc]
        · intro j hj hjv
          rcases Nat.lt_succ_iff_lt_or_eq.mp hj with hj | hj
          · exact hmin j hj hjv
          · subst hj
            by_contra hcon
            exact hc ⟨hjv, by omega⟩

theorem entry_set_same (v : Int) (l : List cache_entry_t) (i : Nat) (e : cache_entry_t)
    (hi : i < l.length) :
    (cache_t.mk v (l.set i e)).entry i = e := by
  simp [cache_t.entry, List.getD_eq_getElem?_getD, hi]

theorem entry_set_other (v : Int) (l : List cache_entry_t) (i j : Nat) (e : cache_entry_t)
    (hij : j ≠ i) :
    (cache_t.mk v (l.set i e)).entry j = (cache_t.mk v l).entry j := by
  simp [cache_t.entry, List.getD_eq_getElem?_getD, List.getElem?_set_ne (Ne.symm hij)]

theorem cstr_set_zero (buf : List Nat) : cstr (buf.set 0 0) = [] := by
  cases buf <;> simp [cstr]

theorem zero_not_mem_cstr (buf : List Nat) : 0 ∉ cstr buf := by
  intro h
  have := List.mem_takeWhile_imp h
  simp at this

theorem cstr_of_not_mem (a : List Nat) (ha : 0 ∉ a) : cstr a = a := by
  unfold cstr
  rw [List.takeWhile_eq_self_iff]
  intro x hx
  have : x ≠ 0 := fun h => ha (h ▸ hx)
  simpa using this

theorem cstr_idem (buf : List Nat) : cstr (cstr buf) = cstr buf :=
  cstr_of_not_mem _ (zero_not_mem_cstr buf)

theorem cstr_append_zero (a b : List Nat) (ha : cstr a = a) : cstr (a ++ 0 :: b) = a := by
  have hz : 0 ∉ a := ha ▸ zero_not_mem_cstr a
  clear ha
  unfold cstr
  induction a with
  | nil => simp
  | cons c cs ih =>
    have hc : c ≠ 0 := fun h => hz (by simp [h])
    have hcs : 0 ∉ cs := fun h => hz (by simp [h])
    simp [List.takeWhile_cons, hc, ih hcs]

theorem cstr_append_nil (a : List Nat) (ha : cstr a = a) : cstr (a ++ []) = a := by
  simpa using ha

/-- Reading back what `strncpy` stored: a string shorter than `n` is stored whole. -/
theorem cstr_strncpy (dst src : List Nat) (n : Nat) (h : strlen src < n) :
    cstr (strncpy dst src n) = cstr src := by
  unfold strncpy
  have h1 : (cstr src).take n = cstr src := List.take_of_length_le (by unfold strlen at h; omega)
  obtain ⟨m, hm⟩ : ∃ m, n - strlen src = m + 1 := ⟨n - strlen src - 1, by omega⟩
  rw [h1, hm, List.replicate_succ, List.append_assoc, List.cons_append]
  exact cstr_append_zero _ _ (cstr_idem src)

/-- The block `evict_lru_entry` returns: a key of at most `n` characters comes back whole. -/
theorem cstr_strncpy_nil (src : List Nat) (n : Nat) (h : strlen src ≤ n) :
    cstr (strncpy [] src n) = cstr src := by
  rcases Nat.lt_or_eq_of_le h with h | h
  · exact cstr_strncpy [] src n h
  · unfold strncpy
    have h1 : (cstr src).take n = cstr src := List.take_of_length_le (by unfold strlen at h; omega)
    rw [h1, h]
    simpa using cstr_idem src

theorem lru_scan_fst_toNat (k : Nat) : ((k : Int)).toNat = k := Int.toNat_natCast k

/-- C1: on a cache whose valid slots all have `last_used` below `ULONG_MAX`,
`evict_lru_entry` picks the valid slot `k` with the smallest `last_used` (the lowest
index among equal stamps), invalidates it, decrements `valid_entries`, returns a copy
of its request key and leaves every other slot unchanged; with no valid slot it
returns `NULL` and changes nothing. -/
theorem evict_lru_entry_spec (cache : cache_t)
    (hlen : cache.entries.length = CACHE_SIZE)
    (hstr : ∀ i < CACHE_SIZE, strlen (cache.entry i).request ≤ REQUEST_SIZE)
    (hmax : ∀ i < CACHE_SIZE, (cache.entry i).valid = 1 →
      (cache.entry i).last_used < ULONG_MAX) :
    ((∃ i < CACHE_SIZE, (cache.entry i).valid = 1) →
      ∃ k < CACHE_SIZE,
        (cache.entry k).valid = 1 ∧
        (∀ j < CACHE_SIZE, (cache.entry j).valid = 1 →
          (cache.entry k).last_used ≤ (cache.entry j).last_used) ∧
        (∀ j < k, (cache.entry j).valid = 1 →
          (cache.entry k).last_used < (cache.entry j).last_used) ∧
        (∃ r, (evict_lru_entry cache).1 = some r ∧ cstr r = cstr (cache.entry k).request) ∧
        ((evict_lru_entry cache).2.entry k).valid = 0 ∧
        (evict_lru_entry cache).2.valid_entries = cache.valid_entries - 1 ∧
        (evict_lru_entry cache).2.entries.length = CACHE_SIZE ∧
        (∀ j, j ≠ k → (evict_lru_entry cache).2.entry j = cache.entry j)) ∧
    ((∀ i < CACHE_SIZE, (cache.entry i).valid ≠ 1) →
      evict_lru_entry cache = (none, cache)) := by
  constructor
  · rintro ⟨i, hi, hiv⟩
    rcases lru_scan_range cache CACHE_SIZE with ⟨_, hnone⟩ | ⟨k, hk, hp, hv, _, hmin, hfirst⟩
    · exact absurd ⟨hiv, hmax i hi hiv⟩ (hnone i hi)
    · have hidx : (lru_scan cache).1 = (k : Int) := by unfold lru_scan; rw [hp]
      have hne : ¬ ((k : Int) = -1) := by omega
      refine ⟨k, hk, hv, hmin, hfirst, ?_, ?_, ?_, ?_, ?_⟩
      · refine ⟨strncpy [] (cache.entry k).request REQUEST_SIZE, ?_,
          cstr_strncpy_nil _ _ (hstr k hk)⟩
        simp [evict_lru_entry, hidx, hne]
      · simp only [evict_lru_entry, hidx, hne, if_false, lru_scan_fst_toNat]
        rw [entry_set_same _ _ k _ (by omega)]
      · simp [evict_lru_entry, hidx, hne]
      · simp [evict_lru_entry, hidx, hne, hlen]
      · intro j hj
        simp only [evict_lru_entry, hidx, hne, if_false, lru_scan_fst_toNat]
        rw [entry_set_other _ _ k j _ hj]
        rfl
  · intro hall
    rcases lru_scan_range cache CACHE_SIZE with ⟨hp, _⟩ | ⟨k, hk, _, hv, _⟩
    · have hidx : (lru_scan cache).1 = -1 := by unfold lru_scan; rw [hp]
      simp [evict_lru_entry, hidx]
    · exact absurd hv (hall k hk)

/-- C6: `is_timed_out` is 0 when `max_age` is the absent value `-1`; otherwise it is 1
exactly when `now - cached_time >= max_age` and 0 when `now - cached_time < max_age`. -/
theorem is_timed_out_spec (cache : cache_t) (index : Nat) (now : Int) :
    ((cache.entry index).max_age = -1 → is_timed_out cache index now = 0) ∧
    ((cache.entry index).max_age ≠ -1 →
      (is_timed_out cache index now = 1 ↔
        now - (cache.entry index).cached_time ≥ (cache.entry index).max_age) ∧
      (now - (cache.entry index).cached_time < (cache.entry index).max_age →
        is_timed_out cache index now = 0)) := by
  refine ⟨fun h => by simp [is_timed_out, h], fun h => ⟨?_, fun hlt => ?_⟩⟩
  · by_cases hge : now - (cache.entry index).cached_time ≥ (cache.entry index).max_age
    · simp [is_timed_out, h, hge]
    · simp [is_timed_out, h, hge]
  · have hge : ¬ now - (cache.entry index).cached_time ≥ (cache.entry index).max_age := by
      omega
    simp [is_timed_out, h, hge]

/-- C1 at `sample_cache`: slot 1 (stamp 4) is the one evicted. -/
theorem evict_lru_entry_spec_witness :
    sample_cache.entries.length = CACHE_SIZE ∧
    (evict_lru_entry sample_cache).1.map cstr = some (bytes "b") ∧
    ((∃ i < CACHE_SIZE, (sample_cache.entry i).valid = 1) →
      ∃ k < CACHE_SIZE,
        (sample_cache.entry k).valid = 1 ∧
        (∀ j < CACHE_SIZE, (sample_cache.entry j).valid = 1 →
          (sample_cache.entry k).last_used ≤ (sample_cache.entry j).last_used) ∧
        (∀ j < k, (sample_cache.entry j).valid = 1 →
          (sample_cache.entry k).last_used < (sample_cache.entry j).last_used) ∧
        (∃ r, (evict_lru_entry sample_cache).1 = some r ∧
          cstr r = cstr (sample_cache.entry k).request) ∧
        ((evict_lru_entry sample_cache).2.entry k).valid = 0 ∧
        (evict_lru_entry sample_cache).2.valid_entries = sample_cache.valid_entries - 1 ∧
        (evict_lru_entry sample_cache).2.entries.length = CACHE_SIZE ∧
        (∀ j, j ≠ k → (evict_lru_entry sample_cache).2.entry j = sample_cache.entry j)) :=
  ⟨by decide, by decide,
    (evict_lru_entry_spec sample_cache (by decide) (by decide) (by decide)).1⟩

/-! ## Slot search and insertion -/

theorem find_range_cases (p : Nat → Bool) (n : Nat) :
    ((List.range n).find? p = none ∧ ∀ i < n, p i = false) ∨
    ∃ i < n, (List.range n).find? p = some i ∧ p i = true ∧ ∀ j < i, p j = false := by
  induction n with
  | zero => left; simp
  | succ n ih =>
    rw [List.range_succ, List.find?_append]
    rcases ih with ⟨hnone, hall⟩ | ⟨i, hi, hsome, hpi, hfirst⟩
    · rw [hnone]
      by_cases hp : p n = true
      · right
        exact ⟨n, Nat.lt_succ_self n, by simp [List.find?_cons, hp], hp, hall⟩
      · left
        refine ⟨by simp [List.find?_cons, hp], ?_⟩
        intro i hi
        rcases Nat.lt_succ_iff_lt_or_eq.mp hi with hi | hi
        · exact hall i hi
        · subst hi; simpa using hp
    · right
      exact ⟨i, Nat.lt_succ_of_lt hi, by simp [hsome], hpi, hfirst⟩

theorem find_invalid_entry_cases (cache : cache_t) :
    (find_invalid_entry cache = -1 ∧ ∀ i < CACHE_SIZE, (cache.entry i).valid ≠ 0) ∨
    ∃ i < CACHE_SIZE, find_invalid_entry cache = (i : Int) ∧ (cache.entry i).valid = 0 ∧
      ∀ j < i, (cache.entry j).valid ≠ 0 := by
  rcases find_range_cases (fun i => (cache.entry i).valid == 0) CACHE_SIZE with
    ⟨hnone, hall⟩ | ⟨i, hi, hsome, hpi, hfirst⟩
  · left
    refine ⟨by simp only [find_invalid_entry, hnone], ?_⟩
    intro i hi
    simpa using hall i hi
  · right
    refine ⟨i, hi, by simp only [find_invalid_entry, hsome], by simpa using hpi, ?_⟩
    intro j hj
    simpa using hfirst j hj

theorem search_cache_hit_cases (cache : cache_t) (request : List Nat) :
    (search_cache_hit cache request = -1 ∧
      ∀ i < CACHE_SIZE,
        ¬ ((cache.entry i).valid = 1 ∧ cstr (cache.entry i).request = cstr request)) ∨
    ∃ i < CACHE_SIZE, search_cache_hit cache request = (i : Int) ∧
      (cache.entry i).valid = 1 ∧ cstr (cache.entry i).request = cstr request ∧
      ∀ j < i, ¬ ((cache.entry j).valid = 1 ∧ cstr (cache.entry j).request = cstr request) := by
  rcases find_range_cases
      (fun i => (cache.entry i).valid == 1 && strcmp_eq (cache.entry i).request request)
      CACHE_SIZE with ⟨hnone, hall⟩ | ⟨i, hi, hsome, hpi, hfirst⟩
  · left
    refine ⟨by simp only [search_cache_hit, hnone], ?_⟩
    intro i hi
    simpa [strcmp_eq] using hall i hi
  · right
    have hpi' : (cache.entry i).valid = 1 ∧ cstr (cache.entry i).request = cstr request := by
      simpa [strcmp_eq] using hpi
    refine ⟨i, hi, by simp only [search_cache_hit, hsome], hpi'.1, hpi'.2, ?_⟩
    intro j hj
    simpa [strcmp_eq] using hfirst j hj

/-- The slot `add_cache_entry` writes for an accepted insert. -/
theorem add_cache_entry_accept (cache : cache_t) (usage_counter : Nat)
    (request response : List Nat) (response_size now : Int) (i : Nat)
    (hlen : cache.entries.length = CACHE_SIZE) (hi : i < CACHE_SIZE)
    (hfind : find_invalid_entry cache = (i : Int))
    (hkey : strlen request < REQUEST_SIZE) (h0 : 0 ≤ response_size)
    (hmax : response_size ≤ RESPONSE_SIZE) (hbuf : response_size ≤ response.length) :
    add_cache_entry cache usage_counter request response response_size now =
      some ((i : Int),
        { valid_entries :=
            if cache.valid_entries < CACHE_SIZE then cache.valid_entries + 1
            else cache.valid_entries,
          entries := cache.entries.set i
            { index := (cache.entry i).index, valid := 1,
              request := strncpy (cache.entry i).request request REQUEST_SIZE,
              response := memcpy (cache.entry i).response response response_size.toNat,
              response_size := response_size,
              last_used := (usage_counter + 1) % 2 ^ 64,
              cached_time := now, max_age := get_max_age response } },
        (usage_counter + 1) % 2 ^ 64) := by
  have h1 : ¬ (strlen request ≥ REQUEST_SIZE ∨ response_size > (RESPONSE_SIZE : Int)) := by
    omega
  have h2 : ¬ ((i : Int) < 0 ∨ response_size < 0 ∨ (response.length : Int) < response_size) := by
    omega
  have hil : i < cache.entries.length := by omega
  simp only [add_cache_entry, h1, hfind, h2, if_false, update_last_used, cache_t.set_entry,
    Int.toNat_natCast, entry_set_same _ _ i _ hil, List.set_set]
  split <;> simp_all [List.set_set]

/-- An accepted insert writes the first invalid slot and no other. -/
theorem add_cache_entry_frame (cache : cache_t) (usage_counter : Nat)
    (request response : List Nat) (response_size now : Int) (i : Nat)
    (hlen : cache.entries.length = CACHE_SIZE) (hi : i < CACHE_SIZE)
    (hfind : find_invalid_entry cache = (i : Int))
    (hkey : strlen request < REQUEST_SIZE) (h0 : 0 ≤ response_size)
    (hmax : response_size ≤ RESPONSE_SIZE) (hbuf : response_size ≤ response.length) :
    ∃ cache1 : cache_t,
      add_cache_entry cache usage_counter request response response_size now
        = some ((i : Int), cache1, (usage_counter + 1) % 2 ^ 64) ∧
      cache1.entries.length = CACHE_SIZE ∧
      cache1.valid_entries =
        (if cache.valid_entries < CACHE_SIZE then cache.valid_entries + 1
         else cache.valid_entries) ∧
      cache1.entry i =
        { index := (cache.entry i).index, valid := 1,
          request := strncpy (cache.entry i).request request REQUEST_SIZE,
          response := memcpy (cache.entry i).response response response_size.toNat,
          response_size := response_size,
          last_used := (usage_counter + 1) % 2 ^ 64,
          cached_time := now, max_age := get_max_age response } ∧
      ∀ j, j ≠ i → cache1.entry j = cache.entry j := by
  refine ⟨_, add_cache_entry_accept cache usage_counter request response response_size now i
    hlen hi hfind hkey h0 hmax hbuf, by simpa using hlen, rfl,
    entry_set_same _ _ i _ (by omega), ?_⟩
  intro j hj
  rw [entry_set_other _ _ i j _ hj]
  rfl

theorem take_memcpy (dst src : List Nat) (n : Nat) (h : n ≤ src.length) :
    (memcpy dst src n).take n = src.take n := by
  unfold memcpy
  rw [List.take_append_of_le_length (by simp [h])]
  simp

/-- C9 (amended): with a free slot and `0 <= response_size`, `add_cache_entry` returns
`-1` and leaves the cache unchanged when the key has `REQUEST_SIZE` characters or more
or `response_size` exceeds `RESPONSE_SIZE`; every shorter key with a response of at
most `RESPONSE_SIZE` bytes is accepted and stored whole. -/
theorem add_cache_entry_size_check (cache : cache_t) (usage_counter : Nat)
    (request response : List Nat) (response_size now : Int)
    (hlen : cache.entries.length = CACHE_SIZE)
    (hfree : ∃ i < CACHE_SIZE, (cache.entry i).valid = 0)
    (h0 : 0 ≤ response_size) (hbuf : response_size ≤ response.length) :
    ((strlen request ≥ REQUEST_SIZE ∨ response_size > RESPONSE_SIZE) →
      add_cache_entry cache usage_counter request response response_size now
        = some (-1, cache, usage_counter)) ∧
    (strlen request < REQUEST_SIZE → response_size ≤ RESPONSE_SIZE →
      ∃ (i : Nat) (cache1 : cache_t) (counter : Nat),
        i < CACHE_SIZE ∧
        add_cache_entry cache usage_counter request response response_size now
          = some ((i : Int), cache1, counter) ∧
        (cache.entry i).valid = 0 ∧ (cache1.entry i).valid = 1 ∧
        cstr (cache1.entry i).request = cstr request ∧
        (cache1.entry i).response_size = response_size ∧
        (cache1.entry i).response.take response_size.toNat
          = response.take response_size.toNat) := by
  constructor
  · intro h
    simp [add_cache_entry, h]
  · intro hkey hmax
    rcases find_invalid_entry_cases cache with ⟨_, hall⟩ | ⟨i, hi, hfind, hv, _⟩
    · obtain ⟨i, hi, hv⟩ := hfree
      exact absurd hv (hall i hi)
    · refine ⟨i, _, _, hi,
        add_cache_entry_accept cache usage_counter request response response_size now i
          hlen hi hfind hkey h0 hmax hbuf, hv, ?_⟩
      rw [entry_set_same _ _ i _ (by omega)]
      refine ⟨rfl, cstr_strncpy _ _ _ hkey, rfl, take_memcpy _ _ _ ?_⟩
      omega

/-- C9 (amended) at `sample_cache`: a one-character key is stored in the free slot 2. -/
theorem add_cache_entry_size_check_witness :
    sample_cache.entries.length = CACHE_SIZE ∧
    (add_cache_entry sample_cache 9 (bytes "k") (bytes "xy") 2 50).map (fun r => r.1)
      = some 2 ∧
    (strlen (bytes "k") < REQUEST_SIZE → (2 : Int) ≤ RESPONSE_SIZE →
      ∃ (i : Nat) (cache1 : cache_t) (counter : Nat),
        i < CACHE_SIZE ∧
        add_cache_entry sample_cache 9 (bytes "k") (bytes "xy") 2 50
          = some ((i : Int), cache1, counter) ∧
        (sample_cache.entry i).valid = 0 ∧ (cache1.entry i).valid = 1 ∧
        cstr (cache1.entry i).request = cstr (bytes "k") ∧
        (cache1.entry i).response_size = 2 ∧
        (cache1.entry i).response.take (2 : Int).toNat = (bytes "xy").take (2 : Int).toNat) :=
  ⟨by decide, by decide,
    (add_cache_entry_size_check sample_cache 9 (bytes "k") (bytes "xy") 2 50 (by decide)
      ⟨2, by decide, by decide⟩ (by decide) (by decide)).2⟩

theorem strlen_key_2048 : strlen key_2048 = 2048 := by
  unfold strlen
  rw [cstr_of_not_mem]
  · exact List.length_replicate 2048 97
  · intro h
    have := List.eq_of_mem_replicate h
    omega

/-- C9 as stated fails: a key of exactly `REQUEST_SIZE` characters does not exceed the
maximum, the response is within its limit and slot 2 is free, yet `add_cache_entry`
returns `-1` and stores nothing. -/
theorem add_cache_entry_rejects_key_of_request_size :
    strlen key_2048 = REQUEST_SIZE ∧ ¬ (strlen key_2048 > REQUEST_SIZE) ∧
    ¬ ((1 : Int) > RESPONSE_SIZE) ∧ (sample_cache.entry 2).valid = 0 ∧
    add_cache_entry sample_cache 9 key_2048 (bytes "x") 1 50 = some (-1, sample_cache, 9) := by
  refine ⟨strlen_key_2048, ?_, by decide, by decide, ?_⟩
  · rw [strlen_key_2048]; decide
  · simp [add_cache_entry, strlen_key_2048, REQUEST_SIZE]

/-- C10 at a full cache: every slot is valid, key and response are within the limits,
and `add_cache_entry` indexes the slot array at `-1` instead of returning `-1`. -/
theorem add_cache_entry_full_cache_out_of_bounds :
    full_cache.entries.length = CACHE_SIZE ∧
    (∀ i < CACHE_SIZE, (full_cache.entry i).valid = 1) ∧
    strlen (bytes "k") < REQUEST_SIZE ∧ (1 : Int) ≤ RESPONSE_SIZE ∧
    find_invalid_entry full_cache = -1 ∧
    add_cache_entry full_cache 10 (bytes "k") (bytes "x") 1 50 = none := by
  decide

/-! ## Inserts into a fresh cache -/

theorem set_entry_same (c : cache_t) (i : Nat) (e : cache_entry_t)
    (hi : i < c.entries.length) : (c.set_entry i e).entry i = e :=
  entry_set_same _ _ i e hi

theorem set_entry_other (c : cache_t) (i j : Nat) (e : cache_entry_t) (hij : j ≠ i) :
    (c.set_entry i e).entry j = c.entry j :=
  entry_set_other _ _ i j e hij

theorem set_entry_length (c : cache_t) (i : Nat) (e : cache_entry_t) :
    (c.set_entry i e).entries.length = c.entries.length := by
  simp [cache_t.set_entry]

theorem init_cache_range (c0 : cache_t) (n : Nat) :
    let c := (List.range n).foldl (fun c i => c.set_entry i (init_entry i (c.entry i)))
      { c0 with valid_entries := 0 }
    c.valid_entries = 0 ∧ c.entries.length = c0.entries.length ∧
    (∀ i < n, i < c0.entries.length → c.entry i = init_entry i (c0.entry i)) ∧
    (∀ i, n ≤ i → c.entry i = c0.entry i) := by
  induction n with
  | zero => simp [cache_t.entry]
  | succ n ih =>
    simp only [List.range_succ, List.foldl_append, List.foldl_cons, List.foldl_nil]
    obtain ⟨h1, h2, h3, h4⟩ := ih
    refine ⟨h1, by rw [set_entry_length]; exact h2, ?_, ?_⟩
    · intro i hi hil
      rcases Nat.lt_succ_iff_lt_or_eq.mp hi with hi | hi
      · rw [set_entry_other _ n i _ (by omega)]
        exact h3 i hi hil
      · subst hi
        rw [set_entry_same _ i _ (by omega), h4 i (le_refl i)]
    · intro i hi
      rw [set_entry_other _ n i _ (by omega)]
      exact h4 i (by omega)

/-- A fresh cache has `CACHE_SIZE` slots, all invalid, and `valid_entries = 0`. -/
theorem init_cache_spec (c0 : cache_t) (hshape : c0.entries.length = CACHE_SIZE) :
    (init_cache c0).valid_entries = 0 ∧ (init_cache c0).entries.length = CACHE_SIZE ∧
    ∀ i < CACHE_SIZE, (init_cache c0).entry i = init_entry i (c0.entry i) := by
  obtain ⟨h1, h2, h3, _⟩ := init_cache_range c0 CACHE_SIZE
  exact ⟨h1, h2.trans hshape, fun i hi => h3 i hi (by omega)⟩

/-- Inserting into a cache whose first `k` slots are taken and whose other slots are
free fills the slots `k, k + 1, ...` in order. -/
theorem insert_all_layout (reqs : List insert_call) :
    ∀ (cache : cache_t) (usage_counter k : Nat),
      cache.entries.length = CACHE_SIZE →
      k + reqs.length ≤ CACHE_SIZE →
      (∀ j < k, (cache.entry j).valid ≠ 0) →
      (∀ j, k ≤ j → j < CACHE_SIZE → (cache.entry j).valid = 0) →
      (∀ r ∈ reqs, admissible r) →
      ∃ cache1 counter,
        insert_all cache usage_counter reqs
          = some ((List.range' k reqs.length).map Int.ofNat, cache1, counter) ∧
        cache1.entries.length = CACHE_SIZE ∧
        (∀ j < k, cache1.entry j = cache.entry j) ∧
        (∀ m r, reqs[m]? = some r → stores (cache1.entry (k + m)) r) ∧
        (∀ j, k + reqs.length ≤ j → j < CACHE_SIZE → (cache1.entry j).valid = 0) := by
  induction reqs with
  | nil =>
    intro cache uc k hlen _ _ hfree _
    exact ⟨cache, uc, rfl, hlen, fun _ _ => rfl, by simp, by simpa using hfree⟩
  | cons r rs ih =>
    intro cache uc k hlen hk hused hfree hadm
    have hkl : k < CACHE_SIZE := by simp at hk; omega
    obtain ⟨hkey, h0, hmax, hbuf⟩ := hadm r (by simp)
    have hfind : find_invalid_entry cache = (k : Int) := by
      rcases find_invalid_entry_cases cache with ⟨_, hall⟩ | ⟨i, hi, hfind, hv, hfirst⟩
      · exact absurd (hfree k (le_refl k) hkl) (hall k hkl)
      · have h1 : ¬ i < k := fun h => hused i h hv
        have h2 : ¬ k < i := fun h => hfirst k h (hfree k (le_refl k) hkl)
        have : i = k := by omega
        rw [hfind, this]
    obtain ⟨cache1, hadd, hlen1, _, hnew, hold⟩ :=
      add_cache_entry_frame cache uc r.request r.response r.response_size r.now k
        hlen hkl hfind hkey h0 hmax hbuf
    obtain ⟨cache2, counter2, hins, hlen2, hsame, hst, hfree2⟩ :=
      ih cache1 ((uc + 1) % 2 ^ 64) (k + 1) hlen1 (by simp at hk ⊢; omega)
        (by
          intro j hj
          rcases Nat.lt_succ_iff_lt_or_eq.mp hj with hj | hj
          · rw [hold j (by omega)]; exact hused j hj
          · subst hj; rw [hnew]; simp)
        (by
          intro j hj hjl
          rw [hold j (by omega)]
          exact hfree j (by omega) hjl)
        (fun r' hr' => hadm r' (by simp [hr']))
    refine ⟨cache2, counter2, ?_, hlen2, ?_, ?_, ?_⟩
    · simp only [insert_all, hadd, hins, List.length_cons, List.range'_succ, List.map_cons]
      rfl
    · intro j hj
      rw [hsame j (by omega), hold j (by omega)]
    · intro m r' hm
      cases m with
      | zero =>
        simp only [List.getElem?_cons_zero, Option.some.injEq] at hm
        subst hm
        rw [Nat.add_zero, hsame k (Nat.lt_succ_self k), hnew]
        exact ⟨rfl, cstr_strncpy _ _ _ hkey, rfl, take_memcpy _ _ _ (by omega)⟩
      | succ m =>
        simp only [List.getElem?_cons_succ] at hm
        have := hst m r' hm
        rwa [show k + 1 + m = k + (m + 1) by omega] at this
    · intro j hj hjl
      exact hfree2 j (by simp at hj; omega) hjl

theorem nodup_index_eq {α : Type} (l : List α) (h : l.Nodup) (i j : Nat) (a : α)
    (hi : l[i]? = some a) (hj : l[j]? = some a) : i = j := by
  by_contra hne
  obtain ⟨hil, hia⟩ := List.getElem?_eq_some.mp hi
  obtain ⟨hjl, hja⟩ := List.getElem?_eq_some.mp hj
  exact hne ((@List.Nodup.getElem_inj_iff _ l h i hil j hjl).mp (hia.trans hja.symm))

/-- After distinct keys are inserted into a fresh cache, key number `j` sits in slot `j`
and is the one `search_cache_hit` finds. -/
theorem insert_all_fresh (c0 : cache_t) (usage_counter : Nat) (reqs : List insert_call)
    (hshape : c0.entries.length = CACHE_SIZE)
    (hn : reqs.length ≤ CACHE_SIZE)
    (hadm : ∀ r ∈ reqs, admissible r)
    (hdist : (reqs.map (fun r => cstr r.request)).Nodup) :
    ∃ cache counter,
      insert_all (init_cache c0) usage_counter reqs
        = some ((List.range' 0 reqs.length).map Int.ofNat, cache, counter) ∧
      ∀ (j : Nat) (r : insert_call), reqs[j]? = some r →
        search_cache_hit cache r.request = (j : Int) ∧ stores (cache.entry j) r := by
  obtain ⟨_, hlen0, hinit⟩ := init_cache_spec c0 hshape
  obtain ⟨cache, counter, hins, hlen, _, hst, hfree⟩ :=
    insert_all_layout reqs (init_cache c0) usage_counter 0 hlen0 (by omega)
      (fun j hj => absurd hj (Nat.not_lt_zero j))
      (fun j _ hj => by rw [hinit j hj]; rfl) hadm
  refine ⟨cache, counter, hins, ?_⟩
  intro j r hj
  have hjs : stores (cache.entry j) r := by simpa using hst j r hj
  refine ⟨?_, hjs⟩
  have hjl : j < reqs.length := (List.getElem?_eq_some.mp hj).1
  rcases search_cache_hit_cases cache r.request with ⟨_, hall⟩ | ⟨i, hi, hfound, hv, hkey, hfirst⟩
  · exact absurd ⟨hjs.1, hjs.2.1⟩ (hall j (by omega))
  · have hij : ¬ j < i := fun h => hfirst j h ⟨hjs.1, hjs.2.1⟩
    have hil : i < reqs.length := by
      by_contra hge
      have := hfree i (by omega) hi
      omega
    obtain ⟨r', hr'⟩ : ∃ r', reqs[i]? = some r' := ⟨reqs[i], List.getElem?_eq_getElem hil⟩
    have his : stores (cache.entry i) r' := by simpa using hst i r' hr'
    have hsame : cstr r'.request = cstr r.request := his.2.1.symm.trans hkey
    have : i = j :=
      nodup_index_eq _ hdist i j (cstr r.request)
        (by simp [List.getElem?_map, hr', hsame]) (by simp [List.getElem?_map, hj])
    rw [hfound, this]

/-- C2: starting from `init_cache`, after each of at most `CACHE_SIZE` inserts with
pairwise distinct keys shorter than `REQUEST_SIZE` and responses of size between 0 and
`RESPONSE_SIZE`, `search_cache_hit` of every key inserted so far returns the index
`add_cache_entry` returned for it, and that slot's `response_size` and the bytes
`serve_from_cache` sends equal the inserted response. -/
theorem insert_then_lookup (c0 : cache_t) (usage_counter : Nat) (reqs : List insert_call)
    (hshape : c0.entries.length = CACHE_SIZE)
    (hn : reqs.length ≤ CACHE_SIZE)
    (hadm : ∀ r ∈ reqs, strlen r.request < REQUEST_SIZE ∧ 0 ≤ r.response_size ∧
      r.response_size ≤ RESPONSE_SIZE ∧ r.response_size ≤ r.response.length)
    (hdist : (reqs.map (fun r => cstr r.request)).Nodup) :
    ∀ m ≤ reqs.length, ∃ idxs cache counter,
      insert_all (init_cache c0) usage_counter (reqs.take m) = some (idxs, cache, counter) ∧
      ∀ (j : Nat) (r : insert_call), j < m → reqs[j]? = some r →
        ∃ i : Nat, idxs[j]? = some (i : Int) ∧
          search_cache_hit cache r.request = (i : Int) ∧
          (cache.entry i).response_size = r.response_size ∧
          (serve_from_cache cache i counter).1 = r.response.take r.response_size.toNat := by
  intro m hm
  obtain ⟨cache, counter, hins, hall⟩ :=
    insert_all_fresh c0 usage_counter (reqs.take m) hshape
      (by rw [List.length_take]; omega)
      (fun r hr => hadm r (List.mem_of_mem_take hr))
      (hdist.sublist ((List.take_sublist m reqs).map _))
  refine ⟨_, cache, counter, hins, ?_⟩
  intro j r hj hr
  have hr' : (reqs.take m)[j]? = some r := by rw [List.getElem?_take_of_lt hj]; exact hr
  obtain ⟨hfound, _, _, hsize, hbytes⟩ := hall j r hr'
  refine ⟨j, ?_, hfound, hsize, ?_⟩
  · have hjl : j < (reqs.take m).length := (List.getElem?_eq_some.mp hr').1
    rw [List.getElem?_map, List.getElem?_range' 0 1 hjl]
    simp
  · simp only [serve_from_cache, hsize]
    exact hbytes

/-- C2 for two inserts into a block of memory that `init_cache` clears first. -/
theorem insert_then_lookup_witness :
    sample_cache.entries.length = CACHE_SIZE ∧ sample_inserts.length ≤ CACHE_SIZE ∧
    (sample_inserts.map (fun r => cstr r.request)).Nodup ∧
    ∀ m ≤ sample_inserts.length, ∃ idxs cache counter,
      insert_all (init_cache sample_cache) 0 (sample_inserts.take m)
        = some (idxs, cache, counter) ∧
      ∀ (j : Nat) (r : insert_call), j < m → sample_inserts[j]? = some r →
        ∃ i : Nat, idxs[j]? = some (i : Int) ∧
          search_cache_hit cache r.request = (i : Int) ∧
          (cache.entry i).response_size = r.response_size ∧
          (serve_from_cache cache i counter).1 = r.response.take r.response_size.toNat :=
  ⟨by decide, by decide, by decide,
    insert_then_lookup sample_cache 0 sample_inserts (by decide) (by decide) (by decide)
      (by decide)⟩

/-! ## The cache invariant -/

theorem entry_eq_getElem (cache : cache_t) (i : Nat) (hi : i < cache.entries.length) :
    cache.entry i = cache.entries[i] := by
  simp [cache_t.entry, List.getD_eq_getElem?_getD, hi]

theorem valid_count_set (c c1 : cache_t) (i : Nat) (e : cache_entry_t)
    (hi : i < c.entries.length) (h : c1.entries = c.entries.set i e) :
    valid_count c1 =
      valid_count c - (if (c.entry i).valid = 1 then 1 else 0)
        + (if e.valid = 1 then 1 else 0) := by
  unfold valid_count
  rw [entry_eq_getElem c i hi, h]
  simp only [List.countP_set _ c.entries i e hi, beq_iff_eq]

theorem valid_count_pos_of_valid (cache : cache_t) (i : Nat) (hi : i < cache.entries.length)
    (hv : (cache.entry i).valid = 1) : 0 < valid_count cache := by
  unfold valid_count
  rw [List.countP_pos_iff]
  refine ⟨cache.entries[i], List.getElem_mem hi, ?_⟩
  rw [← entry_eq_getElem cache i hi]
  simpa using hv

theorem valid_count_lt_of_invalid (cache : cache_t) (i : Nat) (hi : i < cache.entries.length)
    (hv : (cache.entry i).valid ≠ 1) : valid_count cache < cache.entries.length := by
  unfold valid_count
  refine lt_of_le_of_ne (List.countP_le_length _) ?_
  intro h
  rw [List.countP_eq_length] at h
  have := h cache.entries[i] (List.getElem_mem hi)
  rw [← entry_eq_getElem cache i hi] at this
  exact hv (by simpa using this)

theorem all_valid_of_valid_count (cache : cache_t)
    (h : valid_count cache = cache.entries.length) :
    ∀ i < cache.entries.length, (cache.entry i).valid = 1 := by
  intro i hi
  unfold valid_count at h
  rw [List.countP_eq_length] at h
  have := h cache.entries[i] (List.getElem_mem hi)
  rw [← entry_eq_getElem cache i hi] at this
  simpa using this

theorem cache_inv_init (c0 : cache_t) (hshape : c0.entries.length = CACHE_SIZE) :
    cache_inv (init_cache c0) := by
  obtain ⟨h0, hlen, hall⟩ := init_cache_spec c0 hshape
  have hinv : ∀ i < CACHE_SIZE, ((init_cache c0).entry i).valid = 0 := by
    intro i hi; rw [hall i hi]; rfl
  refine ⟨hlen, fun i hi => Or.inl (hinv i hi), ?_, ?_⟩
  · rw [h0]
    have : valid_count (init_cache c0) = 0 := by
      unfold valid_count
      rw [List.countP_eq_zero]
      intro e he
      obtain ⟨i, hi, rfl⟩ := List.getElem_of_mem he
      rw [← entry_eq_getElem _ i hi, hinv i (by omega)]
      decide
    rw [this]; rfl
  · intro i hi j _ hv
    rw [hinv i hi] at hv
    exact absurd hv (by decide)

/-- Invalidating a valid slot and decrementing `valid_entries` keeps the invariant. -/
theorem cache_inv_invalidate (cache : cache_t) (k : Nat) (e : cache_entry_t)
    (hinv : cache_inv cache) (hk : k < CACHE_SIZE) (hv : (cache.entry k).valid = 1)
    (he : e.valid = 0) :
    cache_inv ⟨cache.valid_entries - 1, cache.entries.set k e⟩ := by
  obtain ⟨hlen, h01, hcount, huniq⟩ := hinv
  have hkl : k < cache.entries.length := by omega
  have hsame : ∀ j, j ≠ k →
      (cache_t.mk (cache.valid_entries - 1) (cache.entries.set k e)).entry j = cache.entry j :=
    fun j hj => entry_set_other _ _ k j e hj
  have hnew : (cache_t.mk (cache.valid_entries - 1) (cache.entries.set k e)).entry k = e :=
    entry_set_same _ _ k e hkl
  refine ⟨by simpa using hlen, ?_, ?_, ?_⟩
  · intro i hi
    by_cases hik : i = k
    · subst hik; rw [hnew]; exact Or.inl he
    · rw [hsame i hik]; exact h01 i hi
  · have hpos := valid_count_pos_of_valid cache k hkl hv
    have := valid_count_set cache ⟨cache.valid_entries - 1, cache.entries.set k e⟩ k e hkl rfl
    rw [hv, he] at this
    simp only [if_true, show ¬ ((0 : Int) = 1) by decide, if_false, Nat.add_zero] at this
    show cache.valid_entries - 1 = ((valid_count _ : Nat) : Int)
    rw [this, hcount]
    omega
  · intro i hi j hj hvi hvj hkey
    by_cases hik : i = k
    · subst hik; rw [hnew, he] at hvi; exact absurd hvi (by decide)
    · by_cases hjk : j = k
      · subst hjk; rw [hnew, he] at hvj; exact absurd hvj (by decide)
      · rw [hsame i hik] at hvi hkey
        rw [hsame j hjk] at hvj hkey
        exact huniq i hi j hj hvi hvj hkey

/-- Changing only the stamp of a slot keeps the invariant. -/
theorem cache_inv_touch (cache : cache_t) (k t : Nat) (hinv : cache_inv cache)
    (hk : k < CACHE_SIZE) :
    cache_inv (cache.set_entry k { cache.entry k with last_used := t }) := by
  obtain ⟨hlen, h01, hcount, huniq⟩ := hinv
  have hkl : k < cache.entries.length := by omega
  have hsame : ∀ j, j ≠ k →
      (cache.set_entry k { cache.entry k with last_used := t }).entry j = cache.entry j :=
    fun j hj => set_entry_other _ k j _ hj
  have hnew := set_entry_same cache k { cache.entry k with last_used := t } hkl
  have hvalid : ∀ j,
      ((cache.set_entry k { cache.entry k with last_used := t }).entry j).valid
        = (cache.entry j).valid := by
    intro j
    by_cases hjk : j = k
    · subst hjk; rw [hnew]
    · rw [hsame j hjk]
  have hreq : ∀ j,
      ((cache.set_entry k { cache.entry k with last_used := t }).entry j).request
        = (cache.entry j).request := by
    intro j
    by_cases hjk : j = k
    · subst hjk; rw [hnew]
    · rw [hsame j hjk]
  refine ⟨by rw [set_entry_length]; exact hlen, ?_, ?_, ?_⟩
  · intro i hi; rw [hvalid]; exact h01 i hi
  · have := valid_count_set cache (cache.set_entry k { cache.entry k with last_used := t }) k
      { cache.entry k with last_used := t } hkl rfl
    show cache.valid_entries = ((valid_count _ : Nat) : Int)
    rw [this, hcount]
    by_cases hv : (cache.entry k).valid = 1
    · have hpos := valid_count_pos_of_valid cache k hkl hv
      simp only [hv, if_true]
      omega
    · simp only [hv, if_false]
      omega
  · intro i hi j hj hvi hvj hkey
    rw [hvalid] at hvi hvj
    rw [hreq, hreq] at hkey
    exact huniq i hi j hj hvi hvj hkey

/-- Filling an invalid slot with a key no valid slot holds keeps the invariant. -/
theorem cache_inv_fill (cache : cache_t) (k : Nat) (e : cache_entry_t)
    (hinv : cache_inv cache) (hk : k < CACHE_SIZE) (hv : (cache.entry k).valid = 0)
    (he : e.valid = 1) (habs : key_absent cache e.request) :
    cache_inv ⟨cache.valid_entries + 1, cache.entries.set k e⟩ := by
  obtain ⟨hlen, h01, hcount, huniq⟩ := hinv
  have hkl : k < cache.entries.length := by omega
  have hsame : ∀ j, j ≠ k →
      (cache_t.mk (cache.valid_entries + 1) (cache.entries.set k e)).entry j = cache.entry j :=
    fun j hj => entry_set_other _ _ k j e hj
  have hnew : (cache_t.mk (cache.valid_entries + 1) (cache.entries.set k e)).entry k = e :=
    entry_set_same _ _ k e hkl
  refine ⟨by simpa using hlen, ?_, ?_, ?_⟩
  · intro i hi
    by_cases hik : i = k
    · subst hik; rw [hnew]; exact Or.inr he
    · rw [hsame i hik]; exact h01 i hi
  · have := valid_count_set cache ⟨cache.valid_entries + 1, cache.entries.set k e⟩ k e hkl rfl
    rw [hv, he] at this
    simp only [if_true, show ¬ ((0 : Int) = 1) by decide, if_false, Nat.sub_zero] at this
    show cache.valid_entries + 1 = ((valid_count _ : Nat) : Int)
    rw [this, hcount]
    omega
  · intro i hi j hj hvi hvj hkey
    by_cases hik : i = k
    · by_cases hjk : j = k
      · rw [hik, hjk]
      · subst hik
        rw [hnew] at hkey
        rw [hsame j hjk] at hvj hkey
        exact absurd ⟨hvj, hkey.symm⟩ (habs j hj)
    · by_cases hjk : j = k
      · subst hjk
        rw [hnew] at hkey
        rw [hsame i hik] at hvi hkey
        exact absurd ⟨hvi, hkey⟩ (habs i hi)
      · rw [hsame i hik] at hvi hkey
        rw [hsame j hjk] at hvj hkey
        exact huniq i hi j hj hvi hvj hkey

/-- A defined call of `add_cache_entry` with a key that no valid slot holds keeps the
invariant. -/
theorem cache_inv_add (cache : cache_t) (usage_counter : Nat) (request response : List Nat)
    (response_size now : Int) (r : Int × cache_t × Nat) (hinv : cache_inv cache)
    (habs : strlen request < REQUEST_SIZE → key_absent cache request)
    (h : add_cache_entry cache usage_counter request response response_size now = some r) :
    cache_inv r.2.1 := by
  by_cases hrej : strlen request ≥ REQUEST_SIZE ∨ response_size > (RESPONSE_SIZE : Int)
  · simp only [add_cache_entry, hrej, if_true, Option.some.injEq] at h
    rw [← h]; exact hinv
  · rcases find_invalid_entry_cases cache with ⟨hfind, _⟩ | ⟨i, hi, hfind, hv, _⟩
    · simp [add_cache_entry, hrej, hfind] at h
    · by_cases hub : response_size < 0 ∨ (response.length : Int) < response_size
      · have : (i : Int) < 0 ∨ response_size < 0 ∨ (response.length : Int) < response_size :=
          Or.inr hub
        simp [add_cache_entry, hrej, hfind, this] at h
      · have hkey : strlen request < REQUEST_SIZE := by omega
        rw [add_cache_entry_accept cache usage_counter request response response_size now i
          hinv.1 hi hfind hkey (by omega) (by omega) (by omega)] at h
        simp only [Option.some.injEq] at h
        rw [← h]
        have hlt : cache.valid_entries < (CACHE_SIZE : Int) := by
          have := valid_count_lt_of_invalid cache i (by rw [hinv.1]; exact hi)
            (by rw [hv]; decide)
          rw [hinv.2.2.1, hinv.1] at *
          omega
        simp only [hlt, if_true]
        apply cache_inv_fill cache i _ hinv hi hv rfl
        intro j hj
        show ¬ ((cache.entry j).valid = 1 ∧
          cstr (cache.entry j).request = cstr (strncpy _ request REQUEST_SIZE))
        rw [cstr_strncpy _ _ _ hkey]
        exact habs hkey j hj

theorem lookup_index_cases (cache : cache_t) (request : List Nat) :
    (lookup_index true cache request = -1 ∧
      (strlen request < REQUEST_SIZE → key_absent cache request)) ∨
    ∃ i < CACHE_SIZE, lookup_index true cache request = (i : Int) ∧
      (cache.entry i).valid = 1 ∧ cstr (cache.entry i).request = cstr request ∧
      strlen request < REQUEST_SIZE := by
  by_cases hlen : strlen request < REQUEST_SIZE
  · rcases search_cache_hit_cases cache request with ⟨hm, hall⟩ | ⟨i, hi, hf, hv, hkey, _⟩
    · left
      exact ⟨by simp [lookup_index, hlen, hm], fun _ => hall⟩
    · right
      exact ⟨i, hi, by simp [lookup_index, hlen, hf], hv, hkey, hlen⟩
  · left
    exact ⟨by simp [lookup_index, hlen], fun h => absurd h hlen⟩

/-- The LRU block keeps the invariant and inserts no key. -/
theorem lru_phase_inv (cache : cache_t) (cache_index : Int) (hinv : cache_inv cache) :
    cache_inv (lru_phase true cache cache_index) ∧
    ∀ request, key_absent cache request →
      key_absent (lru_phase true cache cache_index) request := by
  unfold lru_phase
  split
  · rcases lru_scan_range cache CACHE_SIZE with ⟨hp, _⟩ | ⟨k, hk, hp, hv, _⟩
    · have hidx : (lru_scan cache).1 = -1 := by unfold lru_scan; rw [hp]
      simp only [evict_lru_entry, hidx, if_true]
      exact ⟨hinv, fun _ h => h⟩
    · have hidx : (lru_scan cache).1 = (k : Int) := by unfold lru_scan; rw [hp]
      have hne : ¬ ((k : Int) = -1) := by omega
      simp only [evict_lru_entry, hidx, hne, if_false, lru_scan_fst_toNat]
      refine ⟨cache_inv_invalidate cache k _ hinv hk hv rfl, ?_⟩
      intro request habs j hj
      by_cases hjk : j = k
      · subst hjk
        rw [entry_set_same _ _ j _ (by rw [hinv.1]; exact hj)]
        simp
      · rw [entry_set_other _ _ k j _ hjk]
        exact habs j hj
  · exact ⟨hinv, fun _ h => h⟩

/-- Removing the slot the lookup found keeps the invariant and leaves no valid slot
with the key. -/
theorem stale_phase_inv (cache : cache_t) (request : List Nat) (i : Nat)
    (hinv : cache_inv cache) (hi : i < CACHE_SIZE) (hv : (cache.entry i).valid = 1)
    (hkey : cstr (cache.entry i).request = cstr request) :
    cache_inv (stale_phase cache (i : Int)) ∧ key_absent (stale_phase cache (i : Int)) request := by
  have hne : ((i : Int) ≠ -1) := by omega
  simp only [stale_phase, hne, ne_eq, not_false_eq_true, if_true, Int.toNat_natCast,
    evict_cache_entry]
  refine ⟨cache_inv_invalidate cache i _ hinv hi hv rfl, ?_⟩
  intro j hj
  by_cases hji : j = i
  · subst hji
    rw [entry_set_same _ _ j _ (by rw [hinv.1]; exact hj)]
    simp
  · rw [entry_set_other _ _ i j _ hji]
    intro ⟨hvj, hkj⟩
    exact hji (hinv.2.2.2 j hj i hi hvj hv (hkj.trans hkey.symm))

/-- The caching decision keeps the invariant when the key is absent once the stale slot
is removed. -/
theorem store_phase_inv (cache1 : cache_t) (usage_counter : Nat) (cache_index : Int)
    (request response : List Nat) (now : Int) (r : conn_result)
    (hinv : cache_inv (stale_phase cache1 cache_index))
    (habs : strlen request < REQUEST_SIZE →
      key_absent (stale_phase cache1 cache_index) request)
    (h : store_phase true cache1 usage_counter cache_index request response now = some r) :
    cache_inv r.cache := by
  unfold store_phase at h
  by_cases hc : (true = true) ∧ check_no_cache response = 0 ∧ strlen request ≤ REQUEST_SIZE ∧
      (response.length : Int) ≤ RESPONSE_SIZE
  · rw [if_pos hc] at h
    cases hadd : add_cache_entry (stale_phase cache1 cache_index) usage_counter request
        response response.length now with
    | none => simp [hadd] at h
    | some res =>
      simp only [hadd, Option.some.injEq] at h
      rw [← h]
      exact cache_inv_add _ _ _ _ _ _ res hinv habs hadd
  · rw [if_neg hc] at h
    simp only [Option.some.injEq] at h
    rw [← h]
    exact hinv

theorem forward_phase_inv (cache1 : cache_t) (usage_counter : Nat) (cache_index : Int)
    (request : List Nat) (inp : conn_input) (r : conn_result)
    (hinv1 : cache_inv cache1)
    (hinv : cache_inv (stale_phase cache1 cache_index))
    (habs : strlen request < REQUEST_SIZE →
      key_absent (stale_phase cache1 cache_index) request)
    (h : forward_phase true cache1 usage_counter cache_index request inp = some r) :
    cache_inv r.cache := by
  unfold forward_phase at h
  cases hup : inp.upstream with
  | connect_failed =>
    simp only [hup, Option.some.injEq] at h
    rw [← h]; exact hinv1
  | forward_failed relayed =>
    simp only [hup, Option.some.injEq] at h
    rw [← h]; exact hinv1
  | forwarded response =>
    simp only [hup] at h
    exact store_phase_inv cache1 usage_counter cache_index request response _ r hinv habs h

/-- One connection keeps the cache invariant. -/
theorem cache_inv_step (cache : cache_t) (usage_counter : Nat) (inp : conn_input)
    (r : conn_result) (hinv : cache_inv cache)
    (h : handle_connection true cache usage_counter inp = some r) : cache_inv r.cache := by
  unfold handle_connection at h
  cases hreq : inp.request with
  | none =>
    simp only [hreq, Option.some.injEq] at h
    rw [← h]; exact hinv
  | some request =>
    cases huri : extract_request_uri request with
    | none => simp [hreq, huri] at h
    | some uri =>
      by_cases hhost : extract_host request = none
      · simp only [hreq, huri, hhost, if_true, Option.some.injEq] at h
        rw [← h]; exact hinv
      · simp only [hreq, huri, hhost, if_false] at h
        rcases lookup_index_cases cache request with ⟨hci, habs⟩ | ⟨i, hi, hci, hv, hkey, hlen⟩
        · simp only [hci, ne_eq, not_true_eq_false, false_and, if_false] at h
          obtain ⟨hinv1, hkeep⟩ := lru_phase_inv cache (-1) hinv
          have hst : stale_phase (lru_phase true cache (-1)) (-1)
              = lru_phase true cache (-1) := by simp [stale_phase]
          exact forward_phase_inv _ _ _ _ _ r hinv1 (by rw [hst]; exact hinv1)
            (by rw [hst]; exact fun hl => hkeep request (habs hl)) h
        · have hne : ((i : Int) ≠ -1) := by omega
          by_cases hfresh : is_timed_out cache i inp.now_lookup = 0
          · simp only [hci, ne_eq, hne, not_false_eq_true, Int.toNat_natCast, hfresh, and_self,
              if_true, serve_from_cache, update_last_used, Option.some.injEq] at h
            rw [← h]
            exact cache_inv_touch cache i _ hinv hi
          · simp only [hci, Int.toNat_natCast, hfresh, and_false, if_false] at h
            have hlru : lru_phase true cache (i : Int) = cache := by
              simp [lru_phase, hne]
            rw [hlru] at h
            obtain ⟨hinv2, habs2⟩ := stale_phase_inv cache request i hinv hi hv hkey
            exact forward_phase_inv _ _ _ _ _ r hinv hinv2 (fun _ => habs2) h

/-! ## Stamps along the pipeline -/

theorem set_invalid_shrink (v w : Int) (l : List cache_entry_t) (k : Nat) (e : cache_entry_t)
    (he : e.valid = 0) (i : Nat)
    (hv : ((cache_t.mk v (l.set k e)).entry i).valid = 1) :
    (cache_t.mk v (l.set k e)).entry i = (cache_t.mk w l).entry i := by
  by_cases hik : i = k
  · subst hik
    by_cases hil : i < l.length
    · rw [entry_set_same _ _ i e hil, he] at hv
      exact absurd hv (by decide)
    · simp [cache_t.entry, List.set_eq_of_length_le (Nat.le_of_not_lt hil)]
  · rw [entry_set_other _ _ k i e hik]
    rfl

theorem lru_phase_shrink (cache : cache_t) (cache_index : Int) (i : Nat)
    (hv : ((lru_phase true cache cache_index).entry i).valid = 1) :
    (lru_phase true cache cache_index).entry i = cache.entry i := by
  unfold lru_phase at hv ⊢
  split
  · rename_i hc
    rw [if_pos hc] at hv
    unfold evict_lru_entry at hv ⊢
    by_cases hidx : (lru_scan cache).1 = -1
    · simp only [hidx, if_true]
    · simp only [hidx, if_false] at hv ⊢
      exact set_invalid_shrink _ _ _ _ _ rfl i hv
  · rfl

theorem stale_phase_shrink (cache : cache_t) (cache_index : Int) (i : Nat)
    (hv : ((stale_phase cache cache_index).entry i).valid = 1) :
    (stale_phase cache cache_index).entry i = cache.entry i := by
  unfold stale_phase at hv ⊢
  split
  · rename_i hc
    rw [if_pos hc] at hv
    exact set_invalid_shrink _ _ _ _ _ rfl i hv
  · rfl

theorem tick_inv_shrink (n : Nat) (c c1 : cache_t) (usage_counter : Nat)
    (h : tick_inv n c usage_counter)
    (hsub : ∀ i, (c1.entry i).valid = 1 → c1.entry i = c.entry i) :
    tick_inv n c1 usage_counter := by
  refine ⟨h.1, fun hn i hi hv => ?_⟩
  have := hsub i hv
  rw [this] at hv ⊢
  exact h.2 hn i hi hv

theorem tick_inv_succ (n : Nat) (c : cache_t) (usage_counter : Nat)
    (h : tick_inv n c usage_counter) : tick_inv (n + 1) c usage_counter :=
  ⟨Nat.le_succ_of_le h.1, fun hn => h.2 (by omega)⟩

/-- Stamping one slot with the advanced counter keeps the stamps in range. -/
theorem tick_inv_touch (n : Nat) (c c1 : cache_t) (usage_counter k : Nat)
    (h : tick_inv n c usage_counter)
    (hk : (c1.entry k).last_used = (usage_counter + 1) % 2 ^ 64)
    (hother : ∀ i, i ≠ k → c1.entry i = c.entry i) :
    tick_inv (n + 1) c1 ((usage_counter + 1) % 2 ^ 64) := by
  obtain ⟨hle, hticks⟩ := h
  refine ⟨le_trans (Nat.mod_le _ _) (by omega), fun hn i hi hv => ?_⟩
  have hmod : (usage_counter + 1) % 2 ^ 64 = usage_counter + 1 := Nat.mod_eq_of_lt (by omega)
  by_cases hik : i = k
  · subst hik; rw [hk]
  · rw [hother i hik] at hv ⊢
    have := hticks (by omega) i hi hv
    omega

theorem tick_inv_add (n : Nat) (cache : cache_t) (usage_counter : Nat)
    (request response : List Nat) (response_size now : Int) (r : Int × cache_t × Nat)
    (hlen : cache.entries.length = CACHE_SIZE) (htick : tick_inv n cache usage_counter)
    (h : add_cache_entry cache usage_counter request response response_size now = some r) :
    tick_inv (n + 1) r.2.1 r.2.2 := by
  by_cases hrej : strlen request ≥ REQUEST_SIZE ∨ response_size > (RESPONSE_SIZE : Int)
  · simp only [add_cache_entry, hrej, if_true, Option.some.injEq] at h
    rw [← h]; exact tick_inv_succ n _ _ htick
  · rcases find_invalid_entry_cases cache with ⟨hfind, _⟩ | ⟨i, hi, hfind, _, _⟩
    · simp [add_cache_entry, hrej, hfind] at h
    · by_cases hub : response_size < 0 ∨ (response.length : Int) < response_size
      · have : (i : Int) < 0 ∨ response_size < 0 ∨ (response.length : Int) < response_size :=
          Or.inr hub
        simp [add_cache_entry, hrej, hfind, this] at h
      · obtain ⟨cache1, hadd, _, _, hnew, hold⟩ :=
          add_cache_entry_frame cache usage_counter request response response_size now i
            hlen hi hfind (by omega) (by omega) (by omega) (by omega)
        rw [hadd] at h
        simp only [Option.some.injEq] at h
        rw [← h]
        exact tick_inv_touch n cache cache1 usage_counter i htick (by rw [hnew]) hold

theorem stale_phase_length (cache : cache_t) (cache_index : Int) :
    (stale_phase cache cache_index).entries.length = cache.entries.length := by
  unfold stale_phase
  split <;> simp [evict_cache_entry]

theorem lru_phase_length (cache : cache_t) (cache_index : Int) :
    (lru_phase true cache cache_index).entries.length = cache.entries.length := by
  unfold lru_phase
  split
  · by_cases hidx : (lru_scan cache).1 = -1 <;> simp [evict_lru_entry, hidx]
  · rfl

theorem tick_inv_step (n : Nat) (cache : cache_t) (usage_counter : Nat) (inp : conn_input)
    (r : conn_result) (hlen : cache.entries.length = CACHE_SIZE)
    (htick : tick_inv n cache usage_counter)
    (h : handle_connection true cache usage_counter inp = some r) :
    tick_inv (n + 1) r.cache r.usage_counter := by
  unfold handle_connection at h
  cases hreq : inp.request with
  | none =>
    simp only [hreq, Option.some.injEq] at h
    rw [← h]; exact tick_inv_succ n _ _ htick
  | some request =>
    cases huri : extract_request_uri request with
    | none => simp [hreq, huri] at h
    | some uri =>
      by_cases hhost : extract_host request = none
      · simp only [hreq, huri, hhost, if_true, Option.some.injEq] at h
        rw [← h]; exact tick_inv_succ n _ _ htick
      · simp only [hreq, huri, hhost, if_false] at h
        by_cases hfresh : lookup_index true cache request ≠ -1 ∧
            is_timed_out cache (lookup_index true cache request).toNat inp.now_lookup = 0
        · rw [if_pos hfresh] at h
          simp only [serve_from_cache, update_last_used, Option.some.injEq] at h
          rw [← h]
          rcases lookup_index_cases cache request with ⟨hci, _⟩ | ⟨i, hi, hci, _⟩
          · exact absurd hci hfresh.1
          · rw [hci, Int.toNat_natCast]
            exact tick_inv_touch n cache _ usage_counter i htick
              (by rw [set_entry_same _ i _ (by omega)])
              (fun j hj => set_entry_other _ i j _ hj)
        · rw [if_neg hfresh] at h
          have h1 : tick_inv n (lru_phase true cache (lookup_index true cache request))
              usage_counter :=
            tick_inv_shrink n cache _ usage_counter htick (lru_phase_shrink cache _)
          have h2 : tick_inv n (stale_phase (lru_phase true cache
              (lookup_index true cache request)) (lookup_index true cache request))
              usage_counter :=
            tick_inv_shrink n _ _ usage_counter h1 (stale_phase_shrink _ _)
          unfold forward_phase at h
          cases hup : inp.upstream with
          | connect_failed =>
            simp only [hup, Option.some.injEq] at h
            rw [← h]; exact tick_inv_succ n _ _ h1
          | forward_failed relayed =>
            simp only [hup, Option.some.injEq] at h
            rw [← h]; exact tick_inv_succ n _ _ h1
          | forwarded response =>
            simp only [hup] at h
            unfold store_phase at h
            by_cases hc : (true = true) ∧ check_no_cache response = 0 ∧
                strlen request ≤ REQUEST_SIZE ∧ (response.length : Int) ≤ RESPONSE_SIZE
            · rw [if_pos hc] at h
              cases hadd : add_cache_entry (stale_phase (lru_phase true cache
                  (lookup_index true cache request)) (lookup_index true cache request))
                  usage_counter request response response.length inp.now_insert with
              | none => simp [hadd] at h
              | some res =>
                simp only [hadd, Option.some.injEq] at h
                rw [← h]
                exact tick_inv_add n _ _ _ _ _ _ res
                  (by rw [stale_phase_length, lru_phase_length]; exact hlen) h2 hadd
            · rw [if_neg hc] at h
              simp only [Option.some.injEq] at h
              rw [← h]; exact tick_inv_succ n _ _ h2

/-- Every reachable state satisfies the cache invariant and has its stamps in range. -/
theorem reachable_in_inv (n : Nat) (cache : cache_t) (usage_counter : Nat)
    (h : reachable_in n cache usage_counter) :
    cache_inv cache ∧ tick_inv n cache usage_counter := by
  induction h with
  | init c0 hshape =>
    refine ⟨cache_inv_init c0 hshape, le_refl 0, fun _ i hi hv => ?_⟩
    rw [(init_cache_spec c0 hshape).2.2 i hi] at hv
    simp [init_entry] at hv
  | step n cache usage_counter inp r _ hstep ih =>
    exact ⟨cache_inv_step cache usage_counter inp r ih.1 hstep,
      tick_inv_step n cache usage_counter inp r ih.1.1 ih.2 hstep⟩

/-! ## Invariants of the reachable cache states -/

theorem free_slot_of_invalid (cache : cache_t) (i : Nat) (hi : i < CACHE_SIZE)
    (hv : (cache.entry i).valid = 0) : find_invalid_entry cache ≠ -1 := by
  rcases find_invalid_entry_cases cache with ⟨_, hall⟩ | ⟨k, _, hfind, _, _⟩
  · exact absurd hv (hall i hi)
  · rw [hfind]; omega

/-- With the stamps in range, the cache handed to `add_cache_entry` has a free slot for
every request short enough to pass the size check. -/
theorem free_slot_before_insert (n : Nat) (cache : cache_t) (usage_counter : Nat)
    (hinv : cache_inv cache) (htick : tick_inv n cache usage_counter) (hn : n < 2 ^ 64 - 1)
    (request : List Nat) (hlen : strlen request < REQUEST_SIZE) :
    find_invalid_entry
      (stale_phase (lru_phase true cache (lookup_index true cache request))
        (lookup_index true cache request)) ≠ -1 := by
  have hl := hinv.1
  rcases lookup_index_cases cache request with ⟨hci, _⟩ | ⟨i, hi, hci, hv, _, _⟩
  · rw [hci]
    have hst : stale_phase (lru_phase true cache (-1)) (-1) = lru_phase true cache (-1) := by
      simp [stale_phase]
    rw [hst]
    by_cases hfull : cache.valid_entries = (CACHE_SIZE : Int)
    · have hall : ∀ i < cache.entries.length, (cache.entry i).valid = 1 :=
        all_valid_of_valid_count cache (by rw [hinv.2.2.1] at hfull; rw [hl]; exact_mod_cast hfull)
      rcases lru_scan_range cache CACHE_SIZE with ⟨_, hnone⟩ | ⟨k, hk, hp, _, _⟩
      · have h0 : (cache.entry 0).valid = 1 := hall 0 (by rw [hl]; decide)
        have := htick.2 (by omega) 0 (by decide) h0
        exact absurd ⟨h0, by unfold ULONG_MAX; have := htick.1; omega⟩ (hnone 0 (by decide))
      · have hidx : (lru_scan cache).1 = (k : Int) := by unfold lru_scan; rw [hp]
        have hne : ¬ ((k : Int) = -1) := by omega
        apply free_slot_of_invalid _ k hk
        simp only [lru_phase, hfull, and_self, if_true, evict_lru_entry, hidx, hne, if_false,
          lru_scan_fst_toNat]
        rw [entry_set_same _ _ k _ (by omega)]
    · have hsame : lru_phase true cache (-1) = cache := by simp [lru_phase, hfull]
      rw [hsame]
      have hex : ∃ i, i < cache.entries.length ∧ (cache.entry i).valid ≠ 1 := by
        by_contra hcon
        push_neg at hcon
        have hcount : valid_count cache = cache.entries.length := by
          unfold valid_count
          rw [List.countP_eq_length]
          intro e he
          obtain ⟨i, hi, rfl⟩ := List.getElem_of_mem he
          rw [← entry_eq_getElem cache i hi]
          simpa using hcon i hi
        apply hfull
        rw [hinv.2.2.1, hcount, hl]
      obtain ⟨i, hi, hv⟩ := hex
      have h01 := hinv.2.1 i (by omega)
      exact free_slot_of_invalid cache i (by omega) (by tauto)
  · rw [hci]
    have hne : ((i : Int) ≠ -1) := by omega
    have hlru : lru_phase true cache (i : Int) = cache := by simp [lru_phase, hne]
    rw [hlru]
    apply free_slot_of_invalid _ i hi
    simp only [stale_phase, hne, ne_eq, not_false_eq_true, if_true, Int.toNat_natCast,
      evict_cache_entry]
    rw [entry_set_same _ _ i _ (by omega)]

theorem add_cache_entry_defined (cache : cache_t) (usage_counter : Nat)
    (request response : List Nat) (now : Int) (hlen : cache.entries.length = CACHE_SIZE)
    (hfree : strlen request < REQUEST_SIZE → find_invalid_entry cache ≠ -1) :
    add_cache_entry cache usage_counter request response response.length now ≠ none := by
  by_cases hrej : strlen request ≥ REQUEST_SIZE ∨ (response.length : Int) > (RESPONSE_SIZE : Int)
  · unfold add_cache_entry
    rw [if_pos hrej]
    exact Option.some_ne_none _
  · have hkey : strlen request < REQUEST_SIZE := by omega
    rcases find_invalid_entry_cases cache with ⟨hfind, _⟩ | ⟨i, hi, hfind, _, _⟩
    · exact absurd hfind (hfree hkey)
    · rw [add_cache_entry_accept cache usage_counter request response response.length now i
        hlen hi hfind hkey (by omega) (by omega) (le_refl _)]
      simp

/-- With the stamps in range, a connection whose URI scan stays inside the request
buffer never reaches the out-of-bounds insert. -/
theorem handle_connection_defined (n : Nat) (cache : cache_t) (usage_counter : Nat)
    (hinv : cache_inv cache) (htick : tick_inv n cache usage_counter) (hn : n < 2 ^ 64 - 1)
    (inp : conn_input)
    (huri : ∀ request, inp.request = some request → extract_request_uri request ≠ none) :
    handle_connection true cache usage_counter inp ≠ none := by
  unfold handle_connection
  cases hreq : inp.request with
  | none => simp
  | some request =>
    cases hu : extract_request_uri request with
    | none => exact absurd hu (huri request hreq)
    | some uri =>
      simp only [hu]
      by_cases hhost : extract_host request = none
      · simp [hhost]
      · simp only [hhost, if_false]
        by_cases hfresh : lookup_index true cache request ≠ -1 ∧
            is_timed_out cache (lookup_index true cache request).toNat inp.now_lookup = 0
        · rw [if_pos hfresh]; simp
        · rw [if_neg hfresh]
          unfold forward_phase
          cases hup : inp.upstream with
          | connect_failed => simp
          | forward_failed relayed => simp
          | forwarded response =>
            simp only []
            unfold store_phase
            by_cases hc : (true = true) ∧ check_no_cache response = 0 ∧
                strlen request ≤ REQUEST_SIZE ∧ (response.length : Int) ≤ RESPONSE_SIZE
            · rw [if_pos hc]
              have hdef := add_cache_entry_defined
                (stale_phase (lru_phase true cache (lookup_index true cache request))
                  (lookup_index true cache request)) usage_counter request response
                inp.now_insert
                (by rw [stale_phase_length, lru_phase_length]; exact hinv.1)
                (free_slot_before_insert n cache usage_counter hinv htick hn request)
              cases hadd : add_cache_entry (stale_phase (lru_phase true cache
                  (lookup_index true cache request)) (lookup_index true cache request))
                  usage_counter request response response.length inp.now_insert with
              | none => exact absurd hadd hdef
              | some res => simp
            · rw [if_neg hc]; simp

/-- C3 (amended): in every cache state reached from `init_cache` by fewer than
`2 ^ 64 - 1` cache-enabled connections, the cache that the pipeline hands to
`add_cache_entry` has a free slot whenever the request passes the size check, so
`find_invalid_entry` does not return `-1` there, and a connection whose URI scan stays
inside the request buffer never indexes outside the slot array. -/
theorem insert_never_out_of_bounds (n : Nat) (cache : cache_t) (usage_counter : Nat)
    (hreach : reachable_in n cache usage_counter) (hn : n < 2 ^ 64 - 1) :
    (∀ request, strlen request < REQUEST_SIZE →
      find_invalid_entry
        (stale_phase (lru_phase true cache (lookup_index true cache request))
          (lookup_index true cache request)) ≠ -1) ∧
    (∀ inp : conn_input,
      (∀ request, inp.request = some request → extract_request_uri request ≠ none) →
      handle_connection true cache usage_counter inp ≠ none) := by
  obtain ⟨hinv, htick⟩ := reachable_in_inv n cache usage_counter hreach
  exact ⟨free_slot_before_insert n cache usage_counter hinv htick hn,
    handle_connection_defined n cache usage_counter hinv htick hn⟩

/-- C4: in every cache state reachable from `init_cache` through cache-enabled
connections, no two valid slots hold the same request key. -/
theorem no_duplicate_keys (cache : cache_t) (usage_counter : Nat)
    (hreach : reachable cache usage_counter) :
    ∀ i < CACHE_SIZE, ∀ j < CACHE_SIZE,
      (cache.entry i).valid ≠ 0 → (cache.entry j).valid ≠ 0 →
      cstr (cache.entry i).request = cstr (cache.entry j).request → i = j := by
  obtain ⟨n, hn⟩ := hreach
  obtain ⟨⟨_, h01, _, huniq⟩, _⟩ := reachable_in_inv n cache usage_counter hn
  intro i hi j hj hvi hvj hkey
  exact huniq i hi j hj ((h01 i hi).resolve_left hvi) ((h01 j hj).resolve_left hvj) hkey

/-- C5 (amended): in every cache state reached from `init_cache` by fewer than
`2 ^ 64 - 1` cache-enabled connections, `valid_entries` is the number of slots whose
`valid` flag is 1 and lies between 0 and `CACHE_SIZE`; and every further connection
(its URI scan staying inside the request buffer) runs inside the slot array and again
leaves `valid_entries` equal to the number of valid slots. -/
theorem valid_entries_counts (n : Nat) (cache : cache_t) (usage_counter : Nat)
    (hreach : reachable_in n cache usage_counter) (hn : n < 2 ^ 64 - 1) :
    cache.entries.length = CACHE_SIZE ∧
    cache.valid_entries = valid_count cache ∧
    0 ≤ cache.valid_entries ∧ cache.valid_entries ≤ CACHE_SIZE ∧
    ∀ inp : conn_input,
      (∀ request, inp.request = some request → extract_request_uri request ≠ none) →
      ∃ r, handle_connection true cache usage_counter inp = some r ∧
        r.cache.entries.length = CACHE_SIZE ∧
        r.cache.valid_entries = valid_count r.cache ∧
        0 ≤ r.cache.valid_entries ∧ r.cache.valid_entries ≤ CACHE_SIZE := by
  obtain ⟨hinv, htick⟩ := reachable_in_inv n cache usage_counter hreach
  have hbounds : ∀ c : cache_t, cache_inv c →
      c.entries.length = CACHE_SIZE ∧ c.valid_entries = valid_count c ∧
      0 ≤ c.valid_entries ∧ c.valid_entries ≤ CACHE_SIZE := by
    intro c hc
    obtain ⟨hlen, _, hcount, _⟩ := hc
    have hle : valid_count c ≤ c.entries.length := List.countP_le_length _
    refine ⟨hlen, hcount, by rw [hcount]; omega, ?_⟩
    rw [hcount, ← hlen]
    exact_mod_cast hle
  obtain ⟨h1, h2, h3, h4⟩ := hbounds cache hinv
  refine ⟨h1, h2, h3, h4, ?_⟩
  intro inp huri
  have hdef := handle_connection_defined n cache usage_counter hinv htick hn inp huri
  cases hr : handle_connection true cache usage_counter inp with
  | none => exact absurd hr hdef
  | some r => exact ⟨r, rfl, hbounds r.cache (cache_inv_step cache usage_counter inp r hinv hr)⟩

theorem run_connections_reachable :
    ∀ (inps : List conn_input) (n : Nat) (cache : cache_t) (usage_counter : Nat)
      (s : cache_t × Nat),
      reachable_in n cache usage_counter →
      run_connections cache usage_counter inps = some s →
      reachable_in (n + inps.length) s.1 s.2 := by
  intro inps
  induction inps with
  | nil =>
    intro n cache usage_counter s hreach h
    simp only [run_connections, Option.some.injEq] at h
    rw [← h]
    exact hreach
  | cons inp rest ih =>
    intro n cache usage_counter s hreach h
    unfold run_connections at h
    cases hr : handle_connection true cache usage_counter inp with
    | none => simp [hr] at h
    | some r =>
      simp only [hr] at h
      have := ih (n + 1) r.cache r.usage_counter s
        (reachable_in.step n cache usage_counter inp r hreach hr) h
      rw [List.length_cons, show n + (rest.length + 1) = n + 1 + rest.length from by omega]
      exact this

/-- C3 (amended) after eleven connections with different requests: the cache is full
(`find_invalid_entry` finds no free slot in it), and the pipeline still hands
`add_cache_entry` a cache with a free slot. -/
theorem insert_never_out_of_bounds_witness :
    ∃ s, run_connections (init_cache sample_cache) 0 eleven_conns = some s ∧
      0 + eleven_conns.length < 2 ^ 64 - 1 ∧
      find_invalid_entry s.1 = -1 ∧
      (∀ request, strlen request < REQUEST_SIZE →
        find_invalid_entry
          (stale_phase (lru_phase true s.1 (lookup_index true s.1 request))
            (lookup_index true s.1 request)) ≠ -1) ∧
      (∀ inp : conn_input,
        (∀ request, inp.request = some request → extract_request_uri request ≠ none) →
        handle_connection true s.1 s.2 inp ≠ none) :=
  match h : run_connections (init_cache sample_cache) 0 eleven_conns with
  | some s =>
    have hfacts :
        (run_connections (init_cache sample_cache) 0 eleven_conns).map
          (fun s => find_invalid_entry s.1) = some (-1) := by decide
    have hs : find_invalid_entry s.1 = -1 := by
      rw [h] at hfacts
      simpa using hfacts
    ⟨s, rfl, by decide, hs,
      insert_never_out_of_bounds (0 + eleven_conns.length) s.1 s.2
        (run_connections_reachable eleven_conns 0 _ 0 s
          (reachable_in.init sample_cache (by decide)) h) (by decide)⟩
  | none => absurd h (by decide)

/-- C4 after eleven connections with different requests: all ten slots are valid, the
eleventh response took the place of the least recently used one. -/
theorem no_duplicate_keys_witness :
    ∃ s, run_connections (init_cache sample_cache) 0 eleven_conns = some s ∧
      (∀ i < CACHE_SIZE, (s.1.entry i).valid = 1) ∧
      cstr (s.1.entry 0).request = wrap_request 10 ∧
      ∀ i < CACHE_SIZE, ∀ j < CACHE_SIZE,
        (s.1.entry i).valid ≠ 0 → (s.1.entry j).valid ≠ 0 →
        cstr (s.1.entry i).request = cstr (s.1.entry j).request → i = j :=
  match h : run_connections (init_cache sample_cache) 0 eleven_conns with
  | some s =>
    have hfacts :
        (match run_connections (init_cache sample_cache) 0 eleven_conns with
         | none => false
         | some s => decide ((∀ i < CACHE_SIZE, (s.1.entry i).valid = 1) ∧
             cstr (s.1.entry 0).request = wrap_request 10)) = true := by decide
    have hs : (∀ i < CACHE_SIZE, (s.1.entry i).valid = 1) ∧
        cstr (s.1.entry 0).request = wrap_request 10 := by
      rw [h] at hfacts
      simpa using hfacts
    ⟨s, rfl, hs.1, hs.2,
      no_duplicate_keys s.1 s.2
        ⟨0 + eleven_conns.length,
          run_connections_reachable eleven_conns 0 _ 0 s
            (reachable_in.init sample_cache (by decide)) h⟩⟩
  | none => absurd h (by decide)

/-- C5 (amended) after eleven connections with different requests: the cache is full,
`valid_entries` is 10, and the next connection runs inside the slot array. -/
theorem valid_entries_counts_witness :
    ∃ s, run_connections (init_cache sample_cache) 0 eleven_conns = some s ∧
      0 + eleven_conns.length < 2 ^ 64 - 1 ∧
      s.1.valid_entries = 10 ∧
      s.1.entries.length = CACHE_SIZE ∧
      s.1.valid_entries = valid_count s.1 ∧
      0 ≤ s.1.valid_entries ∧ s.1.valid_entries ≤ CACHE_SIZE ∧
      ∀ inp : conn_input,
        (∀ request, inp.request = some request → extract_request_uri request ≠ none) →
        ∃ r, handle_connection true s.1 s.2 inp = some r ∧
          r.cache.entries.length = CACHE_SIZE ∧
          r.cache.valid_entries = valid_count r.cache ∧
          0 ≤ r.cache.valid_entries ∧ r.cache.valid_entries ≤ CACHE_SIZE :=
  match h : run_connections (init_cache sample_cache) 0 eleven_conns with
  | some s =>
    have hfacts :
        (run_connections (init_cache sample_cache) 0 eleven_conns).map
          (fun s => s.1.valid_entries) = some 10 := by decide
    have hs : s.1.valid_entries = 10 := by
      rw [h] at hfacts
      simpa using hfacts
    ⟨s, rfl, by decide, hs,
      valid_entries_counts (0 + eleven_conns.length) s.1 s.2
        (run_connections_reachable eleven_conns 0 _ 0 s
          (reachable_in.init sample_cache (by decide)) h) (by decide)⟩
  | none => absurd h (by decide)

/-! ## Tokenising with `strtok` -/

theorem find_sub_first (needle : List Nat) :
    ∀ (hay : List Nat) (n : Nat), n ≤ hay.length →
      needle.isPrefixOf (hay.drop n) = true →
      (∀ k < n, needle.isPrefixOf (hay.drop k) = false) →
      find_sub needle hay = some n := by
  intro hay
  induction hay with
  | nil =>
    intro n hn hp _
    have : n = 0 := by simpa using hn
    subst this
    cases needle with
    | nil => simp [find_sub]
    | cons a as => simp [List.isPrefixOf] at hp
  | cons c cs ih =>
    intro n hn hp hbefore
    cases n with
    | zero =>
      simp only [List.drop_zero] at hp
      simp [find_sub, hp]
    | succ n =>
      have h0 := hbefore 0 (Nat.succ_pos n)
      simp only [List.drop_zero] at h0
      have hrec := ih n (by simpa using hn) (by simpa using hp)
        (fun k hk => by simpa using hbefore (k + 1) (by omega))
      simp [find_sub, h0, hrec]

theorem splitOnP_unfold (p : Nat → Bool) (xs : List Nat) :
    xs.splitOnP p = xs.takeWhile (fun c => !p c) ::
      (match xs.dropWhile (fun c => !p c) with
       | [] => []
       | _ :: r => r.splitOnP p) := by
  induction xs with
  | nil => rfl
  | cons x xs ih =>
    by_cases hx : p x = true
    · simp [List.splitOnP_cons, hx, List.takeWhile_cons, List.dropWhile_cons]
    · have hx' : p x = false := by simpa using hx
      rw [List.splitOnP_cons, if_neg hx, ih]
      simp [List.takeWhile_cons, List.dropWhile_cons, hx']

/-- One tokenising step peels the first token off the token list. -/
theorem strtok_by_tokens (p : Nat → Bool) (s : List Nat) :
    (strtok_by p s = none ∧ tokens p s = []) ∨
    ∃ t r, strtok_by p s = some (t, r) ∧ tokens p s = t :: tokens p r ∧
      r.length < s.length := by
  induction s with
  | nil => left; simp [strtok_by, tokens]
  | cons x xs ih =>
    by_cases hx : p x = true
    · have hs : strtok_by p (x :: xs) = strtok_by p xs := by
        simp [strtok_by, List.dropWhile_cons, hx]
      have ht : tokens p (x :: xs) = tokens p xs := by
        simp [tokens, List.splitOnP_cons, hx]
      rw [hs, ht]
      rcases ih with h | ⟨t, r, h1, h2, h3⟩
      · exact Or.inl h
      · exact Or.inr ⟨t, r, h1, h2, by simp; omega⟩
    · right
      have hx' : p x = false := by simpa using hx
      refine ⟨x :: xs.takeWhile (fun d => !p d), (xs.dropWhile (fun d => !p d)).drop 1,
        ?_, ?_, ?_⟩
      · simp [strtok_by, List.dropWhile_cons, List.takeWhile_cons, hx']
      · unfold tokens
        rw [splitOnP_unfold p (x :: xs)]
        simp only [List.takeWhile_cons, List.dropWhile_cons, hx', Bool.not_false, if_true]
        rw [List.filter_cons_of_pos (by simp)]
        congr 1
        cases hd : xs.dropWhile (fun d => !p d) with
        | nil => simp
        | cons d r => simp
      · have := (List.dropWhile_sublist (fun d => !p d) (l := xs)).length_le
        simp only [List.length_drop, List.length_cons]
        omega

theorem strtok_tokens (delims : List Nat) (s : List Nat) :
    (strtok delims s = none ∧ tokens (fun c => delims.contains c) s = []) ∨
    ∃ t r, strtok delims s = some (t, r) ∧
      tokens (fun c => delims.contains c) s = t :: tokens (fun c => delims.contains c) r ∧
      r.length < s.length :=
  strtok_by_tokens (fun c => delims.contains c) s

theorem mem_of_mem_splitOnP (p : Nat → Bool) (s : List Nat) :
    ∀ t ∈ s.splitOnP p, ∀ c ∈ t, c ∈ s := by
  induction s with
  | nil => intro t ht c hc; simp at ht; subst ht; exact hc
  | cons x xs ih =>
    intro t ht c hc
    rw [List.splitOnP_cons] at ht
    by_cases hx : p x = true
    · rw [if_pos hx] at ht
      rcases List.mem_cons.mp ht with h | h
      · subst h; simp at hc
      · exact List.mem_cons_of_mem _ (ih t h c hc)
    · rw [if_neg hx] at ht
      cases hsp : xs.splitOnP p with
      | nil => rw [hsp] at ht; simp at ht
      | cons a as =>
        rw [hsp] at ht ih
        simp only [List.modifyHead_cons, List.mem_cons] at ht
        rcases ht with h | h
        · subst h
          rcases List.mem_cons.mp hc with h | h
          · subst h; simp
          · exact List.mem_cons_of_mem _ (ih a (by simp) c h)
        · exact List.mem_cons_of_mem _ (ih t (by simp [h]) c hc)

theorem mem_of_mem_tokens (p : Nat → Bool) (s : List Nat) :
    ∀ t ∈ tokens p s, ∀ c ∈ t, c ∈ s := by
  intro t ht c hc
  exact mem_of_mem_splitOnP p s t (List.mem_filter.mp ht).1 c hc

/-! ## The three `strtok` loops -/

theorem cache_control_loop_eq :
    ∀ (fuel : Nat) (s : List Nat), s.length < fuel →
      cache_control_loop fuel s =
        ((tokens (fun c => [13, 10].contains c) s).find?
          (fun line => strncasecmp_eq line (bytes "Cache-Control:") 14)).map
          (fun line => (line.drop 14).dropWhile is_blank) := by
  intro fuel
  induction fuel with
  | zero => intro s hs; omega
  | succ fuel ih =>
    intro s hs
    rcases strtok_tokens [13, 10] s with ⟨hnone, htok⟩ | ⟨t, r, hsome, htok, hlen⟩
    · rw [htok]; simp [cache_control_loop, hnone]
    · rw [htok]
      by_cases hcc : strncasecmp_eq t (bytes "Cache-Control:") 14 = true
      · simp [cache_control_loop, hsome, hcc, List.find?_cons]
      · have hcc' : strncasecmp_eq t (bytes "Cache-Control:") 14 = false := by simpa using hcc
        simp only [cache_control_loop, hsome, hcc', List.find?_cons]
        exact ih r (by omega)

theorem no_cache_loop_eq :
    ∀ (fuel : Nat) (s : List Nat), s.length < fuel →
      no_cache_loop fuel s =
        if (tokens (fun c => [44].contains c) s).any
            (fun t => cache_control_keywords.any (fun k => strcasecmp_eq (trim_token t) k))
        then 1 else 0 := by
  intro fuel
  induction fuel with
  | zero => intro s hs; omega
  | succ fuel ih =>
    intro s hs
    rcases strtok_tokens [44] s with ⟨hnone, htok⟩ | ⟨t, r, hsome, htok, hlen⟩
    · rw [htok]; simp [no_cache_loop, hnone]
    · rw [htok]
      by_cases hk : cache_control_keywords.any (fun k => strcasecmp_eq (trim_token t) k) = true
      · simp only [no_cache_loop, hsome, hk, if_true, List.any_cons, Bool.true_or]
      · have hk' : cache_control_keywords.any (fun k => strcasecmp_eq (trim_token t) k)
            = false := by simpa using hk
        simp only [no_cache_loop, hsome, hk', List.any_cons, Bool.false_or]
        exact ih r (by omega)

theorem max_age_loop_eq :
    ∀ (fuel : Nat) (s : List Nat), s.length < fuel →
      max_age_loop fuel s =
        match (tokens (fun c => [44].contains c) s).find?
            (fun t => strncasecmp_eq (t.dropWhile is_blank) (bytes "max-age=") 8) with
        | none => -1
        | some t => atoi ((t.dropWhile is_blank).drop 8) := by
  intro fuel
  induction fuel with
  | zero => intro s hs; omega
  | succ fuel ih =>
    intro s hs
    rcases strtok_tokens [44] s with ⟨hnone, htok⟩ | ⟨t, r, hsome, htok, hlen⟩
    · rw [htok]; simp [max_age_loop, hnone]
    · rw [htok]
      by_cases hk : strncasecmp_eq (t.dropWhile is_blank) (bytes "max-age=") 8 = true
      · simp [max_age_loop, hsome, hk, List.find?_cons]
      · have hk' : strncasecmp_eq (t.dropWhile is_blank) (bytes "max-age=") 8 = false := by
          simpa using hk
        simp only [max_age_loop, hsome, hk', List.find?_cons]
        exact ih r (by omega)

/-! ## Trimming -/

theorem take_skip_back (l : List Nat) (hhead : is_blank (l.getD 0 0) = false) :
    ∀ e, e < l.length →
      l.take (skip_back l e + 1) = (l.take (e + 1)).rdropWhile is_blank := by
  intro e
  induction e with
  | zero =>
    intro h0
    cases l with
    | nil => simp at h0
    | cons c cs =>
      simp only [List.getD_cons_zero] at hhead
      simp [skip_back, List.rdropWhile_singleton, hhead]
  | succ e ih =>
    intro he
    have hx : l.getD (e + 1) 0 = l[e + 1] := by
      simp [List.getD_eq_getElem?_getD, he]
    have htake : l.take (e + 1 + 1) = l.take (e + 1) ++ [l[e + 1]] := by
      rw [List.take_succ, List.getElem?_eq_getElem he]; rfl
    by_cases hb : is_blank (l.getD (e + 1) 0) = true
    · simp only [skip_back, hb, if_true]
      rw [ih (by omega), htake, List.rdropWhile_concat_pos _ _ _ (by rw [← hx]; exact hb)]
    · have hsk : skip_back l (e + 1) = e + 1 := by
        unfold skip_back
        rw [if_neg hb]
      rw [hsk, htake, List.rdropWhile_concat_neg _ _ _ (by rw [← hx]; exact hb)]

theorem head_dropWhile_not_blank (t : List Nat) (c : Nat) (cs : List Nat)
    (h : t.dropWhile is_blank = c :: cs) : is_blank c = false := by
  induction t with
  | nil => simp at h
  | cons x xs ih =>
    by_cases hx : is_blank x = true
    · rw [List.dropWhile_cons_of_pos hx] at h
      exact ih h
    · rw [List.dropWhile_cons_of_neg hx] at h
      simp only [List.cons.injEq] at h
      rw [← h.1]; simpa using hx

/-- The two white-space loops of `check_no_cache` strip the token on both sides. -/
theorem trim_token_eq (t : List Nat) : trim_token t = spec_strip t := by
  unfold trim_token spec_strip
  cases h : t.dropWhile is_blank with
  | nil => simp [List.rdropWhile_nil]
  | cons c cs =>
    have hc := head_dropWhile_not_blank t c cs h
    have := take_skip_back (c :: cs) (by simpa using hc) cs.length (by simp)
    simp only [this]
    rw [List.take_of_length_le (by simp)]

/-! ## `parse_cache_control` and `check_no_cache` against the specification -/

theorem cstr_terminator : cstr (bytes "\r\n\r\n") = bytes "\r\n\r\n" := by decide

theorem strstr_header_block (response block : List Nat)
    (hblock : is_header_block (cstr response) block) :
    strstr response (bytes "\r\n\r\n") = some block.length := by
  obtain ⟨⟨rest, hrest⟩, hfirst⟩ := hblock
  unfold strstr
  rw [cstr_terminator]
  apply find_sub_first
  · rw [hrest]; simp
  · rw [hrest, List.append_assoc, List.drop_left]
    simp [List.isPrefixOf_iff_prefix]
  · exact hfirst

theorem line_break_delims : (fun c => [13, 10].contains c) = is_line_break := by
  funext c
  by_cases h13 : c = 13
  · simp [is_line_break, h13]
  · by_cases h10 : c = 10
    · simp [is_line_break, h10]
    · simp [is_line_break, h13, h10]

theorem comma_delims : (fun c => [44].contains c) = (fun c : Nat => c == 44) := by
  funext c
  by_cases h : c = 44
  · simp [h]
  · simp [h]

/-- The header value `parse_cache_control` returns is that of the first
`Cache-Control:` line of the header block. -/
theorem parse_cache_control_eq (response block : List Nat)
    (hblock : is_header_block (cstr response) block) :
    parse_cache_control response =
      ((spec_header_lines block).find?
        (fun line => strncasecmp_eq line (bytes "Cache-Control:") 14)).map
        (fun line => (line.drop 14).dropWhile is_blank) := by
  have hstr := strstr_header_block response block hblock
  obtain ⟨⟨rest, hrest⟩, _⟩ := hblock
  have htake : (cstr response).take block.length = block := by
    rw [hrest, List.append_assoc, List.take_left]
  simp only [parse_cache_control, hstr, htake]
  rw [cache_control_loop_eq _ _ (Nat.lt_succ_self _), line_break_delims]
  rfl

theorem block_no_nul (response block : List Nat)
    (hblock : is_header_block (cstr response) block) : 0 ∉ block := by
  obtain ⟨⟨rest, hrest⟩, _⟩ := hblock
  intro h
  have : (0 : Nat) ∈ cstr response := by rw [hrest]; simp [h]
  exact zero_not_mem_cstr response this

theorem strncasecmp_cache_control (line : List Nat) (h0 : 0 ∉ line) :
    strncasecmp_eq line (bytes "Cache-Control:") 14 = spec_is_cache_control line := by
  unfold strncasecmp_eq spec_is_cache_control spec_caseless_eq
  rw [cstr_of_not_mem line h0]
  rfl

theorem find_congr_mem {α : Type} (l : List α) (p q : α → Bool)
    (h : ∀ x ∈ l, p x = q x) : l.find? p = l.find? q := by
  induction l with
  | nil => rfl
  | cons x xs ih =>
    have hx := h x (by simp)
    have := ih (fun y hy => h y (by simp [hy]))
    simp [List.find?_cons, hx, this]

theorem any_congr_mem {α : Type} (l : List α) (p q : α → Bool)
    (h : ∀ x ∈ l, p x = q x) : l.any p = l.any q := by
  induction l with
  | nil => rfl
  | cons x xs ih =>
    have hx := h x (by simp)
    have := ih (fun y hy => h y (by simp [hy]))
    simp [List.any_cons, hx, this]

theorem mem_spec_strip (t : List Nat) (c : Nat) (h : c ∈ spec_strip t) : c ∈ t := by
  unfold spec_strip at h
  exact (List.dropWhile_sublist is_blank).subset
    ((List.rdropWhile_prefix is_blank _).subset h)

theorem map_strip_dropWhile (v : List Nat) :
    ((v.dropWhile is_blank).splitOnP (fun c => c == 44)).map spec_strip
      = (v.splitOnP (fun c => c == 44)).map spec_strip := by
  induction v with
  | nil => rfl
  | cons x xs ih =>
    by_cases hx : is_blank x = true
    · have hne : (x == 44) = false := by
        have : x = 32 ∨ x = 9 := by simpa [is_blank] using hx
        rcases this with h | h <;> simp [h]
      rw [List.dropWhile_cons_of_pos hx, ih, List.splitOnP_cons]
      simp only [hne, Bool.false_eq_true, if_false]
      cases hsp : xs.splitOnP (fun c => c == 44) with
      | nil => simp
      | cons a as =>
        simp only [List.modifyHead_cons, List.map_cons, List.cons.injEq, and_true]
        simp [spec_strip, List.dropWhile_cons_of_pos hx]
    · rw [List.dropWhile_cons_of_neg hx]

theorem keywords_no_nul : ∀ k ∈ cache_control_keywords, 0 ∉ k := by decide

theorem strcasecmp_eq_caseless (a b : List Nat) (ha : 0 ∉ a) (hb : 0 ∉ b) :
    strcasecmp_eq a b = spec_caseless_eq a b := by
  unfold strcasecmp_eq spec_caseless_eq
  rw [cstr_of_not_mem a ha, cstr_of_not_mem b hb]

/-- The loop of `check_no_cache` over the header value finds what the specification
finds among the stripped comma-separated pieces. -/
theorem no_cache_loop_spec (value : List Nat) (h0 : 0 ∉ value) :
    no_cache_loop ((value.dropWhile is_blank).length + 1) (value.dropWhile is_blank) =
      if (spec_directives value).any spec_forbids_caching then 1 else 0 := by
  rw [no_cache_loop_eq _ _ (Nat.lt_succ_self _), comma_delims]
  congr 1
  unfold tokens spec_directives
  rw [← map_strip_dropWhile value, List.any_filter, List.any_map]
  have hsub : ∀ c ∈ value.dropWhile is_blank, c ∈ value :=
    fun c hc => (List.dropWhile_sublist is_blank).subset hc
  rw [any_congr_mem _ _ (spec_forbids_caching ∘ spec_strip)]
  intro t ht
  have ht0 : 0 ∉ spec_strip t := fun h =>
    h0 (hsub 0 (mem_of_mem_splitOnP _ _ t ht 0 (mem_spec_strip t 0 h)))
  have hkw : cache_control_keywords.any (fun k => strcasecmp_eq (trim_token t) k)
      = spec_forbids_caching (spec_strip t) := by
    unfold spec_forbids_caching
    rw [trim_token_eq]
    exact any_congr_mem _ _ _
      (fun k hk => strcasecmp_eq_caseless _ _ ht0 (keywords_no_nul k hk))
  rw [hkw]
  cases t with
  | nil => decide
  | cons a as => simp

theorem any_of_unique {α : Type} (l : List α) (p q : α → Bool)
    (h : (l.filter p).length ≤ 1) :
    l.any (fun x => p x && q x) = ((l.find? p).map q).getD false := by
  induction l with
  | nil => rfl
  | cons x xs ih =>
    by_cases hx : p x = true
    · rw [List.filter_cons_of_pos hx] at h
      have hnil : xs.filter p = [] := by
        apply List.eq_nil_of_length_eq_zero
        simp at h
        simpa using h
      have hnone : ∀ y ∈ xs, p y = false := by
        intro y hy
        by_contra hp
        have : y ∈ xs.filter p := List.mem_filter.mpr ⟨hy, by simpa using hp⟩
        rw [hnil] at this
        simp at this
      have hrest : xs.any (fun y => p y && q y) = false := by
        rw [List.any_eq_false]
        intro y hy
        simp [hnone y hy]
      simp [List.any_cons, List.find?_cons, hx, hrest]
    · have hx' : p x = false := by simpa using hx
      rw [List.filter_cons_of_neg hx] at h
      simp [List.any_cons, List.find?_cons, hx', ih h]

/-- C7: for a response whose header block (the text before the first `"\r\n\r\n"`) has
at most one line starting case-insensitively with `Cache-Control:`, `check_no_cache`
returns 1 exactly when that line exists and one of the comma-separated pieces of its
value, stripped of surrounding spaces and tabs, equals case-insensitively one of the
six directives; otherwise it returns 0. -/
theorem check_no_cache_spec (response block : List Nat)
    (hblock : is_header_block (cstr response) block)
    (hone : ((spec_header_lines block).filter spec_is_cache_control).length ≤ 1) :
    check_no_cache response = if spec_no_cache block then 1 else 0 := by
  have h0 := block_no_nul response block hblock
  have hlines0 : ∀ line ∈ spec_header_lines block, 0 ∉ line :=
    fun line hl h => h0 (mem_of_mem_tokens _ _ line hl 0 h)
  unfold check_no_cache
  rw [parse_cache_control_eq response block hblock,
    find_congr_mem _ _ spec_is_cache_control
      (fun line hl => strncasecmp_cache_control line (hlines0 line hl))]
  unfold spec_no_cache
  rw [any_of_unique _ _ _ hone]
  cases hf : (spec_header_lines block).find? spec_is_cache_control with
  | none => simp
  | some line =>
    simp only [Option.map_some', Option.getD_some]
    have hmem : line ∈ spec_header_lines block := List.mem_of_find?_eq_some hf
    exact no_cache_loop_spec (line.drop 14)
      (fun h => hlines0 line hmem ((List.drop_sublist 14 line).subset h))

/-- C7 on `Cache-Control:  Private , max-age=100`, together with the header
`Cache-Control: max-age=3600` and a response without the header. -/
theorem check_no_cache_spec_witness :
    is_header_block (cstr private_response) private_block ∧
    ((spec_header_lines private_block).filter spec_is_cache_control).length ≤ 1 ∧
    check_no_cache private_response = (if spec_no_cache private_block then 1 else 0) ∧
    check_no_cache private_response = 1 ∧
    check_no_cache (bytes "HTTP/1.1 200 OK\r\nCache-Control: max-age=3600\r\n\r\n") = 0 ∧
    check_no_cache (bytes "HTTP/1.1 200 OK\r\nContent-Length: 0\r\n\r\n") = 0 :=
  ⟨⟨⟨bytes "body", by decide⟩, by decide⟩, by decide,
    check_no_cache_spec private_response private_block
      ⟨⟨bytes "body", by decide⟩, by decide⟩ (by decide),
    by decide, by decide, by decide⟩

/-! ## `get_max_age` against the specification -/

theorem map_dropWhile_dropWhile (v : List Nat) :
    ((v.dropWhile is_blank).splitOnP (fun c => c == 44)).map (List.dropWhile is_blank)
      = (v.splitOnP (fun c => c == 44)).map (List.dropWhile is_blank) := by
  induction v with
  | nil => rfl
  | cons x xs ih =>
    by_cases hx : is_blank x = true
    · have hne : (x == 44) = false := by
        have : x = 32 ∨ x = 9 := by simpa [is_blank] using hx
        rcases this with h | h <;> simp [h]
      rw [List.dropWhile_cons_of_pos hx, ih, List.splitOnP_cons]
      simp only [hne, Bool.false_eq_true, if_false]
      cases hsp : xs.splitOnP (fun c => c == 44) with
      | nil => simp
      | cons a as =>
        simp only [List.modifyHead_cons, List.map_cons, List.cons.injEq, and_true]
        simp [List.dropWhile_cons_of_pos hx]
    · rw [List.dropWhile_cons_of_neg hx]

theorem strncasecmp_max_age (t : List Nat) (h0 : 0 ∉ t) :
    strncasecmp_eq (t.dropWhile is_blank) (bytes "max-age=") 8 = spec_is_max_age t := by
  unfold strncasecmp_eq spec_is_max_age spec_caseless_eq
  rw [cstr_of_not_mem _ (fun h => h0 ((List.dropWhile_sublist is_blank).subset h))]
  rfl

/-- The loop of `get_max_age` over the header value returns `atoi` of what the
specification finds after `max-age=`, and `-1` when it finds no such directive. -/
theorem max_age_loop_spec (value : List Nat) (h0 : 0 ∉ value) :
    max_age_loop ((value.dropWhile is_blank).length + 1) (value.dropWhile is_blank) =
      match spec_max_age_text value with
      | none => -1
      | some text => atoi text := by
  rw [max_age_loop_eq _ _ (Nat.lt_succ_self _), comma_delims]
  have hsub : ∀ c ∈ value.dropWhile is_blank, c ∈ value :=
    fun c hc => (List.dropWhile_sublist is_blank).subset hc
  have hfind : (tokens (fun c => c == 44) (value.dropWhile is_blank)).find?
        (fun t => strncasecmp_eq (t.dropWhile is_blank) (bytes "max-age=") 8)
      = ((value.dropWhile is_blank).splitOnP (fun c => c == 44)).find? spec_is_max_age := by
    unfold tokens
    rw [List.find?_filter]
    apply find_congr_mem
    intro t ht
    have ht0 : 0 ∉ t := fun h => h0 (hsub 0 (mem_of_mem_splitOnP _ _ t ht 0 h))
    rw [strncasecmp_max_age t ht0]
    cases t with
    | nil => decide
    | cons a as => simp
  have hspec : spec_max_age_text value =
      (((value.dropWhile is_blank).splitOnP (fun c => c == 44)).find? spec_is_max_age).map
        (fun piece => (piece.dropWhile is_blank).drop 8) := by
    unfold spec_max_age_text
    have hq : spec_is_max_age
        = (fun u => spec_caseless_eq (u.take 8) (bytes "max-age=")) ∘ List.dropWhile is_blank :=
      rfl
    have hg : (fun piece : List Nat => (piece.dropWhile is_blank).drop 8)
        = (fun u => u.drop 8) ∘ List.dropWhile is_blank := rfl
    rw [hq, hg, ← Option.map_map, ← Option.map_map, ← List.find?_map, ← List.find?_map,
      map_dropWhile_dropWhile]
  rw [hfind, hspec]
  cases ((value.dropWhile is_blank).splitOnP (fun c => c == 44)).find? spec_is_max_age with
  | none => rfl
  | some t => rfl

/-- The result of `get_max_age` in the specification's terms. -/
theorem get_max_age_eq (response block : List Nat)
    (hblock : is_header_block (cstr response) block) :
    get_max_age response =
      match spec_cache_control_value block with
      | none => -1
      | some value =>
        match spec_max_age_text value with
        | none => -1
        | some text => atoi text := by
  have h0 := block_no_nul response block hblock
  have hlines0 : ∀ line ∈ spec_header_lines block, 0 ∉ line :=
    fun line hl h => h0 (mem_of_mem_tokens _ _ line hl 0 h)
  unfold get_max_age spec_cache_control_value
  rw [parse_cache_control_eq response block hblock,
    find_congr_mem _ _ spec_is_cache_control
      (fun line hl => strncasecmp_cache_control line (hlines0 line hl))]
  cases hf : (spec_header_lines block).find? spec_is_cache_control with
  | none => rfl
  | some line =>
    simp only [Option.map_some']
    have hmem : line ∈ spec_header_lines block := List.mem_of_find?_eq_some hf
    exact max_age_loop_spec (line.drop 14)
      (fun h => hlines0 line hmem ((List.drop_sublist 14 line).subset h))

theorem decimal_digits_value :
    ∀ (fuel n : Nat), n < fuel → ∀ rest,
      digits_value 0 (decimal_digits fuel n ++ rest) = digits_value n rest := by
  intro fuel
  induction fuel with
  | zero => intro n hn; omega
  | succ fuel ih =>
    intro n hn rest
    by_cases h10 : n < 10
    · have hd : isdigit (n + 48) = true := by simp [isdigit]; omega
      simp [decimal_digits, h10, digits_value, hd]
    · have hd : isdigit (n % 10 + 48) = true := by simp [isdigit]; omega
      simp only [decimal_digits, h10, if_false, List.append_assoc, List.singleton_append]
      rw [ih (n / 10) (by omega)]
      simp only [digits_value, hd, if_true, Nat.add_sub_cancel]
      congr 1
      omega

theorem decimal_digits_range :
    ∀ (fuel n : Nat), ∀ c ∈ decimal_digits fuel n, 48 ≤ c ∧ c ≤ 57 := by
  intro fuel
  induction fuel with
  | zero => intro n c hc; simp [decimal_digits] at hc
  | succ fuel ih =>
    intro n c hc
    by_cases h10 : n < 10
    · simp only [decimal_digits, h10, if_true, List.mem_singleton] at hc
      omega
    · simp only [decimal_digits, h10, if_false, List.mem_append, List.mem_singleton] at hc
      rcases hc with h | h
      · exact ih _ c h
      · omega

theorem decimal_digits_ne_nil (fuel n : Nat) : decimal_digits (fuel + 1) n ≠ [] := by
  by_cases h10 : n < 10
  · simp [decimal_digits, h10]
  · simp [decimal_digits, h10]

/-- The permissive integer parse reads a decimal numeral up to `INT_MAX` back. -/
theorem atoi_spec_decimal (n : Nat) (hn : n ≤ INT_MAX) : atoi (spec_decimal n) = n := by
  have hrange := decimal_digits_range (n + 1) n
  have hval := decimal_digits_value (n + 1) n (Nat.lt_succ_self n) []
  rw [List.append_nil] at hval
  have h0 : 0 ∉ spec_decimal n := fun h => by
    have := hrange 0 h
    omega
  unfold atoi
  rw [cstr_of_not_mem _ h0]
  cases hd : spec_decimal n with
  | nil => exact absurd hd (decimal_digits_ne_nil n n)
  | cons c cs =>
    have hc : 48 ≤ c ∧ c ≤ 57 := hrange c (by
      show c ∈ spec_decimal n
      rw [hd]; simp)
    have hsp : isspace c = false := by
      simp [isspace]; omega
    rw [List.dropWhile_cons_of_neg (by simp [hsp])]
    have h45 : c ≠ 45 := by omega
    have h43 : c ≠ 43 := by omega
    simp only [h45, h43, if_false]
    have hv : digits_value 0 (c :: cs) = n := by
      rw [← hd]; exact hval
    rw [hv]
    unfold INT_MAX at hn
    unfold to_int32 clamp_long
    omega

/-- C8: for a response with a terminated header block, `get_max_age` returns `-1` when
the block has no `Cache-Control:` line or when no comma-separated directive of the
header value starts, after leading blanks and case-insensitively, with `max-age=`; and
it returns `n` when the first such directive is `max-age=` followed by the decimal
digits of `n`, for every `n` up to `INT_MAX`. -/
theorem get_max_age_spec (response block : List Nat)
    (hblock : is_header_block (cstr response) block) :
    ((∀ line ∈ spec_header_lines block, spec_is_cache_control line = false) →
      get_max_age response = -1) ∧
    (∀ value, spec_cache_control_value block = some value →
      (∀ piece ∈ value.splitOnP (fun c => c == 44), spec_is_max_age piece = false) →
      get_max_age response = -1) ∧
    (∀ value n, spec_cache_control_value block = some value →
      spec_max_age_text value = some (spec_decimal n) → n ≤ INT_MAX →
      get_max_age response = (n : Int)) := by
  have heq := get_max_age_eq response block hblock
  refine ⟨?_, ?_, ?_⟩
  · intro hnone
    have : spec_cache_control_value block = none := by
      unfold spec_cache_control_value
      rw [List.find?_eq_none.mpr (fun line hl => by simp [hnone line hl])]
      rfl
    rw [heq, this]
  · intro value hv hnone
    have : spec_max_age_text value = none := by
      unfold spec_max_age_text
      rw [List.find?_eq_none.mpr (fun piece hp => by simp [hnone piece hp])]
      rfl
    rw [heq, hv]
    simp only [this]
  · intro value n hv ht hn
    rw [heq, hv]
    simp only [ht]
    exact atoi_spec_decimal n hn

/-- C8 on `Cache-Control: public, max-age=120`. -/
theorem get_max_age_spec_witness :
    is_header_block (cstr max_age_response) max_age_block ∧
    spec_cache_control_value max_age_block = some (bytes " public, max-age=120") ∧
    spec_max_age_text (bytes " public, max-age=120") = some (spec_decimal 120) ∧
    get_max_age max_age_response = 120 :=
  ⟨⟨⟨bytes "body", by decide⟩, by decide⟩, by decide, by decide,
    (get_max_age_spec max_age_response max_age_block
      ⟨⟨bytes "body", by decide⟩, by decide⟩).2.2
      (bytes " public, max-age=120") 120 (by decide) (by decide) (by decide)⟩

/-! ## The use counter wraps: a full cache that `evict_lru_entry` cannot shrink -/

theorem wrap_request_facts :
    ∀ i < 11, extract_request_uri (wrap_request i) ≠ none ∧
      extract_host (wrap_request i) ≠ none ∧ strlen (wrap_request i) < REQUEST_SIZE ∧
      cstr (wrap_request i) = wrap_request i := by
  decide

theorem wrap_request_inj : ∀ i < 11, ∀ j < 11, wrap_request i = wrap_request j → i = j := by
  decide

theorem wrap_response_facts :
    check_no_cache wrap_response = 0 ∧ get_max_age wrap_response = -1 ∧
    (wrap_response.length : Int) ≤ RESPONSE_SIZE := by
  decide

/-- The loop body on `wrap_conn i`, with the request parsing evaluated. -/
theorem handle_wrap_conn (c : cache_t) (usage_counter i : Nat) (hi : i < 11) :
    handle_connection true c usage_counter (wrap_conn i) =
      if lookup_index true c (wrap_request i) ≠ -1 ∧
          is_timed_out c (lookup_index true c (wrap_request i)).toNat 0 = 0 then
        some ⟨(serve_from_cache c (lookup_index true c (wrap_request i)).toNat
                usage_counter).2.1,
              (serve_from_cache c (lookup_index true c (wrap_request i)).toNat
                usage_counter).2.2,
              (serve_from_cache c (lookup_index true c (wrap_request i)).toNat
                usage_counter).1, false⟩
      else
        store_phase true
          (lru_phase true c (lookup_index true c (wrap_request i))) usage_counter
          (lookup_index true c (wrap_request i)) (wrap_request i) wrap_response 0 := by
  obtain ⟨huri, hhost, _, _⟩ := wrap_request_facts i hi
  unfold handle_connection
  simp only [wrap_conn]
  cases hu : extract_request_uri (wrap_request i) with
  | none => exact absurd hu huri
  | some uri =>
    simp only [hhost, if_false, forward_phase]

theorem lookup_miss_of_filled (k : Nat) (c : cache_t) (hf : filled k c) (i : Nat)
    (hk : k ≤ i) (hi : i < 11) : lookup_index true c (wrap_request i) = -1 := by
  obtain ⟨_, _, hused, hfree⟩ := hf
  rcases lookup_index_cases c (wrap_request i) with ⟨h, _⟩ | ⟨j, hj, _, hv, hkey, _⟩
  · exact h
  · exfalso
    by_cases hjk : j < k
    · rw [(hused j hjk).2.1, (wrap_request_facts i hi).2.2.2] at hkey
      have := wrap_request_inj j (by unfold CACHE_SIZE at hj; omega) i hi hkey
      omega
    · rw [hfree j (by omega) hj] at hv
      exact absurd hv (by decide)

theorem lookup_hit_of_filled (k : Nat) (c : cache_t) (hf : filled k c) (i : Nat)
    (hi : i < k) (hk : k ≤ CACHE_SIZE) : lookup_index true c (wrap_request i) = (i : Int) := by
  obtain ⟨_, _, hused, hfree⟩ := hf
  have hi11 : i < 11 := by unfold CACHE_SIZE at hk; omega
  have hmatch : (c.entry i).valid = 1 ∧ cstr (c.entry i).request = cstr (wrap_request i) := by
    rw [(wrap_request_facts i hi11).2.2.2]
    exact ⟨(hused i hi).1, (hused i hi).2.1⟩
  rcases lookup_index_cases c (wrap_request i) with ⟨_, habs⟩ | ⟨j, hj, hfound, hv, hkey, _⟩
  · exact absurd hmatch (habs (wrap_request_facts i hi11).2.2.1 i (by omega))
  · by_cases hjk : j < k
    · rw [(hused j hjk).2.1, (wrap_request_facts i hi11).2.2.2] at hkey
      have := wrap_request_inj j (by unfold CACHE_SIZE at hj; omega) i hi11 hkey
      rw [hfound, this]
    · rw [hfree j (by omega) hj] at hv
      exact absurd hv (by decide)

/-- A miss on a cache with a free slot stores the response in the first free slot. -/
theorem insert_step (k : Nat) (c : cache_t) (usage_counter : Nat) (hf : filled k c)
    (hk : k < CACHE_SIZE) :
    ∃ r, handle_connection true c usage_counter (wrap_conn k) = some r ∧
      filled (k + 1) r.cache := by
  have hk11 : k < 11 := by unfold CACHE_SIZE at hk; omega
  have hmiss := lookup_miss_of_filled k c hf k (le_refl k) hk11
  obtain ⟨hlen, hcount, hused, hfree⟩ := hf
  obtain ⟨_, _, hstr, _⟩ := wrap_request_facts k hk11
  obtain ⟨hnc, hage, hsize⟩ := wrap_response_facts
  have hnotfull : ¬ (c.valid_entries = (CACHE_SIZE : Int)) := by rw [hcount]; omega
  have hlru : lru_phase true c (-1) = c := by simp [lru_phase, hnotfull]
  have hstale : stale_phase c (-1) = c := by simp [stale_phase]
  have hfind : find_invalid_entry c = (k : Int) := by
    rcases find_invalid_entry_cases c with ⟨_, hall⟩ | ⟨i, hi, hfind, hv, hfirst⟩
    · exact absurd (hfree k (le_refl k) hk) (hall k hk)
    · have h1 : ¬ i < k := fun h => by
        rw [(hused i h).1] at hv
        exact absurd hv (by decide)
      have h2 : ¬ k < i := fun h => hfirst k h (hfree k (le_refl k) hk)
      have : i = k := by omega
      rw [hfind, this]
  obtain ⟨cache1, hadd, hlen1, hcount1, hnew, hold⟩ :=
    add_cache_entry_frame c usage_counter (wrap_request k) wrap_response
      wrap_response.length 0 k hlen hk hfind hstr (by omega) hsize (le_refl _)
  have hcond : (true = true) ∧ check_no_cache wrap_response = 0 ∧
      strlen (wrap_request k) ≤ REQUEST_SIZE ∧ (wrap_response.length : Int) ≤ RESPONSE_SIZE :=
    ⟨rfl, hnc, by omega, hsize⟩
  refine ⟨⟨cache1, (usage_counter + 1) % 2 ^ 64, wrap_response, true⟩, ?_, hlen1, ?_, ?_, ?_⟩
  · rw [handle_wrap_conn c usage_counter k hk11, hmiss]
    simp only [ne_eq, not_true_eq_false, false_and, if_false, hlru]
    unfold store_phase
    rw [if_pos hcond, hstale, hadd]
  · show cache1.valid_entries = ((k + 1 : Nat) : Int)
    rw [hcount1, hcount]
    have : (k : Int) < (CACHE_SIZE : Int) := by omega
    simp only [this, if_true]
    omega
  · intro i hi
    show (cache1.entry i).valid = 1 ∧ _
    rcases Nat.lt_succ_iff_lt_or_eq.mp hi with hik | hik
    · rw [hold i (by omega)]; exact hused i hik
    · subst hik
      rw [hnew]
      exact ⟨rfl, by
        show cstr (strncpy _ (wrap_request i) REQUEST_SIZE) = wrap_request i
        rw [cstr_strncpy _ _ _ hstr, (wrap_request_facts i hk11).2.2.2], hage⟩
  · intro i hi hil
    show (cache1.entry i).valid = 0
    rw [hold i (by omega)]
    exact hfree i (by omega) hil

/-- A hit on a full cache of entries without expiry touches the slot and nothing else. -/
theorem serve_step (c : cache_t) (usage_counter i : Nat) (hf : filled CACHE_SIZE c)
    (hi : i < CACHE_SIZE) :
    ∃ r, handle_connection true c usage_counter (wrap_conn i) = some r ∧
      filled CACHE_SIZE r.cache ∧ r.usage_counter = (usage_counter + 1) % 2 ^ 64 ∧
      (r.cache.entry i).last_used = (usage_counter + 1) % 2 ^ 64 ∧
      ∀ j, j ≠ i → (r.cache.entry j).last_used = (c.entry j).last_used := by
  have hi11 : i < 11 := by unfold CACHE_SIZE at hi; omega
  have hhit := lookup_hit_of_filled CACHE_SIZE c hf i hi (le_refl _)
  obtain ⟨hlen, hcount, hused, hfree⟩ := hf
  have hne : ((i : Int) ≠ -1) := by omega
  have hfresh : is_timed_out c i 0 = 0 := by simp [is_timed_out, (hused i hi).2.2]
  have hil : i < c.entries.length := by omega
  have hc1 : (serve_from_cache c i usage_counter).2.1
      = c.set_entry i { c.entry i with last_used := (usage_counter + 1) % 2 ^ 64 } := rfl
  refine ⟨⟨(serve_from_cache c i usage_counter).2.1, (serve_from_cache c i usage_counter).2.2,
    (serve_from_cache c i usage_counter).1, false⟩, ?_, ⟨?_, ?_, ?_, ?_⟩, rfl, ?_, ?_⟩
  · rw [handle_wrap_conn c usage_counter i hi11, hhit]
    simp only [Int.toNat_natCast, hfresh, ne_eq, hne, not_false_eq_true, and_self, if_true]
  · simp [serve_from_cache, update_last_used, cache_t.set_entry, hlen]
  · simpa [serve_from_cache, update_last_used, cache_t.set_entry] using hcount
  · intro j hj
    rw [hc1]
    by_cases hji : j = i
    · subst hji
      rw [set_entry_same c j _ hil]
      exact hused j hj
    · rw [set_entry_other c i j _ hji]
      exact hused j hj
  · intro j hj hjl
    omega
  · show ((serve_from_cache c i usage_counter).2.1.entry i).last_used = _
    rw [hc1, set_entry_same c i _ hil]
  · intro j hji
    show ((serve_from_cache c i usage_counter).2.1.entry j).last_used = _
    rw [hc1, set_entry_other c i j _ hji]

theorem reach_filled (c0 : cache_t) (hshape : c0.entries.length = CACHE_SIZE) :
    ∀ k ≤ CACHE_SIZE, ∃ c usage_counter, reachable_in k c usage_counter ∧ filled k c := by
  intro k
  induction k with
  | zero =>
    intro _
    obtain ⟨h0, hlen, hall⟩ := init_cache_spec c0 hshape
    refine ⟨init_cache c0, 0, reachable_in.init c0 hshape, hlen, by rw [h0]; rfl,
      fun i hi => absurd hi (Nat.not_lt_zero i), ?_⟩
    intro i _ hi
    rw [hall i hi]; rfl
  | succ k ih =>
    intro hk
    obtain ⟨c, uc, hreach, hf⟩ := ih (by omega)
    obtain ⟨r, hstep, hf1⟩ := insert_step k c uc hf (by omega)
    exact ⟨r.cache, r.usage_counter, reachable_in.step k c uc (wrap_conn k) r hreach hstep, hf1⟩

/-- Serving slot `i` again and again: after `m + 1` hits the counter and the stamp of
the slot have advanced by `m + 1` modulo `2 ^ 64`. -/
theorem serve_iterate (i : Nat) (hi : i < CACHE_SIZE) (m : Nat) :
    ∀ (n : Nat) (c : cache_t) (usage_counter : Nat),
      reachable_in n c usage_counter → filled CACHE_SIZE c →
      ∃ c1, reachable_in (n + m + 1) c1 ((usage_counter + m + 1) % 2 ^ 64) ∧
        filled CACHE_SIZE c1 ∧
        (c1.entry i).last_used = (usage_counter + m + 1) % 2 ^ 64 ∧
        ∀ j, j ≠ i → (c1.entry j).last_used = (c.entry j).last_used := by
  induction m with
  | zero =>
    intro n c uc hreach hf
    obtain ⟨r, hstep, hf1, huc, htick, hother⟩ := serve_step c uc i hf hi
    refine ⟨r.cache, ?_, hf1, htick, hother⟩
    have := reachable_in.step n c uc (wrap_conn i) r hreach hstep
    rwa [huc] at this
  | succ m ih =>
    intro n c uc hreach hf
    obtain ⟨c1, hreach1, hf1, _, hother1⟩ := ih n c uc hreach hf
    obtain ⟨r, hstep, hf2, huc, htick, hother⟩ :=
      serve_step c1 ((uc + m + 1) % 2 ^ 64) i hf1 hi
    have hmod : ((uc + m + 1) % 2 ^ 64 + 1) % 2 ^ 64 = (uc + (m + 1) + 1) % 2 ^ 64 := by
      omega
    refine ⟨r.cache, ?_, hf2, by rw [htick, hmod], fun j hj => by rw [hother j hj, hother1 j hj]⟩
    have := reachable_in.step (n + m + 1) c1 _ (wrap_conn i) r hreach1 hstep
    rw [huc, hmod] at this
    exact this

/-- From a full cache, enough hits on slot `i` stamp it with `ULONG_MAX`. -/
theorem saturate_slot (i : Nat) (hi : i < CACHE_SIZE) (n : Nat) (c : cache_t)
    (usage_counter : Nat) (hreach : reachable_in n c usage_counter)
    (hf : filled CACHE_SIZE c) :
    ∃ n1 c1 counter1, reachable_in n1 c1 counter1 ∧ filled CACHE_SIZE c1 ∧
      (c1.entry i).last_used = ULONG_MAX ∧
      ∀ j, j ≠ i → (c1.entry j).last_used = (c.entry j).last_used := by
  obtain ⟨c1, hreach1, hf1, htick, hother⟩ :=
    serve_iterate i hi (2 * 2 ^ 64 - 2 - usage_counter % 2 ^ 64) n c usage_counter hreach hf
  refine ⟨_, c1, _, hreach1, hf1, ?_, hother⟩
  rw [htick]
  unfold ULONG_MAX
  omega

theorem saturate_all (c0 : cache_t) (hshape : c0.entries.length = CACHE_SIZE) :
    ∀ k ≤ CACHE_SIZE, ∃ n c usage_counter, reachable_in n c usage_counter ∧
      filled CACHE_SIZE c ∧ ∀ i < k, (c.entry i).last_used = ULONG_MAX := by
  intro k
  induction k with
  | zero =>
    intro _
    obtain ⟨c, uc, hreach, hf⟩ := reach_filled c0 hshape CACHE_SIZE (le_refl _)
    exact ⟨CACHE_SIZE, c, uc, hreach, hf, fun i hi => absurd hi (Nat.not_lt_zero i)⟩
  | succ k ih =>
    intro hk
    obtain ⟨n, c, uc, hreach, hf, hticks⟩ := ih (by omega)
    obtain ⟨n1, c1, uc1, hreach1, hf1, htick, hother⟩ :=
      saturate_slot k (by omega) n c uc hreach hf
    refine ⟨n1, c1, uc1, hreach1, hf1, ?_⟩
    intro i hi
    rcases Nat.lt_succ_iff_lt_or_eq.mp hi with hik | hik
    · rw [hother i (by omega)]; exact hticks i hik
    · rw [hik]; exact htick

/-- On a full cache whose stamps all equal `ULONG_MAX`, a miss with a cacheable
response reaches `add_cache_entry` without a free slot. -/
theorem full_saturated_insert (c : cache_t) (usage_counter : Nat) (hf : filled CACHE_SIZE c)
    (hticks : ∀ i < CACHE_SIZE, (c.entry i).last_used = ULONG_MAX) :
    find_invalid_entry
      (stale_phase (lru_phase true c (lookup_index true c (wrap_request 10)))
        (lookup_index true c (wrap_request 10))) = -1 ∧
    handle_connection true c usage_counter (wrap_conn 10) = none := by
  have hmiss := lookup_miss_of_filled CACHE_SIZE c hf 10 (le_refl _) (by decide)
  obtain ⟨hlen, hcount, hused, _⟩ := hf
  obtain ⟨_, _, hstr, _⟩ := wrap_request_facts 10 (by decide)
  obtain ⟨hnc, _, hsize⟩ := wrap_response_facts
  have hscan : (lru_scan c).1 = -1 := by
    rcases lru_scan_range c CACHE_SIZE with ⟨hp, _⟩ | ⟨k, hk, _, _, hlt, _⟩
    · unfold lru_scan; rw [hp]
    · rw [hticks k hk] at hlt
      exact absurd hlt (lt_irrefl _)
  have hlru : lru_phase true c (-1) = c := by
    simp [lru_phase, hcount, evict_lru_entry, hscan]
  have hstale : stale_phase c (-1) = c := by simp [stale_phase]
  have hfind : find_invalid_entry c = -1 := by
    rcases find_invalid_entry_cases c with ⟨h, _⟩ | ⟨i, hi, _, hv, _⟩
    · exact h
    · rw [(hused i hi).1] at hv
      exact absurd hv (by decide)
  have hcond : (true = true) ∧ check_no_cache wrap_response = 0 ∧
      strlen (wrap_request 10) ≤ REQUEST_SIZE ∧ (wrap_response.length : Int) ≤ RESPONSE_SIZE :=
    ⟨rfl, hnc, by omega, hsize⟩
  have hrej : ¬ (strlen (wrap_request 10) ≥ REQUEST_SIZE ∨
      (wrap_response.length : Int) > (RESPONSE_SIZE : Int)) := by omega
  refine ⟨by rw [hmiss, hlru, hstale, hfind], ?_⟩
  rw [handle_wrap_conn c usage_counter 10 (by decide), hmiss]
  simp only [ne_eq, not_true_eq_false, false_and, if_false, hlru]
  unfold store_phase
  rw [if_pos hcond, hstale]
  unfold add_cache_entry
  rw [if_neg hrej, hfind]
  simp

/-- C3 as stated fails: after enough cache hits the `unsigned long` use counter has
wrapped and all ten valid slots are stamped `ULONG_MAX`; `evict_lru_entry` then finds no
slot below its initial `lru_time`, evicts nothing, and the next cacheable miss (its
request passes the size check) calls `add_cache_entry` on a cache without a free
slot: `find_invalid_entry` returns `-1` and the insert indexes outside the slot array. -/
theorem insert_out_of_bounds_after_wrap :
    ∃ n cache usage_counter, reachable_in n cache usage_counter ∧
      strlen (wrap_request 10) < REQUEST_SIZE ∧
      extract_request_uri (wrap_request 10) ≠ none ∧
      find_invalid_entry
        (stale_phase (lru_phase true cache (lookup_index true cache (wrap_request 10)))
          (lookup_index true cache (wrap_request 10))) = -1 ∧
      handle_connection true cache usage_counter (wrap_conn 10) = none := by
  obtain ⟨n, c, uc, hreach, hf, hticks⟩ :=
    saturate_all sample_cache (by decide) CACHE_SIZE (le_refl _)
  obtain ⟨h1, h2⟩ := full_saturated_insert c uc hf hticks
  exact ⟨n, c, uc, hreach, (wrap_request_facts 10 (by decide)).2.2.1,
    (wrap_request_facts 10 (by decide)).1, h1, h2⟩

/-- C5 as stated fails once the use counter has wrapped: a state with ten valid slots,
`valid_entries` 10 and every stamp `ULONG_MAX` is reachable; there `evict_lru_entry`
frees nothing and the next cacheable miss makes `add_cache_entry` write the slot at index
`-1`, outside the slot array and onto the memory in front of it, where the cache
structure keeps `valid_entries`: the run leaves no cache state in which the count is
maintained. -/
theorem valid_entries_lost_after_wrap :
    ∃ n cache usage_counter, reachable_in n cache usage_counter ∧
      cache.valid_entries = CACHE_SIZE ∧ valid_count cache = CACHE_SIZE ∧
      (∀ i < CACHE_SIZE, (cache.entry i).valid = 1 ∧ (cache.entry i).last_used = ULONG_MAX) ∧
      (evict_lru_entry cache).1 = none ∧
      extract_request_uri (wrap_request 10) ≠ none ∧
      extract_host (wrap_request 10) ≠ none ∧
      strlen (wrap_request 10) < REQUEST_SIZE ∧
      find_invalid_entry
        (stale_phase (lru_phase true cache (lookup_index true cache (wrap_request 10)))
          (lookup_index true cache (wrap_request 10))) = -1 ∧
      handle_connection true cache usage_counter (wrap_conn 10) = none := by
  obtain ⟨n, c, uc, hreach, hf, hticks⟩ :=
    saturate_all sample_cache (by decide) CACHE_SIZE (le_refl _)
  obtain ⟨h1, h2⟩ := full_saturated_insert c uc hf hticks
  obtain ⟨hinv, _⟩ := reachable_in_inv n c uc hreach
  have hfacts := wrap_request_facts 10 (by decide)
  have hve : c.valid_entries = CACHE_SIZE := hf.2.1
  have hcount : valid_count c = CACHE_SIZE := by
    have := hinv.2.2.1
    rw [hve] at this
    exact_mod_cast this.symm
  have hlru : (evict_lru_entry c).1 = none := by
    rcases lru_scan_range c CACHE_SIZE with ⟨hp, _⟩ | ⟨k, hk, _, _, hlt, _⟩
    · have hidx : (lru_scan c).1 = -1 := by unfold lru_scan; rw [hp]
      simp [evict_lru_entry, hidx]
    · rw [hticks k hk] at hlt
      exact absurd hlt (lt_irrefl _)
  exact ⟨n, c, uc, hreach, hve, hcount, fun i hi => ⟨(hf.2.2.1 i hi).1, hticks i hi⟩, hlru,
    hfacts.1, hfacts.2.1, hfacts.2.2.1, h1, h2⟩

/-! ## The header block alone decides the Cache-Control policy -/

theorem find_sub_none (needle : List Nat) (hne : needle ≠ []) :
    ∀ (hay : List Nat), (∀ k < hay.length, needle.isPrefixOf (hay.drop k) = false) →
      find_sub needle hay = none := by
  intro hay
  induction hay with
  | nil =>
    intro _
    simp [find_sub, hne]
  | cons c cs ih =>
    intro h
    have h0 := h 0 (by simp)
    simp only [List.drop_zero] at h0
    have hrec := ih (fun k hk => by simpa using h (k + 1) (by simpa using hk))
    simp [find_sub, h0, hrec]

/-- C19: a response text without `"\r\n\r\n"` yields no header, so `check_no_cache` is 0
and `get_max_age` is `-1`; and two response texts with the same header block (the text
before the first `"\r\n\r\n"`) get the same answers, whatever follows the terminator. -/
theorem cache_control_reads_header_block_only :
    (∀ response : List Nat,
      (∀ k < (cstr response).length,
        (bytes "\r\n\r\n").isPrefixOf ((cstr response).drop k) = false) →
      parse_cache_control response = none ∧ check_no_cache response = 0 ∧
        get_max_age response = -1) ∧
    (∀ response1 response2 block : List Nat,
      is_header_block (cstr response1) block → is_header_block (cstr response2) block →
      parse_cache_control response1 = parse_cache_control response2 ∧
        check_no_cache response1 = check_no_cache response2 ∧
        get_max_age response1 = get_max_age response2) := by
  constructor
  · intro response hno
    have hstr : strstr response (bytes "\r\n\r\n") = none := by
      unfold strstr
      rw [cstr_terminator]
      exact find_sub_none _ (by decide) _ hno
    have hparse : parse_cache_control response = none := by
      simp only [parse_cache_control, hstr]
    refine ⟨hparse, ?_, ?_⟩
    · simp only [check_no_cache, hparse]
    · simp only [get_max_age, hparse]
  · intro response1 response2 block h1 h2
    have hparse : parse_cache_control response1 = parse_cache_control response2 := by
      rw [parse_cache_control_eq response1 block h1, parse_cache_control_eq response2 block h2]
    refine ⟨hparse, ?_, ?_⟩
    · simp only [check_no_cache, hparse]
    · simp only [get_max_age, hparse]

/-- C19 on concrete texts: no terminator gives 0 and `-1`, and a `Cache-Control` line in
the body changes nothing. -/
theorem cache_control_reads_header_block_only_witness :
    check_no_cache (bytes "HTTP/1.1 200 OK\r\nCache-Control: no-store\r\n") = 0 ∧
    get_max_age (bytes "HTTP/1.1 200 OK\r\nCache-Control: max-age=7\r\n") = -1 ∧
    check_no_cache (bytes "HTTP/1.1 200 OK\r\nX: y\r\n\r\nCache-Control: no-store\r\n\r\n")
      = check_no_cache (bytes "HTTP/1.1 200 OK\r\nX: y\r\n\r\nbody") ∧
    get_max_age (bytes "HTTP/1.1 200 OK\r\nX: y\r\n\r\nCache-Control: max-age=7\r\n\r\n")
      = get_max_age (bytes "HTTP/1.1 200 OK\r\nX: y\r\n\r\nbody") :=
  ⟨(cache_control_reads_header_block_only.1
      (bytes "HTTP/1.1 200 OK\r\nCache-Control: no-store\r\n") (by decide)).2.1,
   (cache_control_reads_header_block_only.1
      (bytes "HTTP/1.1 200 OK\r\nCache-Control: max-age=7\r\n") (by decide)).2.2,
   (cache_control_reads_header_block_only.2
      (bytes "HTTP/1.1 200 OK\r\nX: y\r\n\r\nCache-Control: no-store\r\n\r\n")
      (bytes "HTTP/1.1 200 OK\r\nX: y\r\n\r\nbody") (bytes "HTTP/1.1 200 OK\r\nX: y")
      ⟨⟨bytes "Cache-Control: no-store\r\n\r\n", by decide⟩, by decide⟩
      ⟨⟨bytes "body", by decide⟩, by decide⟩).2.1,
   (cache_control_reads_header_block_only.2
      (bytes "HTTP/1.1 200 OK\r\nX: y\r\n\r\nCache-Control: max-age=7\r\n\r\n")
      (bytes "HTTP/1.1 200 OK\r\nX: y\r\n\r\nbody") (bytes "HTTP/1.1 200 OK\r\nX: y")
      ⟨⟨bytes "Cache-Control: max-age=7\r\n\r\n", by decide⟩, by decide⟩
      ⟨⟨bytes "body", by decide⟩, by decide⟩).2.2⟩

/-! ## `get_max_age` on malformed numbers -/

theorem spec_max_age_text_subset (value text : List Nat)
    (h : spec_max_age_text value = some text) : ∀ c ∈ text, c ∈ value := by
  unfold spec_max_age_text at h
  cases hf : (value.splitOnP (fun c => c == 44)).find? spec_is_max_age with
  | none => simp [hf] at h
  | some piece =>
    simp only [hf, Option.map_some', Option.some.injEq] at h
    intro c hc
    rw [← h] at hc
    have hmem : piece ∈ value.splitOnP (fun c => c == 44) := List.mem_of_find?_eq_some hf
    exact mem_of_mem_splitOnP _ _ piece hmem c
      ((List.dropWhile_sublist is_blank).subset ((List.drop_sublist 8 _).subset hc))

theorem spec_cache_control_value_subset (block value : List Nat)
    (h : spec_cache_control_value block = some value) : ∀ c ∈ value, c ∈ block := by
  unfold spec_cache_control_value at h
  cases hf : (spec_header_lines block).find? spec_is_cache_control with
  | none => simp [hf] at h
  | some line =>
    simp only [hf, Option.map_some', Option.some.injEq] at h
    intro c hc
    rw [← h] at hc
    exact mem_of_mem_tokens _ _ line (List.mem_of_find?_eq_some hf) c
      ((List.drop_sublist 14 line).subset hc)

theorem digits_value_stop (acc c : Nat) (rest : List Nat) (hc : isdigit c = false) :
    digits_value acc (c :: rest) = acc := by
  simp [digits_value, hc]

/-- For a response whose first `Cache-Control` line has a `max-age=` directive,
`get_max_age` is `atoi` of the text after `=`, which holds no NUL. -/
theorem get_max_age_atoi (response block value text : List Nat)
    (hblock : is_header_block (cstr response) block)
    (hvalue : spec_cache_control_value block = some value)
    (htext : spec_max_age_text value = some text) :
    get_max_age response = atoi text ∧ cstr text = text := by
  have h0 : 0 ∉ text := fun h =>
    block_no_nul response block hblock
      (spec_cache_control_value_subset block value hvalue 0
        (spec_max_age_text_subset value text htext 0 h))
  have heq : get_max_age response = atoi text := by
    rw [get_max_age_eq response block hblock, hvalue]
    simp only [htext]
  exact ⟨heq, cstr_of_not_mem text h0⟩

theorem digits_value_no_digit (l : List Nat) (h : ∀ c ∈ l.head?, isdigit c = false) :
    digits_value 0 l = 0 := by
  cases l with
  | nil => rfl
  | cons c cs => exact digits_value_stop 0 c cs (h c (by simp))

/-- Text without a leading number is converted to 0 by `atoi`. -/
theorem atoi_no_number (text : List Nat) (hcstr : cstr text = text)
    (hnone : spec_has_number text = false) : atoi text = 0 := by
  unfold atoi
  rw [hcstr]
  unfold spec_has_number spec_after_sign at hnone
  cases hd : text.dropWhile isspace with
  | nil => rfl
  | cons c cs =>
    rw [hd] at hnone
    simp only at hnone ⊢
    by_cases h45 : c = 45
    · rw [if_pos (Or.inl h45)] at hnone
      rw [if_pos h45]
      have : digits_value 0 cs = 0 := digits_value_no_digit cs (by
        intro d hdm
        cases cs with
        | nil => simp at hdm
        | cons e es =>
          simp only [List.head?_cons, Option.mem_def, Option.some.injEq] at hdm
          rw [← hdm]
          simpa using hnone)
      rw [this]
      decide
    · rw [if_neg h45]
      by_cases h43 : c = 43
      · rw [if_pos (Or.inr h43)] at hnone
        rw [if_pos h43]
        have : digits_value 0 cs = 0 := digits_value_no_digit cs (by
          intro d hdm
          cases cs with
          | nil => simp at hdm
          | cons e es =>
            simp only [List.head?_cons, Option.mem_def, Option.some.injEq] at hdm
            rw [← hdm]
            simpa using hnone)
        rw [this]
        decide
      · rw [if_neg (by intro h; rcases h with h | h; exact h45 h; exact h43 h)] at hnone
        rw [if_neg h43]
        have : digits_value 0 (c :: cs) = 0 := digits_value_stop 0 c cs (by simpa using hnone)
        rw [this]
        decide

/-- Where the text after `max-age=` is the decimal digits of `n` followed by a character
that is no digit, or a minus sign and the digits of `n`, `get_max_age` returns `n` and
`-n`, for `n` up to `INT_MAX`. -/
theorem get_max_age_leading_digits (response block value text : List Nat)
    (hblock : is_header_block (cstr response) block)
    (hvalue : spec_cache_control_value block = some value)
    (htext : spec_max_age_text value = some text) :
    (∀ n c rest, text = spec_decimal n ++ c :: rest → isdigit c = false → n ≤ INT_MAX →
      get_max_age response = (n : Int)) ∧
    (∀ n, text = 45 :: spec_decimal n → n ≤ INT_MAX → get_max_age response = -(n : Int)) := by
  obtain ⟨heq, hcstr⟩ := get_max_age_atoi response block value text hblock hvalue htext
  refine ⟨?_, ?_⟩
  · intro n c rest ht hd hn
    rw [heq]
    unfold atoi
    rw [hcstr, ht]
    have hrange := decimal_digits_range (n + 1) n
    cases hdig : spec_decimal n with
    | nil => exact absurd hdig (decimal_digits_ne_nil n n)
    | cons d ds =>
      have hdr : 48 ≤ d ∧ d ≤ 57 := hrange d (by
        show d ∈ spec_decimal n
        rw [hdig]; simp)
      have hsp : isspace d = false := by simp [isspace]; omega
      rw [List.cons_append, List.dropWhile_cons_of_neg (by simp [hsp])]
      have h45 : d ≠ 45 := by omega
      have h43 : d ≠ 43 := by omega
      simp only [h45, h43, if_false]
      have hv : digits_value 0 (d :: (ds ++ c :: rest)) = n := by
        rw [← List.cons_append, ← hdig]
        show digits_value 0 (decimal_digits (n + 1) n ++ c :: rest) = n
        rw [decimal_digits_value (n + 1) n (Nat.lt_succ_self n), digits_value_stop n c rest hd]
      rw [hv]
      unfold INT_MAX at hn
      unfold to_int32 clamp_long
      omega
  · intro n ht hn
    rw [heq]
    unfold atoi
    rw [hcstr, ht, List.dropWhile_cons_of_neg (by decide)]
    simp only [if_true]
    have hv : digits_value 0 (spec_decimal n) = n := by
      have := decimal_digits_value (n + 1) n (Nat.lt_succ_self n) []
      rwa [List.append_nil] at this
    rw [hv]
    unfold INT_MAX at hn
    unfold to_int32 clamp_long
    omega

/-- C20 (amended): for a response whose first `Cache-Control` line has a `max-age=`
directive, `get_max_age` returns 0 when the text after `=` does not start with a number:
it is empty or, after optional white space and an optional sign, ends or goes on with a
character that is no decimal digit. -/
theorem get_max_age_malformed (response block value text : List Nat)
    (hblock : is_header_block (cstr response) block)
    (hvalue : spec_cache_control_value block = some value)
    (htext : spec_max_age_text value = some text)
    (hnone : spec_has_number text = false) :
    get_max_age response = 0 := by
  obtain ⟨heq, hcstr⟩ := get_max_age_atoi response block value text hblock hvalue htext
  rw [heq]
  exact atoi_no_number text hcstr hnone

/-- C20 (amended) on `max-age=abc`, and on the empty text and a bare sign. -/
theorem get_max_age_malformed_witness :
    spec_has_number (bytes "abc") = false ∧
    get_max_age (bytes "HTTP/1.1 200 OK\r\nCache-Control: max-age=abc\r\n\r\n") = 0 ∧
    get_max_age (bytes "HTTP/1.1 200 OK\r\nCache-Control: public, max-age=\r\n\r\n") = 0 ∧
    get_max_age (bytes "HTTP/1.1 200 OK\r\nCache-Control: max-age=-x1\r\n\r\n") = 0 :=
  ⟨by decide,
    get_max_age_malformed (bytes "HTTP/1.1 200 OK\r\nCache-Control: max-age=abc\r\n\r\n")
      (bytes "HTTP/1.1 200 OK\r\nCache-Control: max-age=abc") (bytes " max-age=abc")
      (bytes "abc") ⟨⟨[], by decide⟩, by decide⟩ (by decide) (by decide) (by decide),
    get_max_age_malformed
      (bytes "HTTP/1.1 200 OK\r\nCache-Control: public, max-age=\r\n\r\n")
      (bytes "HTTP/1.1 200 OK\r\nCache-Control: public, max-age=") (bytes " public, max-age=")
      [] ⟨⟨[], by decide⟩, by decide⟩ (by decide) (by decide) (by decide),
    get_max_age_malformed (bytes "HTTP/1.1 200 OK\r\nCache-Control: max-age=-x1\r\n\r\n")
      (bytes "HTTP/1.1 200 OK\r\nCache-Control: max-age=-x1") (bytes " max-age=-x1")
      (bytes "-x1") ⟨⟨[], by decide⟩, by decide⟩ (by decide) (by decide) (by decide)⟩

/-- C20 as stated fails: digits followed by other characters give the digits' value,
and a signed number keeps its sign; neither gives 0. -/
theorem get_max_age_malformed_not_zero :
    get_max_age (bytes "HTTP/1.1 200 OK\r\nCache-Control: max-age=12abc\r\n\r\n") = 12 ∧
    get_max_age (bytes "HTTP/1.1 200 OK\r\nCache-Control: max-age=-5\r\n\r\n") = -5 ∧
    get_max_age (bytes "HTTP/1.1 200 OK\r\nCache-Control: max-age=+7\r\n\r\n") = 7 := by
  decide

/-! ## `extract_host` and `extract_request_uri` -/

theorem dropWhile_append_stop (p : Nat → Bool) (a : List Nat) (c : Nat) (s : List Nat)
    (hc : p c = false) : (a ++ c :: s).dropWhile p = a.dropWhile p ++ c :: s := by
  induction a with
  | nil => simp [List.dropWhile_cons, hc]
  | cons x xs ih =>
    by_cases hx : p x = true
    · simp [List.dropWhile_cons, hx, ih]
    · simp [List.dropWhile_cons, hx]

theorem cstr_sub_of_drop (buf : List Nat) (n : Nat) :
    cstr (((cstr buf).drop n).dropWhile is_blank) = ((cstr buf).drop n).dropWhile is_blank :=
  cstr_of_not_mem _ (fun h => zero_not_mem_cstr buf
    ((List.drop_sublist n _).subset ((List.dropWhile_sublist is_blank).subset h)))

/-- C13: for a request text made of a method token, one or more spaces or tabs, a
non-empty URI token and a space or tab, `extract_request_uri` returns exactly the URI
token, whatever follows. -/
theorem extract_request_uri_spec (method blanks uri rest : List Nat) (b : Nat)
    (hmethod : ∀ c ∈ method, is_blank c = false)
    (hblanks : ∀ c ∈ blanks, is_blank c = true) (hsome : blanks ≠ [])
    (huri : ∀ c ∈ uri, is_blank c = false) (hne : uri ≠ [])
    (hb : is_blank b = true) :
    extract_request_uri (method ++ blanks ++ uri ++ b :: rest) = some uri := by
  obtain ⟨s, ss, rfl⟩ : ∃ s ss, blanks = s :: ss := by
    cases blanks with
    | nil => exact absurd rfl hsome
    | cons s ss => exact ⟨s, ss, rfl⟩
  obtain ⟨u, us, rfl⟩ : ∃ u us, uri = u :: us := by
    cases uri with
    | nil => exact absurd rfl hne
    | cons u us => exact ⟨u, us, rfl⟩
  have hs : is_blank s = true := hblanks s (by simp)
  have hu : is_blank u = false := huri u (by simp)
  have h1 : (method ++ (s :: ss) ++ (u :: us) ++ b :: rest).dropWhile (fun c => !is_blank c)
      = (s :: ss) ++ (u :: us) ++ b :: rest := by
    rw [List.append_assoc, List.append_assoc,
      List.dropWhile_append_of_pos (fun c hc => by simp [hmethod c hc])]
    simp [List.dropWhile_cons, hs]
  have h2 : ((s :: ss) ++ (u :: us) ++ b :: rest).dropWhile is_blank
      = (u :: us) ++ b :: rest := by
    rw [List.append_assoc, List.dropWhile_append_of_pos (fun c hc => hblanks c hc)]
    simp [List.dropWhile_cons, hu]
  have h3 : ((u :: us) ++ b :: rest).dropWhile (fun c => !is_blank c) = b :: rest := by
    rw [List.dropWhile_append_of_pos (fun c hc => by simp [huri c hc])]
    simp [List.dropWhile_cons, hb]
  have h4 : ((u :: us) ++ b :: rest).takeWhile (fun c => !is_blank c) = u :: us := by
    rw [List.takeWhile_append_of_pos (fun c hc => by simp [huri c hc])]
    simp [List.takeWhile_cons, hb]
  unfold extract_request_uri
  simp only [h1, h2, h3, h4]

/-- C13 on the specification's request: the URI is `/x`. -/
theorem extract_request_uri_spec_witness :
    bytes "GET" ++ bytes " " ++ bytes "/x" ++ 32 :: bytes "HTTP/1.1\r\nHost: example.com\r\n\r\n"
      = bytes "GET /x HTTP/1.1\r\nHost: example.com\r\n\r\n" ∧
    extract_request_uri
        (bytes "GET" ++ bytes " " ++ bytes "/x" ++
          32 :: bytes "HTTP/1.1\r\nHost: example.com\r\n\r\n")
      = some (bytes "/x") :=
  ⟨by decide,
    extract_request_uri_spec (bytes "GET") (bytes " ") (bytes "/x")
      (bytes "HTTP/1.1\r\nHost: example.com\r\n\r\n") 32
      (by decide) (by decide) (by decide) (by decide) (by decide) (by decide)⟩

/-! ## The pipeline, case by case -/

theorem extract_host_cstr (a b : List Nat) (h : cstr a = cstr b) :
    extract_host a = extract_host b := by
  unfold extract_host strcasestr
  rw [h]

theorem strlen_cstr (a b : List Nat) (h : cstr a = cstr b) : strlen a = strlen b := by
  unfold strlen
  rw [h]

/-- The loop body for a request that passes the metadata extraction. -/
theorem handle_connection_extracted (cache : cache_t) (usage_counter : Nat) (inp : conn_input)
    (request : List Nat) (hreq : inp.request = some request)
    (huri : extract_request_uri request ≠ none) (hhost : extract_host request ≠ none) :
    handle_connection true cache usage_counter inp =
      if lookup_index true cache request ≠ -1 ∧
          is_timed_out cache (lookup_index true cache request).toNat inp.now_lookup = 0 then
        some ⟨(serve_from_cache cache (lookup_index true cache request).toNat
                usage_counter).2.1,
              (serve_from_cache cache (lookup_index true cache request).toNat
                usage_counter).2.2,
              (serve_from_cache cache (lookup_index true cache request).toNat
                usage_counter).1, false⟩
      else
        forward_phase true (lru_phase true cache (lookup_index true cache request))
          usage_counter (lookup_index true cache request) request inp := by
  unfold handle_connection
  simp only [hreq]
  cases hu : extract_request_uri request with
  | none => exact absurd hu huri
  | some uri => simp only [hhost, if_false]

theorem forward_phase_forwarded (cache1 : cache_t) (usage_counter : Nat) (cache_index : Int)
    (request response : List Nat) (inp : conn_input)
    (hup : inp.upstream = upstream_t.forwarded response) :
    forward_phase true cache1 usage_counter cache_index request inp =
      store_phase true cache1 usage_counter cache_index request response inp.now_insert := by
  unfold forward_phase
  simp only [hup]

/-- The stored keys keep their `Host` header and their length bound along the
pipeline. -/
theorem key_inv_step (cache : cache_t) (usage_counter : Nat) (inp : conn_input)
    (r : conn_result) (hlen : cache.entries.length = CACHE_SIZE) (hinv : key_inv cache)
    (h : handle_connection true cache usage_counter inp = some r) : key_inv r.cache := by
  have hshrink : ∀ c1 : cache_t, (∀ j, (c1.entry j).valid = 1 → c1.entry j = cache.entry j) →
      key_inv c1 := by
    intro c1 hsub j hj hv
    have := hsub j hv
    rw [this] at hv ⊢
    exact hinv j hj hv
  unfold handle_connection at h
  cases hreq : inp.request with
  | none =>
    simp only [hreq, Option.some.injEq] at h
    rw [← h]; exact hinv
  | some request =>
    cases huri : extract_request_uri request with
    | none => simp [hreq, huri] at h
    | some uri =>
      by_cases hhost : extract_host request = none
      · simp only [hreq, huri, hhost, if_true, Option.some.injEq] at h
        rw [← h]; exact hinv
      · simp only [hreq, huri, hhost, if_false] at h
        by_cases hfresh : lookup_index true cache request ≠ -1 ∧
            is_timed_out cache (lookup_index true cache request).toNat inp.now_lookup = 0
        · rw [if_pos hfresh] at h
          simp only [serve_from_cache, update_last_used, Option.some.injEq] at h
          rw [← h]
          intro j hj hv
          by_cases hji : j = (lookup_index true cache request).toNat
          · rw [hji] at hv ⊢
            rw [set_entry_same _ _ _ (by rw [hlen]; rw [← hji]; exact hj)] at hv ⊢
            exact hinv _ (by rw [← hji]; exact hj) hv
          · rw [set_entry_other _ _ j _ hji] at hv ⊢
            exact hinv j hj hv
        · rw [if_neg hfresh] at h
          have hsub1 : ∀ j, ((lru_phase true cache (lookup_index true cache request)).entry
              j).valid = 1 →
              (lru_phase true cache (lookup_index true cache request)).entry j = cache.entry j :=
            fun j hv => lru_phase_shrink cache _ j hv
          have hsub2 : ∀ j, ((stale_phase (lru_phase true cache
              (lookup_index true cache request)) (lookup_index true cache request)).entry
              j).valid = 1 →
              (stale_phase (lru_phase true cache (lookup_index true cache request))
                (lookup_index true cache request)).entry j = cache.entry j := by
            intro j hv
            have h1 := stale_phase_shrink _ _ j hv
            rw [h1] at hv ⊢
            exact hsub1 j hv
          unfold forward_phase at h
          cases hup : inp.upstream with
          | connect_failed =>
            simp only [hup, Option.some.injEq] at h
            rw [← h]; exact hshrink _ hsub1
          | forward_failed relayed =>
            simp only [hup, Option.some.injEq] at h
            rw [← h]; exact hshrink _ hsub1
          | forwarded response =>
            simp only [hup] at h
            unfold store_phase at h
            by_cases hc : (true = true) ∧ check_no_cache response = 0 ∧
                strlen request ≤ REQUEST_SIZE ∧ (response.length : Int) ≤ RESPONSE_SIZE
            · rw [if_pos hc] at h
              cases hadd : add_cache_entry (stale_phase (lru_phase true cache
                  (lookup_index true cache request)) (lookup_index true cache request))
                  usage_counter request response response.length inp.now_insert with
              | none => simp [hadd] at h
              | some res =>
                simp only [hadd, Option.some.injEq] at h
                rw [← h]
                show key_inv res.2.1
                by_cases hrej : strlen request ≥ REQUEST_SIZE ∨
                    (response.length : Int) > (RESPONSE_SIZE : Int)
                · unfold add_cache_entry at hadd
                  rw [if_pos hrej] at hadd
                  simp only [Option.some.injEq] at hadd
                  rw [← hadd]; exact hshrink _ hsub2
                · rcases find_invalid_entry_cases (stale_phase (lru_phase true cache
                    (lookup_index true cache request)) (lookup_index true cache request)) with
                    ⟨hfind, _⟩ | ⟨i, hi, hfind, _, _⟩
                  · unfold add_cache_entry at hadd
                    rw [if_neg hrej, hfind] at hadd
                    simp at hadd
                  · obtain ⟨cache1, hadd1, _, _, hnew, hold⟩ :=
                      add_cache_entry_frame _ usage_counter request response response.length
                        inp.now_insert i
                        (by rw [stale_phase_length, lru_phase_length]; exact hlen) hi hfind
                        (by omega) (by omega) (by omega) (le_refl _)
                    rw [hadd1] at hadd
                    simp only [Option.some.injEq] at hadd
                    rw [← hadd]
                    intro j hj hv
                    by_cases hji : j = i
                    · subst hji
                      rw [hnew]
                      have hk : cstr (strncpy ((stale_phase (lru_phase true cache
                          (lookup_index true cache request))
                          (lookup_index true cache request)).entry j).request request
                          REQUEST_SIZE) = cstr request := cstr_strncpy _ _ _ (by omega)
                      exact ⟨by rw [extract_host_cstr _ _ hk]; exact hhost,
                        by rw [strlen_cstr _ _ hk]; omega⟩
                    · have hv' : ((stale_phase (lru_phase true cache
                          (lookup_index true cache request))
                          (lookup_index true cache request)).entry j).valid = 1 := by
                        rw [← hold j hji]; exact hv
                      show _ ∧ _
                      rw [show (cache1.entry j) = cache.entry j from
                        (hold j hji).trans (hsub2 j hv')]
                      rw [hsub2 j hv'] at hv'
                      exact hinv j hj hv'
            · rw [if_neg hc] at h
              simp only [Option.some.injEq] at h
              rw [← h]; exact hshrink _ hsub2

theorem reachable_in_key_inv (n : Nat) (cache : cache_t) (usage_counter : Nat)
    (h : reachable_in n cache usage_counter) : key_inv cache := by
  induction h with
  | init c0 hshape =>
    intro j hj hv
    rw [(init_cache_spec c0 hshape).2.2 j hj] at hv
    simp [init_entry] at hv
  | step n cache usage_counter inp r hreach hstep ih =>
    exact key_inv_step cache usage_counter inp r
      (reachable_in_inv n cache usage_counter hreach).1.1 ih hstep

/-! ## A fresh hit is served from the cache -/

/-- C16 (amended): in every cache state reached from `init_cache` by fewer than
`2 ^ 64 - 1` cache-enabled connections, a connection whose request (its URI scan staying
inside the buffer) equals the key of a valid slot `i` that is not timed out sends the
client exactly the first `response_size` stored response bytes of slot `i`, makes no
upstream connection, and changes the cache only in `last_used` of slot `i`, which
becomes the global counter plus one and is strictly larger than the stamp of every other
valid slot; every other slot and `valid_entries` are untouched. -/
theorem fresh_hit_served (n : Nat) (cache : cache_t) (usage_counter : Nat)
    (hreach : reachable_in n cache usage_counter) (hn : n < 2 ^ 64 - 1)
    (inp : conn_input) (request : List Nat) (i : Nat)
    (hreq : inp.request = some request)
    (huri : extract_request_uri request ≠ none)
    (hi : i < CACHE_SIZE) (hv : (cache.entry i).valid = 1)
    (hkey : cstr (cache.entry i).request = cstr request)
    (hfresh : is_timed_out cache i inp.now_lookup = 0) :
    strlen request < REQUEST_SIZE ∧
    ∃ r, handle_connection true cache usage_counter inp = some r ∧
      r.to_client = (cache.entry i).response.take (cache.entry i).response_size.toNat ∧
      r.connected = false ∧
      r.usage_counter = usage_counter + 1 ∧
      r.cache.valid_entries = cache.valid_entries ∧
      r.cache.entries.length = CACHE_SIZE ∧
      r.cache.entry i = { cache.entry i with last_used := usage_counter + 1 } ∧
      (∀ j, j ≠ i → r.cache.entry j = cache.entry j) ∧
      (∀ j < CACHE_SIZE, j ≠ i → (r.cache.entry j).valid = 1 →
        (r.cache.entry j).last_used < (r.cache.entry i).last_used) := by
  obtain ⟨hinv, htick⟩ := reachable_in_inv n cache usage_counter hreach
  obtain ⟨hhost0, hlen0⟩ := reachable_in_key_inv n cache usage_counter hreach i hi hv
  have hhost : extract_host request ≠ none := by
    rw [← extract_host_cstr _ _ hkey]; exact hhost0
  have hlen : strlen request < REQUEST_SIZE := by
    rw [← strlen_cstr _ _ hkey]; exact hlen0
  have hlook : lookup_index true cache request = (i : Int) := by
    rcases lookup_index_cases cache request with ⟨_, habs⟩ | ⟨j, hj, hl, hvj, hkj, _⟩
    · exact absurd ⟨hv, hkey⟩ (habs hlen i hi)
    · have := hinv.2.2.2 i hi j hj hv hvj (hkey.trans hkj.symm)
      rw [hl, this]
  have hmod : (usage_counter + 1) % 2 ^ 64 = usage_counter + 1 :=
    Nat.mod_eq_of_lt (by have := htick.1; omega)
  refine ⟨hlen, ?_⟩
  rw [handle_connection_extracted cache usage_counter inp request hreq huri hhost, hlook]
  simp only [Int.toNat_ofNat]
  rw [if_pos ⟨by omega, hfresh⟩]
  refine ⟨_, rfl, ?_⟩
  simp only [serve_from_cache, update_last_used, hmod]
  refine ⟨trivial, trivial, trivial, rfl, ?_, ?_, ?_, ?_⟩
  · rw [set_entry_length]; exact hinv.1
  · exact set_entry_same _ _ _ (by rw [hinv.1]; exact hi)
  · intro j hji
    exact set_entry_other _ _ j _ hji
  · intro j hj hji hvj
    rw [set_entry_same _ _ _ (by rw [hinv.1]; exact hi)]
    rw [set_entry_other _ _ j _ hji] at hvj ⊢
    have := htick.2 (by omega) j hj hvj
    show (cache.entry j).last_used < usage_counter + 1
    omega

/-- C16 on the second of two identical connections: the first stores the response in
slot 0, the second is served from there. -/
theorem fresh_hit_served_witness :
    ∃ r1, handle_connection true (init_cache sample_cache) 0 sample_conn = some r1 ∧
      ∃ r, handle_connection true r1.cache r1.usage_counter sample_conn = some r ∧
        r.to_client = (r1.cache.entry 0).response.take (r1.cache.entry 0).response_size.toNat ∧
        r.connected = false ∧
        r.usage_counter = r1.usage_counter + 1 ∧
        r.cache.valid_entries = r1.cache.valid_entries ∧
        r.cache.entries.length = CACHE_SIZE ∧
        r.cache.entry 0 = { r1.cache.entry 0 with last_used := r1.usage_counter + 1 } ∧
        (∀ j, j ≠ 0 → r.cache.entry j = r1.cache.entry j) ∧
        (∀ j < CACHE_SIZE, j ≠ 0 → (r.cache.entry j).valid = 1 →
          (r.cache.entry j).last_used < (r.cache.entry 0).last_used) :=
  match h : handle_connection true (init_cache sample_cache) 0 sample_conn with
  | some r1 =>
    have hfacts : (handle_connection true (init_cache sample_cache) 0 sample_conn).map
        (fun r => ((r.cache.entry 0).valid, cstr (r.cache.entry 0).request,
          is_timed_out r.cache 0 sample_conn.now_lookup)) =
        some (1, bytes "GET /x HTTP/1.1\r\nHost: example.com\r\n\r\n", 0) := by decide
    have hfacts1 : (r1.cache.entry 0).valid = 1 ∧
        cstr (r1.cache.entry 0).request = bytes "GET /x HTTP/1.1\r\nHost: example.com\r\n\r\n" ∧
        is_timed_out r1.cache 0 sample_conn.now_lookup = 0 := by
      rw [h] at hfacts
      simpa using hfacts
    ⟨r1, rfl,
      (fresh_hit_served 1 r1.cache r1.usage_counter
        (reachable_in.step 0 _ 0 sample_conn r1
          (reachable_in.init sample_cache (by decide)) h) (by decide)
        sample_conn (bytes "GET /x HTTP/1.1\r\nHost: example.com\r\n\r\n") 0 rfl (by decide)
        (by decide) hfacts1.1 (hfacts1.2.1.trans (by decide)) hfacts1.2.2).2⟩
  | none => absurd h (by decide)

/-- C16 as stated fails: the `unsigned long` use counter wraps. After ten stored
responses and enough cache hits the counter stands at `ULONG_MAX`; the next fresh hit on
slot 0 stamps it with 0, which is not the counter plus one and not larger than the stamp
of the valid slot 1. -/
theorem fresh_hit_stamp_wraps :
    ∃ n cache usage_counter r, reachable_in n cache usage_counter ∧
      strlen (wrap_request 0) < REQUEST_SIZE ∧
      (cache.entry 0).valid = 1 ∧ cstr (cache.entry 0).request = cstr (wrap_request 0) ∧
      is_timed_out cache 0 (wrap_conn 0).now_lookup = 0 ∧
      handle_connection true cache usage_counter (wrap_conn 0) = some r ∧
      (r.cache.entry 0).last_used = 0 ∧ (r.cache.entry 0).last_used ≠ usage_counter + 1 ∧
      (r.cache.entry 1).valid = 1 ∧
      ¬ ((r.cache.entry 1).last_used < (r.cache.entry 0).last_used) := by
  obtain ⟨c, uc, hreach, hf⟩ := reach_filled sample_cache (by decide) CACHE_SIZE (le_refl _)
  have huc : uc ≤ CACHE_SIZE := (reachable_in_inv _ c uc hreach).2.1
  obtain ⟨c1, hreach1, hf1, _, _⟩ :=
    serve_iterate 1 (by decide) (2 ^ 64 - 2 - uc) CACHE_SIZE c uc hreach hf
  have hcount : (uc + (2 ^ 64 - 2 - uc) + 1) % 2 ^ 64 = ULONG_MAX := by
    have : uc + (2 ^ 64 - 2 - uc) + 1 = 2 ^ 64 - 1 := by
      have : uc ≤ 10 := huc
      omega
    rw [this]; decide
  rw [hcount] at hreach1
  obtain ⟨r, hr, hfr, _, hstamp, _⟩ := serve_step c1 ULONG_MAX 0 hf1 (by decide)
  have h0 : (ULONG_MAX + 1) % 2 ^ 64 = 0 := by decide
  rw [h0] at hstamp
  obtain ⟨hv0, hk0, hm0⟩ := hf1.2.2.1 0 (by decide)
  refine ⟨_, c1, ULONG_MAX, r, hreach1, (wrap_request_facts 0 (by decide)).2.2.1, hv0, ?_, ?_,
    hr, hstamp, ?_, (hfr.2.2.1 1 (by decide)).1, ?_⟩
  · rw [hk0, (wrap_request_facts 0 (by decide)).2.2.2]
  · unfold is_timed_out
    rw [if_pos hm0]
  · rw [hstamp]; decide
  · rw [hstamp]; omega

/-! ## Forwarded requests: store or skip -/

/-- The cache the pipeline holds once it has decided to forward: no fresh entry for the
key means the request is not served, and after the optional LRU eviction and the removal
of a stale entry no valid slot holds the key. -/
theorem forward_state (cache : cache_t) (request : List Nat) (now : Int)
    (hinv : cache_inv cache) (hkinv : key_inv cache)
    (hstale : ∀ j < CACHE_SIZE, (cache.entry j).valid = 1 →
      cstr (cache.entry j).request = cstr request → is_timed_out cache j now ≠ 0) :
    ¬ (lookup_index true cache request ≠ -1 ∧
        is_timed_out cache (lookup_index true cache request).toNat now = 0) ∧
    cache_inv (stale_phase (lru_phase true cache (lookup_index true cache request))
      (lookup_index true cache request)) ∧
    key_absent (stale_phase (lru_phase true cache (lookup_index true cache request))
      (lookup_index true cache request)) request ∧
    ∀ j, ((stale_phase (lru_phase true cache (lookup_index true cache request))
        (lookup_index true cache request)).entry j).valid = 1 →
      (stale_phase (lru_phase true cache (lookup_index true cache request))
        (lookup_index true cache request)).entry j = cache.entry j := by
  have hsub : ∀ j, ((stale_phase (lru_phase true cache (lookup_index true cache request))
        (lookup_index true cache request)).entry j).valid = 1 →
      (stale_phase (lru_phase true cache (lookup_index true cache request))
        (lookup_index true cache request)).entry j = cache.entry j := by
    intro j hv
    have h1 := stale_phase_shrink _ _ j hv
    rw [h1] at hv ⊢
    exact lru_phase_shrink cache _ j hv
  rcases lookup_index_cases cache request with ⟨hci, habs⟩ | ⟨i, hi, hci, hv, hkey, hlen⟩
  · refine ⟨fun h => h.1 hci, ?_, ?_, hsub⟩
    · rw [hci]
      have hst : stale_phase (lru_phase true cache (-1)) (-1)
          = lru_phase true cache (-1) := by simp [stale_phase]
      rw [hst]
      exact (lru_phase_inv cache (-1) hinv).1
    · intro j hj hjk
      have hj1 := hjk.1
      have hj2 := hjk.2
      have hsame := hsub j hj1
      rw [hsame] at hj1 hj2
      by_cases hlen : strlen request < REQUEST_SIZE
      · exact habs hlen j hj ⟨hj1, hj2⟩
      · have := (hkinv j hj hj1).2
        rw [strlen_cstr _ _ hj2] at this
        exact hlen this
  · have hne : ((i : Int) ≠ -1) := by omega
    have hlru : lru_phase true cache (i : Int) = cache := by simp [lru_phase, hne]
    refine ⟨?_, ?_, ?_, hsub⟩
    · rw [hci]
      simp only [Int.toNat_ofNat]
      exact fun h => hstale i hi hv hkey h.2
    · rw [hci, hlru]
      exact (stale_phase_inv cache request i hinv hi hv hkey).1
    · rw [hci, hlru]
      exact (stale_phase_inv cache request i hinv hi hv hkey).2

/-- C17 (amended): in every cache state reached from `init_cache` by fewer than
`2 ^ 64 - 1` cache-enabled connections, take a connection whose request is shorter than
`REQUEST_SIZE`, parses (URI scan inside the buffer, `Host` present) and has no fresh
entry: every valid slot holding the key is timed out. If the forward succeeds with a
response of at most `RESPONSE_SIZE` bytes that `check_no_cache` reports cacheable, the
run relays the response and inserts it, after the stale entry for the key was removed,
into a slot `k`: slot `k` is the one valid slot with the request as key, it holds the
response bytes and size, `max_age = get_max_age response`, `cached_time` is the
insertion time, and its stamp, the counter plus one, is strictly larger than the stamp
of every other valid slot. -/
theorem miss_then_cached (n : Nat) (cache : cache_t) (usage_counter : Nat)
    (hreach : reachable_in n cache usage_counter) (hn : n < 2 ^ 64 - 1)
    (inp : conn_input) (request response : List Nat)
    (hreq : inp.request = some request)
    (huri : extract_request_uri request ≠ none) (hhost : extract_host request ≠ none)
    (hlen : strlen request < REQUEST_SIZE)
    (hstale : ∀ j < CACHE_SIZE, (cache.entry j).valid = 1 →
      cstr (cache.entry j).request = cstr request →
      is_timed_out cache j inp.now_lookup ≠ 0)
    (hup : inp.upstream = upstream_t.forwarded response)
    (hsize : (response.length : Int) ≤ RESPONSE_SIZE)
    (hcacheable : check_no_cache response = 0) :
    ∃ (r : conn_result) (k : Nat),
      handle_connection true cache usage_counter inp = some r ∧ k < CACHE_SIZE ∧
      key_absent (stale_phase (lru_phase true cache (lookup_index true cache request))
        (lookup_index true cache request)) request ∧
      add_cache_entry (stale_phase (lru_phase true cache (lookup_index true cache request))
        (lookup_index true cache request)) usage_counter request response response.length
        inp.now_insert = some ((k : Int), r.cache, r.usage_counter) ∧
      r.to_client = response ∧ r.connected = true ∧
      (∀ j < CACHE_SIZE, ((r.cache.entry j).valid = 1 ∧
        cstr (r.cache.entry j).request = cstr request) ↔ j = k) ∧
      (r.cache.entry k).response_size = response.length ∧
      (r.cache.entry k).response.take response.length = response ∧
      (r.cache.entry k).max_age = get_max_age response ∧
      (r.cache.entry k).cached_time = inp.now_insert ∧
      (r.cache.entry k).last_used = usage_counter + 1 ∧
      r.usage_counter = usage_counter + 1 ∧
      (∀ j < CACHE_SIZE, j ≠ k → (r.cache.entry j).valid = 1 →
        (r.cache.entry j).last_used < (r.cache.entry k).last_used) := by
  obtain ⟨hinv, htick⟩ := reachable_in_inv n cache usage_counter hreach
  have hkinv := reachable_in_key_inv n cache usage_counter hreach
  obtain ⟨hnot, hinv2, habs2, hsub⟩ := forward_state cache request inp.now_lookup hinv hkinv hstale
  have hmod : (usage_counter + 1) % 2 ^ 64 = usage_counter + 1 :=
    Nat.mod_eq_of_lt (by have := htick.1; omega)
  have hfree := free_slot_before_insert n cache usage_counter hinv htick hn request hlen
  rcases find_invalid_entry_cases (stale_phase (lru_phase true cache
      (lookup_index true cache request)) (lookup_index true cache request)) with
    ⟨hfind, _⟩ | ⟨k, hk, hfind, _, _⟩
  · exact absurd hfind hfree
  obtain ⟨cache1, hadd, hlen1, _, hnew, hold⟩ :=
    add_cache_entry_frame _ usage_counter request response response.length inp.now_insert k
      hinv2.1 hk hfind hlen (by omega) hsize (le_refl _)
  rw [hmod] at hadd hnew
  have hrun : handle_connection true cache usage_counter inp =
      some ⟨cache1, usage_counter + 1, response, true⟩ := by
    rw [handle_connection_extracted cache usage_counter inp request hreq huri hhost,
      if_neg hnot, forward_phase_forwarded _ _ _ _ response _ hup]
    unfold store_phase
    simp only
    rw [if_pos ⟨trivial, hcacheable, by omega, hsize⟩, hadd]
  refine ⟨_, k, hrun, hk, habs2, hadd, rfl, rfl, ?_, ?_, ?_, ?_, ?_, ?_, rfl, ?_⟩
  · intro j hj
    constructor
    · intro hjk
      by_contra hne
      have hj1 := hjk.1
      have hj2 := hjk.2
      rw [show cache1.entry j = _ from hold j hne] at hj1 hj2
      exact habs2 j hj ⟨hj1, hj2⟩
    · intro hjk
      subst hjk
      show (cache1.entry j).valid = 1 ∧ cstr (cache1.entry j).request = cstr request
      rw [hnew]
      exact ⟨rfl, cstr_strncpy _ _ _ hlen⟩
  · show (cache1.entry k).response_size = _
    rw [hnew]
  · show (cache1.entry k).response.take response.length = response
    rw [hnew]
    have := take_memcpy ((stale_phase (lru_phase true cache
      (lookup_index true cache request)) (lookup_index true cache request)).entry k).response
      response response.length (le_refl _)
    simpa using this
  · show (cache1.entry k).max_age = _
    rw [hnew]
  · show (cache1.entry k).cached_time = _
    rw [hnew]
  · show (cache1.entry k).last_used = _
    rw [hnew]
  · intro j hj hjk hvj
    show (cache1.entry j).last_used < (cache1.entry k).last_used
    rw [hnew]
    rw [show cache1.entry j = _ from hold j hjk] at hvj ⊢
    have hsame := hsub j hvj
    rw [hsame] at hvj ⊢
    have := htick.2 (by omega) j hj hvj
    show (cache.entry j).last_used < usage_counter + 1
    omega

/-- C17 on the first connection after `init_cache`: the response lands in a slot. -/
theorem miss_then_cached_witness :
    ∃ (r : conn_result) (k : Nat),
      handle_connection true (init_cache sample_cache) 0 sample_conn = some r ∧
      k < CACHE_SIZE ∧
      key_absent (stale_phase (lru_phase true (init_cache sample_cache)
          (lookup_index true (init_cache sample_cache)
            (bytes "GET /x HTTP/1.1\r\nHost: example.com\r\n\r\n")))
        (lookup_index true (init_cache sample_cache)
          (bytes "GET /x HTTP/1.1\r\nHost: example.com\r\n\r\n")))
        (bytes "GET /x HTTP/1.1\r\nHost: example.com\r\n\r\n") ∧
      add_cache_entry (stale_phase (lru_phase true (init_cache sample_cache)
          (lookup_index true (init_cache sample_cache)
            (bytes "GET /x HTTP/1.1\r\nHost: example.com\r\n\r\n")))
        (lookup_index true (init_cache sample_cache)
          (bytes "GET /x HTTP/1.1\r\nHost: example.com\r\n\r\n"))) 0
        (bytes "GET /x HTTP/1.1\r\nHost: example.com\r\n\r\n")
        (bytes "HTTP/1.1 200 OK\r\nContent-Length: 5\r\n\r\nhello")
        (bytes "HTTP/1.1 200 OK\r\nContent-Length: 5\r\n\r\nhello").length
        sample_conn.now_insert = some ((k : Int), r.cache, r.usage_counter) ∧
      r.to_client = bytes "HTTP/1.1 200 OK\r\nContent-Length: 5\r\n\r\nhello" ∧
      r.connected = true ∧
      (∀ j < CACHE_SIZE, ((r.cache.entry j).valid = 1 ∧
        cstr (r.cache.entry j).request =
          cstr (bytes "GET /x HTTP/1.1\r\nHost: example.com\r\n\r\n")) ↔ j = k) ∧
      (r.cache.entry k).response_size =
        (bytes "HTTP/1.1 200 OK\r\nContent-Length: 5\r\n\r\nhello").length ∧
      (r.cache.entry k).response.take
          (bytes "HTTP/1.1 200 OK\r\nContent-Length: 5\r\n\r\nhello").length =
        bytes "HTTP/1.1 200 OK\r\nContent-Length: 5\r\n\r\nhello" ∧
      (r.cache.entry k).max_age =
        get_max_age (bytes "HTTP/1.1 200 OK\r\nContent-Length: 5\r\n\r\nhello") ∧
      (r.cache.entry k).cached_time = sample_conn.now_insert ∧
      (r.cache.entry k).last_used = 0 + 1 ∧
      r.usage_counter = 0 + 1 ∧
      (∀ j < CACHE_SIZE, j ≠ k → (r.cache.entry j).valid = 1 →
        (r.cache.entry j).last_used < (r.cache.entry k).last_used) :=
  miss_then_cached 0 (init_cache sample_cache) 0 (reachable_in.init sample_cache (by decide))
    (by decide) sample_conn (bytes "GET /x HTTP/1.1\r\nHost: example.com\r\n\r\n")
    (bytes "HTTP/1.1 200 OK\r\nContent-Length: 5\r\n\r\nhello") rfl (by decide) (by decide)
    (by decide)
    (fun j hj hv => by
      rw [(init_cache_spec sample_cache (by decide)).2.2 j hj] at hv
      exact absurd hv (by simp [init_entry]))
    rfl (by decide) (by decide)

/-- C17 as stated fails once the use counter has wrapped: in a reachable state with ten
valid slots all stamped `ULONG_MAX` the LRU eviction frees nothing, and a cacheable miss
of a short request runs `add_cache_entry` on a cache without a free slot, where it
indexes outside the slot array; the run produces no cache state holding the key. -/
theorem miss_not_cached_after_wrap :
    ∃ n cache usage_counter, reachable_in n cache usage_counter ∧
      (wrap_conn 10).request = some (wrap_request 10) ∧
      strlen (wrap_request 10) < REQUEST_SIZE ∧
      extract_request_uri (wrap_request 10) ≠ none ∧
      extract_host (wrap_request 10) ≠ none ∧
      key_absent cache (wrap_request 10) ∧
      (wrap_conn 10).upstream = upstream_t.forwarded wrap_response ∧
      (wrap_response.length : Int) ≤ RESPONSE_SIZE ∧ check_no_cache wrap_response = 0 ∧
      handle_connection true cache usage_counter (wrap_conn 10) = none := by
  obtain ⟨n, c, uc, hreach, hf, hticks⟩ :=
    saturate_all sample_cache (by decide) CACHE_SIZE (le_refl _)
  obtain ⟨_, h2⟩ := full_saturated_insert c uc hf hticks
  have hfacts := wrap_request_facts 10 (by decide)
  refine ⟨n, c, uc, hreach, rfl, hfacts.2.2.1, hfacts.1, hfacts.2.1, ?_, rfl,
    wrap_response_facts.2.2, wrap_response_facts.1, h2⟩
  intro j hj hjk
  have hk := (hf.2.2.1 j hj).2.1
  rw [hk, hfacts.2.2.2] at hjk
  have hj10 : j < 10 := hj
  have := wrap_request_inj j (by omega) 10 (by decide) hjk.2
  omega

/-- C18: in every cache state reachable through cache-enabled connections, a connection
that parses, is not served from the cache (every valid slot holding the key is timed
out) and whose forward succeeds with a response that `check_no_cache` reports
non-cacheable or that is longer than `RESPONSE_SIZE` relays the response to the client
and ends with no valid slot holding the request as key: the stale entry is removed and
nothing is inserted, every slot valid afterwards is unchanged. -/
theorem uncacheable_not_stored (cache : cache_t) (usage_counter : Nat)
    (hreach : reachable cache usage_counter)
    (inp : conn_input) (request response : List Nat)
    (hreq : inp.request = some request)
    (huri : extract_request_uri request ≠ none) (hhost : extract_host request ≠ none)
    (hstale : ∀ j < CACHE_SIZE, (cache.entry j).valid = 1 →
      cstr (cache.entry j).request = cstr request →
      is_timed_out cache j inp.now_lookup ≠ 0)
    (hup : inp.upstream = upstream_t.forwarded response)
    (hnot : check_no_cache response ≠ 0 ∨ (response.length : Int) > RESPONSE_SIZE) :
    ∃ r, handle_connection true cache usage_counter inp = some r ∧
      r.connected = true ∧ r.to_client = response ∧
      key_absent r.cache request ∧
      r.cache = stale_phase (lru_phase true cache (lookup_index true cache request))
        (lookup_index true cache request) ∧
      r.usage_counter = usage_counter ∧
      (∀ j, (r.cache.entry j).valid = 1 → r.cache.entry j = cache.entry j) := by
  obtain ⟨n, hn⟩ := hreach
  obtain ⟨hinv, _⟩ := reachable_in_inv n cache usage_counter hn
  have hkinv := reachable_in_key_inv n cache usage_counter hn
  obtain ⟨hnfresh, _, habs2, hsub⟩ :=
    forward_state cache request inp.now_lookup hinv hkinv hstale
  have hrun : handle_connection true cache usage_counter inp =
      some ⟨stale_phase (lru_phase true cache (lookup_index true cache request))
        (lookup_index true cache request), usage_counter, response, true⟩ := by
    rw [handle_connection_extracted cache usage_counter inp request hreq huri hhost,
      if_neg hnfresh, forward_phase_forwarded _ _ _ _ response _ hup]
    unfold store_phase
    simp only
    rw [if_neg]
    intro hc
    rcases hnot with h | h
    · exact h hc.2.1
    · have := hc.2.2.2
      omega
  exact ⟨_, hrun, rfl, rfl, habs2, rfl, rfl, hsub⟩

/-- C18 on a cache that holds two responses, one of them for the request and timed out:
the `no-store` response that `read_from_server` returns for the request is relayed, the
stale entry in slot 1 is removed and the entry in slot 0 stays. -/
theorem uncacheable_not_stored_witness :
    read_from_server
        [recv_t.data
          (bytes "HTTP/1.1 200 OK\r\nCache-Control: no-store\r\nContent-Length: 5\r\n\r\nhello")] =
      read_t.returned
        (bytes "HTTP/1.1 200 OK\r\nCache-Control: no-store\r\nContent-Length: 5\r\n\r\nhello") ∧
    ∃ s, run_connections (init_cache sample_cache) 0 [wrap_conn 0, short_lived_conn] = some s ∧
      (s.1.entry 0).valid = 1 ∧ (s.1.entry 1).valid = 1 ∧
      cstr (s.1.entry 1).request = bytes "GET /x HTTP/1.1\r\nHost: example.com\r\n\r\n" ∧
      is_timed_out s.1 1 no_store_conn.now_lookup = 1 ∧
      ∃ r, handle_connection true s.1 s.2 no_store_conn = some r ∧
        r.connected = true ∧
        r.to_client =
          bytes "HTTP/1.1 200 OK\r\nCache-Control: no-store\r\nContent-Length: 5\r\n\r\nhello" ∧
        key_absent r.cache (bytes "GET /x HTTP/1.1\r\nHost: example.com\r\n\r\n") ∧
        r.cache = stale_phase (lru_phase true s.1
            (lookup_index true s.1 (bytes "GET /x HTTP/1.1\r\nHost: example.com\r\n\r\n")))
          (lookup_index true s.1 (bytes "GET /x HTTP/1.1\r\nHost: example.com\r\n\r\n")) ∧
        r.usage_counter = s.2 ∧
        (∀ j, (r.cache.entry j).valid = 1 → r.cache.entry j = s.1.entry j) :=
  ⟨by decide,
    match h : run_connections (init_cache sample_cache) 0 [wrap_conn 0, short_lived_conn] with
    | some s =>
      have hfacts :
          (match run_connections (init_cache sample_cache) 0 [wrap_conn 0, short_lived_conn] with
           | none => false
           | some s => decide ((s.1.entry 0).valid = 1 ∧ (s.1.entry 1).valid = 1 ∧
               cstr (s.1.entry 1).request =
                 bytes "GET /x HTTP/1.1\r\nHost: example.com\r\n\r\n" ∧
               is_timed_out s.1 1 no_store_conn.now_lookup = 1 ∧
               ∀ j < CACHE_SIZE, (s.1.entry j).valid = 1 →
                 cstr (s.1.entry j).request =
                   cstr (bytes "GET /x HTTP/1.1\r\nHost: example.com\r\n\r\n") →
                 is_timed_out s.1 j no_store_conn.now_lookup ≠ 0)) = true := by decide
      have hs : (s.1.entry 0).valid = 1 ∧ (s.1.entry 1).valid = 1 ∧
          cstr (s.1.entry 1).request =
            bytes "GET /x HTTP/1.1\r\nHost: example.com\r\n\r\n" ∧
          is_timed_out s.1 1 no_store_conn.now_lookup = 1 ∧
          ∀ j < CACHE_SIZE, (s.1.entry j).valid = 1 →
            cstr (s.1.entry j).request =
              cstr (bytes "GET /x HTTP/1.1\r\nHost: example.com\r\n\r\n") →
            is_timed_out s.1 j no_store_conn.now_lookup ≠ 0 := by
        rw [h] at hfacts
        simpa using hfacts
      ⟨s, rfl, hs.1, hs.2.1, hs.2.2.1, hs.2.2.2.1,
        uncacheable_not_stored s.1 s.2
          ⟨0 + [wrap_conn 0, short_lived_conn].length,
            run_connections_reachable [wrap_conn 0, short_lived_conn] 0 _ 0 s
              (reachable_in.init sample_cache (by decide)) h⟩
          no_store_conn (bytes "GET /x HTTP/1.1\r\nHost: example.com\r\n\r\n")
          (bytes "HTTP/1.1 200 OK\r\nCache-Control: no-store\r\nContent-Length: 5\r\n\r\nhello")
          rfl (by decide) (by decide) hs.2.2.2.2 rfl (Or.inl (by decide))⟩
    | none => absurd h (by decide)⟩

/-! ## Touching every slot but one -/

theorem add_cache_entry_length (cache : cache_t) (usage_counter : Nat)
    (request response : List Nat) (response_size now : Int) (r : Int × cache_t × Nat)
    (h : add_cache_entry cache usage_counter request response response_size now = some r) :
    r.2.1.entries.length = cache.entries.length := by
  unfold add_cache_entry at h
  by_cases hrej : strlen request ≥ REQUEST_SIZE ∨ response_size > (RESPONSE_SIZE : Int)
  · rw [if_pos hrej] at h
    simp only [Option.some.injEq] at h
    rw [← h]
  · rw [if_neg hrej] at h
    simp only at h
    by_cases hbad : find_invalid_entry cache < 0 ∨ response_size < 0 ∨
        (response.length : Int) < response_size
    · rw [if_pos hbad] at h
      exact absurd h (by simp)
    · rw [if_neg hbad] at h
      simp only [update_last_used, Option.some.injEq] at h
      rw [← h]
      simp only
      split <;> simp [cache_t.set_entry]

theorem insert_all_tick_inv (reqs : List insert_call) :
    ∀ (n : Nat) (cache : cache_t) (usage_counter : Nat) (res : List Int × cache_t × Nat),
      cache.entries.length = CACHE_SIZE → tick_inv n cache usage_counter →
      insert_all cache usage_counter reqs = some res →
      tick_inv (n + reqs.length) res.2.1 res.2.2 := by
  induction reqs with
  | nil =>
    intro n cache usage_counter res _ htick h
    simp only [insert_all, Option.some.injEq] at h
    rw [← h]
    exact htick
  | cons r rs ih =>
    intro n cache usage_counter res hlen htick h
    unfold insert_all at h
    cases hadd : add_cache_entry cache usage_counter r.request r.response r.response_size
        r.now with
    | none => simp [hadd] at h
    | some a =>
      obtain ⟨i, cache1, counter1⟩ := a
      simp only [hadd] at h
      cases hrest : insert_all cache1 counter1 rs with
      | none => simp [hrest] at h
      | some b =>
        obtain ⟨idxs, cache2, counter2⟩ := b
        simp only [hrest, Option.some.injEq] at h
        rw [← h]
        have h1 := tick_inv_add n cache usage_counter _ _ _ _ _ hlen htick hadd
        have hlen1 := add_cache_entry_length _ _ _ _ _ _ _ hadd
        have := ih (n + 1) cache1 counter1 _ (hlen1.trans hlen) h1 hrest
        rw [List.length_cons, show n + (rs.length + 1) = n + 1 + rs.length from by omega]
        exact this

theorem serve_all_append (a b : List Nat) :
    ∀ (cache : cache_t) (usage_counter : Nat),
      serve_all cache usage_counter (a ++ b) =
        serve_all (serve_all cache usage_counter a).1 (serve_all cache usage_counter a).2 b := by
  induction a with
  | nil => intro cache usage_counter; rfl
  | cons i rest ih =>
    intro cache usage_counter
    simp only [List.cons_append, serve_all]
    exact ih _ _

theorem serve_from_cache_state (cache : cache_t) (i usage_counter : Nat) :
    (serve_from_cache cache i usage_counter).2.1 =
      cache.set_entry i { cache.entry i with last_used := (usage_counter + 1) % 2 ^ 64 } ∧
    (serve_from_cache cache i usage_counter).2.2 = (usage_counter + 1) % 2 ^ 64 :=
  ⟨rfl, rfl⟩

/-- Serving keeps the slot array, the valid flags and the keys, and keeps the stamps
within the counter. -/
theorem serve_all_frame (slots : List Nat) :
    ∀ (n : Nat) (cache : cache_t) (usage_counter : Nat),
      cache.entries.length = CACHE_SIZE → (∀ j ∈ slots, j < CACHE_SIZE) →
      tick_inv n cache usage_counter →
      (serve_all cache usage_counter slots).1.entries.length = CACHE_SIZE ∧
      (serve_all cache usage_counter slots).1.valid_entries = cache.valid_entries ∧
      (∀ j, ((serve_all cache usage_counter slots).1.entry j).valid = (cache.entry j).valid ∧
        ((serve_all cache usage_counter slots).1.entry j).request = (cache.entry j).request) ∧
      tick_inv (n + slots.length) (serve_all cache usage_counter slots).1
        (serve_all cache usage_counter slots).2 := by
  induction slots with
  | nil =>
    intro n cache usage_counter hlen _ htick
    exact ⟨hlen, rfl, fun j => ⟨rfl, rfl⟩, htick⟩
  | cons i rest ih =>
    intro n cache usage_counter hlen hslots htick
    have hi : i < CACHE_SIZE := hslots i (List.mem_cons_self _ _)
    obtain ⟨hc, hu⟩ := serve_from_cache_state cache i usage_counter
    have hlen1 : (serve_from_cache cache i usage_counter).2.1.entries.length = CACHE_SIZE := by
      rw [hc, set_entry_length]; exact hlen
    have hsame : ((serve_from_cache cache i usage_counter).2.1.entry i) =
        { cache.entry i with last_used := (usage_counter + 1) % 2 ^ 64 } := by
      rw [hc]; exact set_entry_same _ _ _ (by rw [hlen]; exact hi)
    have hother : ∀ j, j ≠ i →
        (serve_from_cache cache i usage_counter).2.1.entry j = cache.entry j := by
      intro j hj
      rw [hc]; exact set_entry_other _ _ j _ hj
    have htick1 : tick_inv (n + 1) (serve_from_cache cache i usage_counter).2.1
        (serve_from_cache cache i usage_counter).2.2 := by
      rw [hu]
      exact tick_inv_touch n cache _ usage_counter i htick (by rw [hsame]) hother
    obtain ⟨h1, h2, h3, h4⟩ := ih (n + 1) _ _ hlen1
      (fun j hj => hslots j (List.mem_cons_of_mem _ hj)) htick1
    refine ⟨h1, ?_, ?_, ?_⟩
    · show (serve_all _ _ rest).1.valid_entries = _
      rw [h2, hc]; rfl
    · intro j
      show ((serve_all _ _ rest).1.entry j).valid = _ ∧ ((serve_all _ _ rest).1.entry j).request = _
      rw [(h3 j).1, (h3 j).2]
      by_cases hj : j = i
      · rw [hj, hsame]; exact ⟨rfl, rfl⟩
      · rw [hother j hj]; exact ⟨rfl, rfl⟩
    · rw [List.length_cons, show n + (rest.length + 1) = n + 1 + rest.length from by omega]
      exact h4

/-- While the counter does not wrap, every served slot ends with a stamp above the
counter the serves started from; the other slots are unchanged. -/
theorem serve_all_stamps (slots : List Nat) :
    ∀ (cache : cache_t) (usage_counter : Nat),
      cache.entries.length = CACHE_SIZE → (∀ j ∈ slots, j < CACHE_SIZE) →
      usage_counter + slots.length < 2 ^ 64 →
      (∀ j ∈ slots, usage_counter < ((serve_all cache usage_counter slots).1.entry j).last_used) ∧
      (∀ j, j ∉ slots → (serve_all cache usage_counter slots).1.entry j = cache.entry j) := by
  induction slots with
  | nil =>
    intro cache usage_counter _ _ _
    exact ⟨fun j hj => absurd hj (List.not_mem_nil j), fun j _ => rfl⟩
  | cons i rest ih =>
    intro cache usage_counter hlen hslots hbound
    have hi : i < CACHE_SIZE := hslots i (List.mem_cons_self _ _)
    obtain ⟨hc, hu⟩ := serve_from_cache_state cache i usage_counter
    rw [List.length_cons] at hbound
    have hmod : (usage_counter + 1) % 2 ^ 64 = usage_counter + 1 :=
      Nat.mod_eq_of_lt (by omega)
    rw [hmod] at hc hu
    have hlen1 : (serve_from_cache cache i usage_counter).2.1.entries.length = CACHE_SIZE := by
      rw [hc, set_entry_length]; exact hlen
    obtain ⟨h1, h2⟩ := ih (serve_from_cache cache i usage_counter).2.1
      (serve_from_cache cache i usage_counter).2.2 hlen1
      (fun j hj => hslots j (List.mem_cons_of_mem _ hj)) (by rw [hu]; omega)
    have hlt : usage_counter < (serve_from_cache cache i usage_counter).2.2 := by
      rw [hu]; omega
    constructor
    · intro j hj
      show usage_counter < ((serve_all _ _ rest).1.entry j).last_used
      by_cases hjr : j ∈ rest
      · exact lt_trans hlt (h1 j hjr)
      · have hji : j = i := by
          rcases List.mem_cons.mp hj with h | h
          · exact h
          · exact absurd h hjr
        rw [h2 j hjr, hji, hc, set_entry_same _ _ _ (by rw [hlen]; exact hi)]
        show usage_counter < usage_counter + 1
        omega
    · intro j hj
      show (serve_all _ _ rest).1.entry j = _
      have hjr : j ∉ rest := fun h => hj (List.mem_cons_of_mem _ h)
      have hji : j ≠ i := fun h => hj (by rw [h]; exact List.mem_cons_self _ _)
      rw [h2 j hjr, hc]
      exact set_entry_other _ _ j _ hji

/-- The scan of `evict_lru_entry` on a cache where the valid slot `k` has the strictly
smallest stamp. -/
theorem evict_lru_entry_at (cache : cache_t) (k : Nat) (hk : k < CACHE_SIZE)
    (hv : (cache.entry k).valid = 1) (hlt : (cache.entry k).last_used < ULONG_MAX)
    (hmin : ∀ j < CACHE_SIZE, j ≠ k → (cache.entry j).valid = 1 →
      (cache.entry k).last_used < (cache.entry j).last_used) :
    evict_lru_entry cache =
      (some (strncpy [] (cache.entry k).request REQUEST_SIZE),
       { valid_entries := cache.valid_entries - 1,
         entries := cache.entries.set k
           { cache.entry k with
             valid := 0, last_used := 0, response_size := -1,
             request := (cache.entry k).request.set 0 0,
             response := (cache.entry k).response.set 0 0 } }) := by
  rcases lru_scan_range cache CACHE_SIZE with ⟨_, hnone⟩ | ⟨m, hm, hp, hvm, _, hleast, _⟩
  · exact absurd ⟨hv, hlt⟩ (hnone k hk)
  · have hmk : m = k := by
      by_contra hne
      have h1 := hleast k hk hv
      have h2 := hmin m hm hne hvm
      omega
    subst hmk
    have hidx : (lru_scan cache).1 = (m : Int) := by unfold lru_scan; rw [hp]
    have hne : ¬ ((m : Int) = -1) := by omega
    simp only [evict_lru_entry, hidx, hne, if_false, lru_scan_fst_toNat]

theorem serve_all_replicate (j : Nat) (m : Nat) :
    ∀ (cache : cache_t) (usage_counter : Nat), j < cache.entries.length →
      serve_all cache usage_counter (List.replicate (m + 1) j) =
        (cache.set_entry j
          { cache.entry j with last_used := (usage_counter + m + 1) % 2 ^ 64 },
         (usage_counter + m + 1) % 2 ^ 64) := by
  induction m with
  | zero =>
    intro cache usage_counter _
    rfl
  | succ m ih =>
    intro cache usage_counter hj
    rw [List.replicate_succ]
    show serve_all (serve_from_cache cache j usage_counter).2.1
      (serve_from_cache cache j usage_counter).2.2 (List.replicate (m + 1) j) = _
    obtain ⟨hc, hu⟩ := serve_from_cache_state cache j usage_counter
    rw [ih _ _ (by rw [hc, set_entry_length]; exact hj), hu, hc,
      set_entry_same _ _ _ hj]
    have hmod : ((usage_counter + 1) % 2 ^ 64 + m + 1) % 2 ^ 64 =
        (usage_counter + (m + 1) + 1) % 2 ^ 64 := by omega
    rw [hmod]
    simp [cache_t.set_entry]

/-- C11 (amended): fill the cache that `init_cache` left with `CACHE_SIZE` admissible
inserts (counter starting at 0), serve any slots, then touch every slot other than `i`
by `serve_from_cache`, in any order and any number of times. If fewer than `2 ^ 64`
inserts and serves happen in total, so that the use counter does not wrap, the next
`evict_lru_entry` invalidates slot `i`, returns its key (the key of the insert number
`i`) and leaves every other slot as it was. -/
theorem untouched_slot_evicted (c0 : cache_t) (hshape : c0.entries.length = CACHE_SIZE)
    (reqs : List insert_call) (hcount : reqs.length = CACHE_SIZE)
    (hadm : ∀ r ∈ reqs, strlen r.request < REQUEST_SIZE ∧ 0 ≤ r.response_size ∧
      r.response_size ≤ RESPONSE_SIZE ∧ r.response_size ≤ r.response.length)
    (serves touches : List Nat) (i : Nat) (hi : i < CACHE_SIZE)
    (hserves : ∀ j ∈ serves, j < CACHE_SIZE)
    (htouch : ∀ j ∈ touches, j < CACHE_SIZE ∧ j ≠ i)
    (hall : ∀ j < CACHE_SIZE, j ≠ i → j ∈ touches)
    (hbound : CACHE_SIZE + serves.length + touches.length < 2 ^ 64) :
    ∃ idxs c1 u1, insert_all (init_cache c0) 0 reqs = some (idxs, c1, u1) ∧
      (∀ j < CACHE_SIZE, (c1.entry j).valid = 1) ∧
      ∃ key, (evict_lru_entry (serve_all c1 u1 (serves ++ touches)).1).1 = some key ∧
        cstr key = cstr ((serve_all c1 u1 (serves ++ touches)).1.entry i).request ∧
        (∀ r, reqs[i]? = some r → cstr key = cstr r.request) ∧
        ((serve_all c1 u1 (serves ++ touches)).1.entry i).valid = 1 ∧
        ((evict_lru_entry (serve_all c1 u1 (serves ++ touches)).1).2.entry i).valid = 0 ∧
        (evict_lru_entry (serve_all c1 u1 (serves ++ touches)).1).2.valid_entries =
          (serve_all c1 u1 (serves ++ touches)).1.valid_entries - 1 ∧
        ∀ j, j ≠ i →
          (evict_lru_entry (serve_all c1 u1 (serves ++ touches)).1).2.entry j =
            (serve_all c1 u1 (serves ++ touches)).1.entry j := by
  obtain ⟨_, hlen0, hinit⟩ := init_cache_spec c0 hshape
  obtain ⟨c1, u1, hins, hlen1, _, hst, _⟩ :=
    insert_all_layout reqs (init_cache c0) 0 0 hlen0 (by omega) (by intro j hj; omega)
      (fun j _ hj => by rw [hinit j hj]; rfl) hadm
  have htick0 : tick_inv 0 (init_cache c0) 0 :=
    ⟨le_refl 0, fun _ j hj hv => by rw [hinit j hj] at hv; simp [init_entry] at hv⟩
  have htick1 := insert_all_tick_inv reqs 0 _ 0 _ hlen0 htick0 hins
  obtain ⟨hlen2, _, hfr2, htick2⟩ := serve_all_frame serves _ c1 u1 hlen1 hserves htick1
  obtain ⟨hlen3, _, hfr3, _⟩ := serve_all_frame touches _ _ _ hlen2
    (fun j hj => (htouch j hj).1) htick2
  have hu2 : (serve_all c1 u1 serves).2 ≤ 0 + reqs.length + serves.length := htick2.1
  obtain ⟨hst3, hkeep3⟩ := serve_all_stamps touches (serve_all c1 u1 serves).1
    (serve_all c1 u1 serves).2 hlen2 (fun j hj => (htouch j hj).1) (by omega)
  have hstored : ∀ j < CACHE_SIZE, ∃ r, r ∈ reqs ∧ reqs[j]? = some r ∧
      stores (c1.entry j) r := by
    intro j hj
    have hjl : j < reqs.length := by omega
    refine ⟨reqs[j], by simp, List.getElem?_eq_getElem hjl, ?_⟩
    have := hst j reqs[j] (List.getElem?_eq_getElem hjl)
    rwa [Nat.zero_add] at this
  have hvalid1 : ∀ j < CACHE_SIZE, (c1.entry j).valid = 1 := by
    intro j hj
    obtain ⟨r, _, _, hs⟩ := hstored j hj
    exact hs.1
  have hne : touches ≠ [] := by
    intro h
    have : (if i = 0 then 1 else 0) ∈ touches :=
      hall _ (by split <;> decide) (by split <;> omega)
    rw [h] at this
    exact absurd this (List.not_mem_nil _)
  have htl : 1 ≤ touches.length := by
    cases touches with
    | nil => exact absurd rfl hne
    | cons a l => simp
  have hvalid : ∀ j < CACHE_SIZE,
      ((serve_all (serve_all c1 u1 serves).1 (serve_all c1 u1 serves).2 touches).1.entry
        j).valid = 1 := by
    intro j hj
    rw [(hfr3 j).1, (hfr2 j).1]
    exact hvalid1 j hj
  have hi_stamp :
      ((serve_all (serve_all c1 u1 serves).1 (serve_all c1 u1 serves).2 touches).1.entry
        i).last_used ≤ (serve_all c1 u1 serves).2 := by
    rw [hkeep3 i (fun h => (htouch i h).2 rfl)]
    exact htick2.2 (by omega : 0 + reqs.length + serves.length < 2 ^ 64) i hi
      (by rw [(hfr2 i).1]; exact hvalid1 i hi)
  have hlt :
      ((serve_all (serve_all c1 u1 serves).1 (serve_all c1 u1 serves).2 touches).1.entry
        i).last_used < ULONG_MAX := by
    have : ULONG_MAX = 2 ^ 64 - 1 := rfl
    omega
  have hmin : ∀ j < CACHE_SIZE, j ≠ i →
      ((serve_all (serve_all c1 u1 serves).1 (serve_all c1 u1 serves).2 touches).1.entry
        j).valid = 1 →
      ((serve_all (serve_all c1 u1 serves).1 (serve_all c1 u1 serves).2 touches).1.entry
        i).last_used <
      ((serve_all (serve_all c1 u1 serves).1 (serve_all c1 u1 serves).2 touches).1.entry
        j).last_used := by
    intro j hj hji _
    have := hst3 j (hall j hj hji)
    omega
  have hkey : cstr ((serve_all (serve_all c1 u1 serves).1 (serve_all c1 u1 serves).2
      touches).1.entry i).request = cstr (c1.entry i).request := by
    rw [(hfr3 i).2, (hfr2 i).2]
  obtain ⟨ri, hmem, hri, hsi⟩ := hstored i hi
  have hstr : strlen ((serve_all (serve_all c1 u1 serves).1 (serve_all c1 u1 serves).2
      touches).1.entry i).request ≤ REQUEST_SIZE := by
    rw [strlen_cstr _ _ (hkey.trans hsi.2.1)]
    exact le_of_lt (hadm ri hmem).1
  refine ⟨_, c1, u1, hins, hvalid1, ?_⟩
  rw [serve_all_append, evict_lru_entry_at _ i hi (hvalid i hi) hlt hmin]
  refine ⟨_, rfl, cstr_strncpy_nil _ _ hstr, ?_, hvalid i hi, ?_, rfl, ?_⟩
  · intro r hr
    rw [hri] at hr
    simp only [Option.some.injEq] at hr
    rw [cstr_strncpy_nil _ _ hstr, hkey, ← hr]
    exact hsi.2.1
  · simp only
    rw [entry_set_same _ _ i _ (by rw [hlen3]; exact hi)]
  · intro j hj
    simp only
    rw [entry_set_other _ _ i j _ hj]
    rfl

/-- C11 for ten inserts, two serves of slot 3 and touches of the slots 1 to 9: slot 0 is
evicted next. -/
theorem untouched_slot_evicted_witness :
    ∃ idxs c1 u1, insert_all (init_cache sample_cache) 0 ten_inserts = some (idxs, c1, u1) ∧
      (∀ j < CACHE_SIZE, (c1.entry j).valid = 1) ∧
      ∃ key,
        (evict_lru_entry
          (serve_all c1 u1 ([3, 3] ++ [1, 2, 3, 4, 5, 6, 7, 8, 9, 1])).1).1 = some key ∧
        cstr key =
          cstr ((serve_all c1 u1 ([3, 3] ++ [1, 2, 3, 4, 5, 6, 7, 8, 9, 1])).1.entry
            0).request ∧
        (∀ r, ten_inserts[0]? = some r → cstr key = cstr r.request) ∧
        ((serve_all c1 u1 ([3, 3] ++ [1, 2, 3, 4, 5, 6, 7, 8, 9, 1])).1.entry 0).valid = 1 ∧
        ((evict_lru_entry
          (serve_all c1 u1 ([3, 3] ++ [1, 2, 3, 4, 5, 6, 7, 8, 9, 1])).1).2.entry
            0).valid = 0 ∧
        (evict_lru_entry
          (serve_all c1 u1 ([3, 3] ++ [1, 2, 3, 4, 5, 6, 7, 8, 9, 1])).1).2.valid_entries =
          (serve_all c1 u1 ([3, 3] ++ [1, 2, 3, 4, 5, 6, 7, 8, 9, 1])).1.valid_entries - 1 ∧
        ∀ j, j ≠ 0 →
          (evict_lru_entry
            (serve_all c1 u1 ([3, 3] ++ [1, 2, 3, 4, 5, 6, 7, 8, 9, 1])).1).2.entry j =
            (serve_all c1 u1 ([3, 3] ++ [1, 2, 3, 4, 5, 6, 7, 8, 9, 1])).1.entry j :=
  untouched_slot_evicted sample_cache (by decide) ten_inserts (by decide) (by decide)
    [3, 3] [1, 2, 3, 4, 5, 6, 7, 8, 9, 1] 0 (by decide) (by decide) (by decide) (by decide)
    (by decide)

/-- C11 as stated fails once the use counter wraps. After ten inserts (stamps 1 to 10)
the slots 2 to 9 are touched once and slot 1 is touched until the `unsigned long`
counter has come round to 0: every slot but slot 0 has been touched, yet slot 1 now has
the smallest stamp, and `evict_lru_entry` evicts slot 1 and keeps slot 0. -/
theorem untouched_slot_kept_after_wrap :
    ∃ idxs c1 u1, insert_all (init_cache sample_cache) 0 ten_inserts = some (idxs, c1, u1) ∧
      (∀ j ∈ wrap_touches, j < CACHE_SIZE ∧ j ≠ 0) ∧
      (∀ j < CACHE_SIZE, j ≠ 0 → j ∈ wrap_touches) ∧
      ((evict_lru_entry (serve_all c1 u1 wrap_touches).1).2.entry 0).valid = 1 ∧
      ((evict_lru_entry (serve_all c1 u1 wrap_touches).1).2.entry 1).valid = 0 ∧
      (evict_lru_entry (serve_all c1 u1 wrap_touches).1).1.map cstr =
        some (cstr ((serve_all c1 u1 wrap_touches).1.entry 1).request) := by
  have hfacts :
      (match insert_all (init_cache sample_cache) 0 ten_inserts with
       | none => false
       | some r =>
         decide ((serve_all r.2.1 r.2.2 [2, 3, 4, 5, 6, 7, 8, 9]).2 = 18 ∧
           (serve_all r.2.1 r.2.2 [2, 3, 4, 5, 6, 7, 8, 9]).1.entries.length = CACHE_SIZE ∧
           ∀ j < CACHE_SIZE,
             ((serve_all r.2.1 r.2.2 [2, 3, 4, 5, 6, 7, 8, 9]).1.entry j).valid = 1 ∧
             0 < ((serve_all r.2.1 r.2.2 [2, 3, 4, 5, 6, 7, 8, 9]).1.entry j).last_used ∧
             strlen ((serve_all r.2.1 r.2.2 [2, 3, 4, 5, 6, 7, 8, 9]).1.entry j).request
               ≤ REQUEST_SIZE)) = true := by
    decide
  cases h : insert_all (init_cache sample_cache) 0 ten_inserts with
  | none =>
    rw [h] at hfacts
    exact absurd hfacts (by decide)
  | some res =>
    obtain ⟨idxs, c1, u1⟩ := res
    rw [h] at hfacts
    simp only [decide_eq_true_eq] at hfacts
    obtain ⟨hu, hlen, hslots⟩ := hfacts
    have hmem1 : ∀ j ∈ wrap_touches, j < CACHE_SIZE ∧ j ≠ 0 := by
      intro j hj
      rcases List.mem_append.mp hj with hj | hj
      · have hsmall : ∀ j ∈ [2, 3, 4, 5, 6, 7, 8, 9], j < CACHE_SIZE ∧ j ≠ 0 := by decide
        exact hsmall j hj
      · rw [List.eq_of_mem_replicate hj]
        decide
    have hmem2 : ∀ j < CACHE_SIZE, j ≠ 0 → j ∈ wrap_touches := by
      intro j hj hj0
      by_cases hj1 : j = 1
      · exact List.mem_append_right _ (List.mem_replicate.mpr ⟨by decide, hj1⟩)
      · have hsmall : ∀ j < CACHE_SIZE, j ≠ 0 → j ≠ 1 → j ∈ [2, 3, 4, 5, 6, 7, 8, 9] := by
          decide
        exact List.mem_append_left _ (hsmall j hj hj0 hj1)
    have hcount : (2 ^ 64 - 18 : Nat) = (2 ^ 64 - 19) + 1 := by decide
    have hstate : (serve_all c1 u1 wrap_touches).1 =
        (serve_all c1 u1 [2, 3, 4, 5, 6, 7, 8, 9]).1.set_entry 1
          { (serve_all c1 u1 [2, 3, 4, 5, 6, 7, 8, 9]).1.entry 1 with last_used := 0 } := by
      unfold wrap_touches
      have hzero : (18 + (2 ^ 64 - 19) + 1) % 2 ^ 64 = 0 := by decide
      rw [serve_all_append, hcount, serve_all_replicate 1 (2 ^ 64 - 19) _ _
        (by rw [hlen]; decide), hu, hzero]
    have hsame : ((serve_all c1 u1 [2, 3, 4, 5, 6, 7, 8, 9]).1.set_entry 1
        { (serve_all c1 u1 [2, 3, 4, 5, 6, 7, 8, 9]).1.entry 1 with last_used := 0 }).entry 1 =
        { (serve_all c1 u1 [2, 3, 4, 5, 6, 7, 8, 9]).1.entry 1 with last_used := 0 } :=
      set_entry_same _ _ _ (by rw [hlen]; decide)
    have hother : ∀ j, j ≠ 1 → ((serve_all c1 u1 [2, 3, 4, 5, 6, 7, 8, 9]).1.set_entry 1
        { (serve_all c1 u1 [2, 3, 4, 5, 6, 7, 8, 9]).1.entry 1 with last_used := 0 }).entry j =
        (serve_all c1 u1 [2, 3, 4, 5, 6, 7, 8, 9]).1.entry j :=
      fun j hj => set_entry_other _ _ j _ hj
    have hevict := evict_lru_entry_at _ 1 (by decide)
      (by rw [hsame]; exact (hslots 1 (by decide)).1)
      (by rw [hsame]; show 0 < ULONG_MAX; decide)
      (fun j hj hj1 _ => by
        rw [hsame, hother j hj1]
        exact (hslots j hj).2.1)
    refine ⟨idxs, c1, u1, rfl, hmem1, hmem2, ?_⟩
    rw [hstate, hevict]
    refine ⟨?_, ?_, ?_⟩
    · simp only
      rw [entry_set_other _ _ 1 0 _ (by decide)]
      show (((serve_all c1 u1 [2, 3, 4, 5, 6, 7, 8, 9]).1.set_entry 1 _).entry 0).valid = 1
      rw [hother 0 (by decide)]
      exact (hslots 0 (by decide)).1
    · simp only
      rw [entry_set_same _ _ 1 _ (by rw [set_entry_length, hlen]; decide)]
    · simp only [Option.map_some']
      rw [cstr_strncpy_nil _ _ (by rw [hsame]; exact (hslots 1 (by decide)).2.2)]

/-! ## The read loop of the request -/

theorem isPrefixOf_drop_append (needle a b : List Nat) (k : Nat)
    (h : needle.isPrefixOf ((a ++ b).drop k) = false) :
    needle.isPrefixOf (a.drop k) = false := by
  by_contra hc
  have hp : needle.isPrefixOf (a.drop k) = true := by
    cases hx : needle.isPrefixOf (a.drop k) with
    | true => rfl
    | false => exact absurd hx hc
  rw [List.isPrefixOf_iff_prefix] at hp
  have : needle.isPrefixOf ((a ++ b).drop k) = true := by
    rw [List.isPrefixOf_iff_prefix, List.drop_append_eq_append_drop]
    exact hp.trans (List.prefix_append _ _)
  rw [this] at h
  exact absurd h (by decide)

theorem find_sub_some (needle : List Nat) :
    ∀ (hay : List Nat) (k : Nat), needle.isPrefixOf (hay.drop k) = true →
      find_sub needle hay ≠ none := by
  intro hay
  induction hay with
  | nil =>
    intro k h
    rw [List.drop_nil] at h
    cases needle with
    | nil => simp [find_sub]
    | cons c cs => simp [List.isPrefixOf] at h
  | cons c cs ih =>
    intro k h
    unfold find_sub
    by_cases h0 : needle.isPrefixOf (c :: cs) = true
    · rw [if_pos h0]; simp
    · rw [if_neg h0]
      cases k with
      | zero => exact absurd h h0
      | succ k =>
        rw [List.drop_succ_cons] at h
        have := ih k h
        cases hf : find_sub needle cs with
        | none => exact absurd hf this
        | some i => simp

theorem strstr_terminator_none (buf : List Nat) (h0 : 0 ∉ buf)
    (hno : ∀ k < buf.length, (bytes "\r\n\r\n").isPrefixOf (buf.drop k) = false) :
    strstr buf (bytes "\r\n\r\n") = none := by
  unfold strstr
  rw [cstr_terminator, cstr_of_not_mem buf h0]
  exact find_sub_none _ (by decide) buf hno

theorem strstr_terminator_some (buf : List Nat) (h0 : 0 ∉ buf) (k : Nat)
    (hk : (bytes "\r\n\r\n").isPrefixOf (buf.drop k) = true) :
    strstr buf (bytes "\r\n\r\n") ≠ none := by
  unfold strstr
  rw [cstr_terminator, cstr_of_not_mem buf h0]
  exact find_sub_some _ buf k hk

theorem request_bufsize_fits (bufsize : Int) (total_read : Nat)
    (hb : bufsize ≤ INT_MAX) (hfit : (total_read : Int) + 1 ≤ bufsize)
    (hsize : total_read + 5 ≤ 2 ^ 30) :
    ¬ (request_bufsize bufsize total_read > INT_MAX) ∧
    0 < request_len (request_bufsize bufsize total_read) total_read := by
  unfold request_bufsize request_len
  have hmax : (INT_MAX : Int) = 2147483647 := by decide
  have hs : (total_read : Int) + 5 ≤ 1073741824 := by
    have : total_read + 5 ≤ 1073741824 := by
      have h30 : (2 : Nat) ^ 30 = 1073741824 := by decide
      omega
    exact_mod_cast this
  split <;> constructor <;> omega

/-- The iterations of `read_http_request` that receive pieces not yet holding the
terminator. -/
theorem request_loop_pieces :
    ∀ (pieces : List (List Nat)) (bufsize : Int) (buffer : List Nat) (evs : List recv_t),
      bufsize ≤ INT_MAX → (buffer.length : Int) + 1 ≤ bufsize →
      0 ∉ buffer ++ pieces.flatten →
      (∀ k < (buffer ++ pieces.flatten).length,
        (bytes "\r\n\r\n").isPrefixOf ((buffer ++ pieces.flatten).drop k) = false) →
      (∀ p ∈ pieces, p ≠ []) →
      (buffer ++ pieces.flatten).length + 5 ≤ 2 ^ 30 →
      request_respects bufsize buffer.length pieces = true →
      ∃ b1 : Int, b1 ≤ INT_MAX ∧ ((buffer ++ pieces.flatten).length : Int) + 1 ≤ b1 ∧
        read_http_request_loop bufsize buffer (pieces.map recv_t.data ++ evs) =
          read_http_request_loop b1 (buffer ++ pieces.flatten) evs ∧
        ∀ ps, request_respects bufsize buffer.length (pieces ++ ps) =
          request_respects b1 (buffer ++ pieces.flatten).length ps := by
  intro pieces
  induction pieces with
  | nil =>
    intro bufsize buffer evs hb hfit _ _ _ _ _
    refine ⟨bufsize, hb, ?_, ?_, ?_⟩
    · simpa using hfit
    · simp
    · intro ps; simp
  | cons p rest ih =>
    intro bufsize buffer evs hb hfit h0 hno hne hsize hresp
    have hflat : buffer ++ (p :: rest).flatten = (buffer ++ p) ++ rest.flatten := by
      simp
    rw [hflat] at h0 hno hsize ⊢
    have hlen : buffer.length + 5 ≤ 2 ^ 30 := by
      simp only [List.length_append] at hsize
      omega
    obtain ⟨hok, hpos⟩ := request_bufsize_fits bufsize buffer.length hb hfit hlen
    simp only [request_respects, Bool.and_eq_true, decide_eq_true_eq] at hresp
    obtain ⟨hp, hrest⟩ := hresp
    have hpne : p.length ≠ 0 := by
      have := hne p (List.mem_cons_self _ _)
      cases p with
      | nil => exact absurd rfl this
      | cons c cs => simp
    have hnone : strstr (buffer ++ p) (bytes "\r\n\r\n") = none := by
      refine strstr_terminator_none _ (fun h => h0 (List.mem_append_left _ h)) ?_
      intro k hk
      exact isPrefixOf_drop_append _ _ rest.flatten k
        (hno k (by simp only [List.length_append] at hk ⊢; omega))
    have hfit1 : ((buffer ++ p).length : Int) + 1 ≤ request_bufsize bufsize buffer.length := by
      unfold request_len at hp
      simp only [List.length_append, Nat.cast_add]
      omega
    have hrest1 : request_respects (request_bufsize bufsize buffer.length)
        (buffer ++ p).length rest = true := by
      rw [List.length_append]; exact hrest
    obtain ⟨b1, hb1, hfit2, hrun, hresp2⟩ :=
      ih (request_bufsize bufsize buffer.length) (buffer ++ p) evs (by omega) hfit1 h0 hno
        (fun q hq => hne q (List.mem_cons_of_mem _ hq)) hsize hrest1
    refine ⟨b1, hb1, hfit2, ?_, ?_⟩
    · rw [← hrun]
      simp only [List.map_cons, List.cons_append, read_http_request_loop]
      rw [if_neg hok, if_neg (by omega), if_neg hpne, hnone]
      simp
    · intro ps
      rw [← hresp2 ps]
      simp only [List.cons_append, request_respects, List.length_append]
      rw [decide_eq_true hp, Bool.true_and]
      rfl

/-- C15 (amended): let `recv` deliver non-empty pieces of a NUL-free stream, each no
longer than the length requested, that do not yet contain `"\r\n\r\n"` and hold at most
`2 ^ 30 - 5` bytes together. If the next `recv` delivers a piece `last` after which the
accumulated bytes contain `"\r\n\r\n"`, `read_http_request` returns exactly the
accumulated bytes, `last` included, in order; if the next `recv` fails or returns 0, it
returns `NULL`. -/
theorem read_http_request_spec (pieces : List (List Nat)) (rest : List recv_t)
    (hne : ∀ p ∈ pieces, p ≠ [])
    (h0 : 0 ∉ pieces.flatten)
    (hno : ∀ k < pieces.flatten.length,
      (bytes "\r\n\r\n").isPrefixOf (pieces.flatten.drop k) = false)
    (hresp : request_respects INIT_BUF_SIZE 0 pieces = true)
    (hsize : pieces.flatten.length + 5 ≤ 2 ^ 30) :
    (∀ last k, last ≠ [] → 0 ∉ last →
      (bytes "\r\n\r\n").isPrefixOf ((pieces.flatten ++ last).drop k) = true →
      request_respects INIT_BUF_SIZE 0 (pieces ++ [last]) = true →
      read_http_request (pieces.map recv_t.data ++ recv_t.data last :: rest) =
        read_t.returned (pieces.flatten ++ last)) ∧
    read_http_request (pieces.map recv_t.data ++ recv_t.error :: rest) = read_t.failed ∧
    read_http_request (pieces.map recv_t.data ++ recv_t.data [] :: rest) = read_t.failed := by
  have hrun : ∀ evs, ∃ b1 : Int, b1 ≤ INT_MAX ∧ (pieces.flatten.length : Int) + 1 ≤ b1 ∧
      read_http_request (pieces.map recv_t.data ++ evs) =
        read_http_request_loop b1 pieces.flatten evs ∧
      ∀ ps, request_respects INIT_BUF_SIZE 0 (pieces ++ ps) =
        request_respects b1 pieces.flatten.length ps := by
    intro evs
    have := request_loop_pieces pieces INIT_BUF_SIZE [] evs (by decide) (by decide)
      (by simpa using h0) (by simpa using hno) hne (by simpa using hsize)
      (by simpa using hresp)
    simpa [read_http_request] using this
  refine ⟨?_, ?_, ?_⟩
  · intro last k hlast h0l hk hrl
    obtain ⟨b1, hb1, hfit, heq, hr⟩ := hrun (recv_t.data last :: rest)
    obtain ⟨hok, _⟩ := request_bufsize_fits b1 pieces.flatten.length hb1 hfit hsize
    rw [hr [last]] at hrl
    simp only [request_respects, Bool.and_true, decide_eq_true_eq] at hrl
    have hlen : last.length ≠ 0 := by
      cases last with
      | nil => exact absurd rfl hlast
      | cons c cs => simp
    have hsome : strstr (pieces.flatten ++ last) (bytes "\r\n\r\n") ≠ none :=
      strstr_terminator_some _ (by
        intro h
        rcases List.mem_append.mp h with h | h
        · exact h0 h
        · exact h0l h) k hk
    rw [heq]
    simp only [read_http_request_loop]
    rw [if_neg hok, if_neg (by omega), if_neg hlen, if_pos hsome]
  · obtain ⟨b1, hb1, hfit, heq, _⟩ := hrun (recv_t.error :: rest)
    obtain ⟨hok, _⟩ := request_bufsize_fits b1 pieces.flatten.length hb1 hfit hsize
    rw [heq]
    simp only [read_http_request_loop]
    rw [if_neg hok]
  · obtain ⟨b1, hb1, hfit, heq, _⟩ := hrun (recv_t.data [] :: rest)
    obtain ⟨hok, hpos⟩ := request_bufsize_fits b1 pieces.flatten.length hb1 hfit hsize
    rw [heq]
    simp only [read_http_request_loop]
    rw [if_neg hok, if_neg (by simp only [List.length_nil, Nat.cast_zero]; omega)]
    simp

/-- C15 on a request that arrives in two pieces, and on the same first piece followed by
a failing `recv` and by a `recv` that returns 0. -/
theorem read_http_request_spec_witness :
    read_http_request
      ([bytes "GET / HTTP/1.1\r\nHo"].map recv_t.data ++
        recv_t.data (bytes "st: a\r\n\r\nxyz") :: [recv_t.error]) =
      read_t.returned ([bytes "GET / HTTP/1.1\r\nHo"].flatten ++ bytes "st: a\r\n\r\nxyz") ∧
    read_http_request
      ([bytes "GET / HTTP/1.1\r\nHo"].map recv_t.data ++ recv_t.error :: [recv_t.error]) =
      read_t.failed ∧
    read_http_request
      ([bytes "GET / HTTP/1.1\r\nHo"].map recv_t.data ++ recv_t.data [] :: [recv_t.error]) =
      read_t.failed :=
  ⟨(read_http_request_spec [bytes "GET / HTTP/1.1\r\nHo"] [recv_t.error] (by decide)
      (by decide) (by decide) (by decide) (by decide)).1 (bytes "st: a\r\n\r\nxyz") 23
      (by decide) (by decide) (by decide) (by decide),
    (read_http_request_spec [bytes "GET / HTTP/1.1\r\nHo"] [recv_t.error] (by decide)
      (by decide) (by decide) (by decide) (by decide)).2⟩

theorem strstr_replicate_none (n : Nat) :
    strstr (List.replicate n 97) (bytes "\r\n\r\n") = none := by
  refine strstr_terminator_none _ (fun h => ?_) ?_
  · have := List.eq_of_mem_replicate h
    omega
  · intro k hk
    rw [List.length_replicate] at hk
    obtain ⟨m, hm⟩ : ∃ m, n - k = m + 1 := ⟨n - k - 1, by omega⟩
    rw [List.drop_replicate, hm, List.replicate_succ]
    rfl

/-- The run of `read_http_request` on pieces of the letter `a` that fill the buffer each
time, from a buffer of `size` bytes holding `size - 1` letters: after `m` doublings the
size is `2 ^ 30` and the next doubling leaves the range of `int`. -/
theorem flood_run : ∀ (m size : Nat) (evs : List recv_t), size * 2 ^ m = 2 ^ 30 → 5 ≤ size →
    read_http_request_loop (size : Int) (List.replicate (size - 1) 97)
        ((flood_from size m).map recv_t.data ++ recv_t.data (bytes "\r\n\r\n") :: evs) =
      read_t.int_overflow ∧
    request_respects (size : Int) (size - 1) (flood_from size m) = true ∧
    ∀ p ∈ flood_from size m, p ≠ [] ∧ 0 ∉ p := by
  intro m
  induction m with
  | zero =>
    intro size evs hsize h5
    have hs : size = 1073741824 := by
      have h30 : (2 : Nat) ^ 30 = 1073741824 := by decide
      omega
    refine ⟨?_, rfl, fun p hp => absurd hp (List.not_mem_nil p)⟩
    simp only [flood_from, List.map_nil, List.nil_append, read_http_request_loop,
      List.length_replicate]
    rw [if_pos]
    subst hs
    decide
  | succ m ih =>
    intro size evs hsize h5
    have h30 : (2 : Nat) ^ 30 = 1073741824 := by decide
    have hm : 1 ≤ 2 ^ m := Nat.one_le_two_pow
    have hsize2 : 2 * size * 2 ^ m = 2 ^ 30 := by
      rw [← hsize, pow_succ]; ring
    have hle : 2 * size ≤ 1073741824 := by
      rw [← h30, ← hsize2]
      exact Nat.le_mul_of_pos_right _ (by omega)
    obtain ⟨hrun, hresp, hmem⟩ := ih (2 * size) evs hsize2 (by omega)
    have hmax : (INT_MAX : Int) = 2147483647 := by decide
    have hbuf : request_bufsize (size : Int) (size - 1) = ((2 * size : Nat) : Int) := by
      unfold request_bufsize
      rw [if_pos (by omega)]
      push_cast
      ring
    have hcat : List.replicate (size - 1) 97 ++ List.replicate size 97 =
        List.replicate (2 * size - 1) 97 := by
      rw [← List.replicate_add]
      congr 1
      omega
    refine ⟨?_, ?_, ?_⟩
    · simp only [flood_from, List.map_cons, List.cons_append, read_http_request_loop,
        List.length_replicate]
      have hl : (List.replicate size 97).length = size := List.length_replicate _ _
      rw [hbuf, if_neg (by omega), if_neg (by unfold request_len; omega),
        if_neg (by omega), hcat, strstr_replicate_none]
      simpa using hrun
    · simp only [flood_from, request_respects, Bool.and_eq_true, decide_eq_true_eq]
      have hl : (List.replicate size 97).length = size := List.length_replicate _ _
      rw [hbuf, hl]
      refine ⟨by unfold request_len; omega, ?_⟩
      rw [show size - 1 + size = 2 * size - 1 from by omega]
      exact hresp
    · intro p hp
      simp only [flood_from, List.mem_cons] at hp
      rcases hp with hp | hp
      · rw [hp]
        refine ⟨?_, fun h => ?_⟩
        · intro h
          have := congrArg List.length h
          rw [List.length_replicate] at this
          simp at this
          omega
        · have := List.eq_of_mem_replicate h
          omega
      · exact hmem p hp

/-- C15 as stated fails when the request is too long for an `int` buffer size: the
stream of `2 ^ 30 - 1` letters `a` followed by `"\r\n\r\n"` is NUL-free and `recv`
delivers it in non-empty pieces, each as long as requested, but with the buffer grown to
`2 ^ 30` bytes and full the next `bufsize *= 2` overflows `int`: the function never
returns the bytes up to the terminator. -/
theorem read_http_request_overflow :
    (∀ p ∈ flood_pieces, p ≠ [] ∧ 0 ∉ p) ∧
    request_respects INIT_BUF_SIZE 0 flood_pieces = true ∧
    read_http_request (flood_pieces.map recv_t.data ++ [recv_t.data (bytes "\r\n\r\n")]) =
      read_t.int_overflow := by
  obtain ⟨hrun, hresp, hmem⟩ := flood_run 19 2048 [] (by decide) (by decide)
  have hl : (List.replicate 2047 97).length = 2047 := List.length_replicate _ _
  have hstep : ∀ (p : List Nat) (tail : List recv_t), p.length = 2047 →
      strstr p (bytes "\r\n\r\n") = none →
      read_http_request (recv_t.data p :: tail) =
        read_http_request_loop ((2048 : Nat) : Int) p tail := by
    intro p tail hp hnone
    have h1 : request_bufsize INIT_BUF_SIZE ([] : List Nat).length = 2048 := by decide
    simp only [read_http_request, read_http_request_loop]
    rw [h1, if_neg (by decide), if_neg (by rw [hp]; decide), if_neg (by rw [hp]; decide),
      List.nil_append, hnone]
    simp
  have hfirst : ∀ tail : List recv_t,
      read_http_request (recv_t.data (List.replicate 2047 97) :: tail) =
        read_http_request_loop ((2048 : Nat) : Int) (List.replicate (2048 - 1) 97) tail :=
    fun tail => hstep _ tail hl (strstr_replicate_none 2047)
  have hfirst2 : ∀ ps : List (List Nat),
      request_respects INIT_BUF_SIZE 0 (List.replicate 2047 97 :: ps) =
        request_respects ((2048 : Nat) : Int) (2048 - 1) ps := by
    intro ps
    have h1 : request_bufsize INIT_BUF_SIZE 0 = 2048 := by decide
    simp only [request_respects]
    rw [h1, hl, decide_eq_true (by decide), Bool.true_and]
    rfl
  refine ⟨?_, ?_, ?_⟩
  · intro p hp
    unfold flood_pieces at hp
    rcases List.mem_cons.mp hp with hp | hp
    · rw [hp]
      refine ⟨?_, fun h => ?_⟩
      · intro h
        have := congrArg List.length h
        rw [hl] at this
        exact absurd this (by decide)
      · have := List.eq_of_mem_replicate h
        omega
    · exact hmem p hp
  · unfold flood_pieces
    rw [hfirst2]
    exact hresp
  · unfold flood_pieces
    rw [List.map_cons, List.cons_append, hfirst]
    exact hrun

/-! ## The read loop of the response -/

theorem isPrefixOf_length (needle l : List Nat) (h : needle.isPrefixOf l = true) :
    needle.length ≤ l.length := by
  rw [List.isPrefixOf_iff_prefix] at h
  exact h.length_le

theorem isPrefixOf_window (needle a b : List Nat) (k : Nat)
    (h : k + needle.length ≤ a.length) :
    needle.isPrefixOf ((a ++ b).drop k) = needle.isPrefixOf (a.drop k) := by
  rw [List.drop_append_of_le_length (by omega), Bool.eq_iff_iff,
    List.isPrefixOf_iff_prefix, List.isPrefixOf_iff_prefix]
  constructor
  · intro hp
    exact List.prefix_of_prefix_length_le hp (List.prefix_append _ _)
      (by rw [List.length_drop]; omega)
  · intro hp
    exact hp.trans (List.prefix_append _ _)

theorem atoi_decimal_stop (n c : Nat) (rest : List Nat) (hc : isdigit c = false)
    (hn : n ≤ INT_MAX) (h0 : 0 ∉ c :: rest) :
    atoi (spec_decimal n ++ c :: rest) = n := by
  have hrange := decimal_digits_range (n + 1) n
  have hnul : 0 ∉ spec_decimal n ++ c :: rest := by
    intro h
    rcases List.mem_append.mp h with h | h
    · have := hrange 0 h
      omega
    · exact h0 h
  unfold atoi
  rw [cstr_of_not_mem _ hnul]
  cases hdig : spec_decimal n with
  | nil => exact absurd hdig (decimal_digits_ne_nil n n)
  | cons d ds =>
    have hdr : 48 ≤ d ∧ d ≤ 57 := hrange d (by
      show d ∈ spec_decimal n
      rw [hdig]; simp)
    have hsp : isspace d = false := by simp [isspace]; omega
    rw [List.cons_append, List.dropWhile_cons_of_neg (by simp [hsp])]
    have h45 : d ≠ 45 := by omega
    have h43 : d ≠ 43 := by omega
    simp only [h45, h43, if_false]
    have hv : digits_value 0 (d :: (ds ++ c :: rest)) = n := by
      rw [← List.cons_append, ← hdig]
      show digits_value 0 (decimal_digits (n + 1) n ++ c :: rest) = n
      rw [decimal_digits_value (n + 1) n (Nat.lt_succ_self n), digits_value_stop n c rest hc]
    rw [hv]
    unfold INT_MAX at hn
    unfold to_int32 clamp_long
    omega

/-- Before the terminator is complete the header check finds nothing and keeps `cl` and
`content_length`. -/
theorem scan_headers_incomplete (header buf more : List Nat) (cl : Bool) (content_length : Int)
    (h0 : 0 ∉ header)
    (hterm : ∀ k < header.length,
      (bytes "\r\n\r\n").isPrefixOf ((header ++ bytes "\r\n\r\n").drop k) = false)
    (hbuf : buf ++ more = header ++ bytes "\r\n\r\n")
    (hlen : buf.length < header.length + 4) :
    scan_headers buf cl content_length = (none, cl, content_length) := by
  have hnone : strstr buf (bytes "\r\n\r\n") = none := by
    refine strstr_terminator_none buf ?_ ?_
    · intro h
      have : 0 ∈ header ++ bytes "\r\n\r\n" := by
        rw [← hbuf]; exact List.mem_append_left _ h
      rcases List.mem_append.mp this with h | h
      · exact h0 h
      · exact absurd h (by decide)
    · intro k hk
      by_contra hc
      have ht : (bytes "\r\n\r\n").isPrefixOf (buf.drop k) = true := by
        cases hx : (bytes "\r\n\r\n").isPrefixOf (buf.drop k) with
        | true => rfl
        | false => exact absurd hx hc
      have hl := isPrefixOf_length _ _ ht
      rw [List.length_drop] at hl
      have h4 : (bytes "\r\n\r\n").length = 4 := by decide
      have hf := hterm k (by omega)
      rw [← hbuf] at hf
      rw [isPrefixOf_drop_append _ _ _ k hf] at ht
      exact absurd ht (by decide)
  unfold scan_headers
  rw [hnone]

/-- Once the terminator is in the buffer the header check finds the body offset and the
value of the first `Content-Length:`. -/
theorem scan_headers_found (header pre name blanks tail body : List Nat) (n : Nat)
    (cl : Bool) (content_length : Int)
    (hblock : content_length_block header pre name blanks tail n) (hn : n ≤ INT_MAX) :
    scan_headers (header ++ bytes "\r\n\r\n" ++ body) cl content_length =
      (some (header.length + 4), true, (n : Int)) := by
  obtain ⟨hheader, h0, hterm, hname, hfirst, hblanks, htail⟩ := hblock
  have h4 : (bytes "\r\n\r\n").length = 4 := by decide
  have h0t : 0 ∉ header ++ bytes "\r\n\r\n" := by
    intro h
    rcases List.mem_append.mp h with h | h
    · exact h0 h
    · exact absurd h (by decide)
  have hcstr : cstr (header ++ bytes "\r\n\r\n" ++ body) =
      header ++ bytes "\r\n\r\n" ++ cstr body := by
    unfold cstr
    rw [List.takeWhile_append_of_pos]
    intro c hc
    have : c ≠ 0 := fun h => h0t (h ▸ hc)
    simpa using this
  have hstr : strstr (header ++ bytes "\r\n\r\n" ++ body) (bytes "\r\n\r\n") =
      some header.length := by
    refine strstr_header_block _ header ⟨⟨cstr body, hcstr⟩, ?_⟩
    intro k hk
    rw [hcstr, isPrefixOf_window _ _ _ k (by rw [List.length_append]; omega)]
    exact hterm k hk
  have hnamelen : name.length = 15 := by
    have := congrArg List.length hname
    rw [List.length_map] at this
    rw [this]; decide
  have hcase : strcasestr (header ++ bytes "\r\n\r\n" ++ body) (bytes "Content-Length:") =
      some pre.length := by
    unfold strcasestr
    have hneedle : (cstr (bytes "Content-Length:")).map tolower = bytes "content-length:" := by
      decide
    rw [hneedle, hcstr]
    have hlen15 : (bytes "content-length:").length = 15 := by decide
    refine find_sub_first _ _ pre.length ?_ ?_ ?_
    · rw [List.length_map, hheader]
      simp only [List.length_append]
      omega
    · rw [hheader]
      simp only [List.map_append, List.append_assoc]
      rw [List.drop_left' (by rw [List.length_map]), hname, List.isPrefixOf_iff_prefix]
      exact List.prefix_append _ _
    · intro k hk
      have := hfirst k hk
      unfold spec_content_length_at at this
      rw [List.append_assoc, List.map_append,
        isPrefixOf_window _ _ _ k (by
          rw [List.length_map, hlen15, hheader]
          simp only [List.length_append]
          omega)]
      exact this
  have hdrop : ((cstr (header ++ bytes "\r\n\r\n" ++ body)).drop
      (pre.length + strlen (bytes "Content-Length:"))).dropWhile is_blank =
      spec_decimal n ++ (tail ++ bytes "\r\n\r\n" ++ cstr body) := by
    have h15 : strlen (bytes "Content-Length:") = 15 := by decide
    rw [hcstr, h15, hheader]
    have hre : pre ++ name ++ blanks ++ spec_decimal n ++ tail ++ bytes "\r\n\r\n" ++ cstr body =
        (pre ++ name) ++ (blanks ++ (spec_decimal n ++ (tail ++ bytes "\r\n\r\n" ++ cstr body))) := by
      simp only [List.append_assoc]
    rw [hre, List.drop_left' (by rw [List.length_append, hnamelen])]
    cases hdig : spec_decimal n with
    | nil => exact absurd hdig (decimal_digits_ne_nil n n)
    | cons d ds =>
      have hdr : 48 ≤ d ∧ d ≤ 57 := decimal_digits_range (n + 1) n d (by
        show d ∈ spec_decimal n
        rw [hdig]; simp)
      have hnb : is_blank d = false := by simp [is_blank]; omega
      rw [List.cons_append, dropWhile_append_stop is_blank blanks d _ hnb]
      have : blanks.dropWhile is_blank = [] := by
        rw [List.dropWhile_eq_nil_iff]
        exact hblanks
      rw [this, List.nil_append]
  have hatoi : atoi (spec_decimal n ++ (tail ++ bytes "\r\n\r\n" ++ cstr body)) = n := by
    have h0b : 0 ∉ tail ++ bytes "\r\n\r\n" ++ cstr body := by
      intro h
      rcases List.mem_append.mp h with h | h
      · rcases List.mem_append.mp h with h | h
        · exact h0 (by rw [hheader]; exact List.mem_append_right _ h)
        · exact absurd h (by decide)
      · exact zero_not_mem_cstr body h
    cases htl : tail with
    | nil =>
      rw [htl] at h0b
      exact atoi_decimal_stop n 13 _ (by decide) hn h0b
    | cons c cs =>
      rw [htl] at h0b
      exact atoi_decimal_stop n c _ (htail c (by rw [htl]; simp)) hn h0b
  unfold scan_headers
  rw [hstr]
  simp only [hcase, hdrop, hatoi]

theorem server_bufsize_fits (bufsize : Int) (total_read : Nat)
    (hb : bufsize ≤ INT_MAX) (hsize : total_read + 1 < 2 ^ 30) :
    ¬ (server_bufsize bufsize total_read > INT_MAX) := by
  unfold server_bufsize
  have hmax : (INT_MAX : Int) = 2147483647 := by decide
  have hs : (total_read : Int) + 1 < 1073741824 := by
    have : total_read + 1 < 1073741824 := by
      have h30 : (2 : Nat) ^ 30 = 1073741824 := by decide
      omega
    exact_mod_cast this
  split <;> omega

theorem prefix_split (buf more a b : List Nat) (h : buf ++ more = a ++ b) :
    (buf.length < a.length → buf ++ a.drop buf.length = a) ∧
    (a.length ≤ buf.length → buf = a ++ b.take (buf.length - a.length)) := by
  rcases List.append_eq_append_iff.mp h with ⟨a1, ha, _⟩ | ⟨c1, hc, hb⟩
  · constructor
    · intro _
      rw [ha, List.drop_left]
    · intro hl
      have : a1 = [] := by
        have := congrArg List.length ha
        rw [List.length_append] at this
        exact List.eq_nil_of_length_eq_zero (by omega)
      rw [this, List.append_nil] at ha
      rw [ha, Nat.sub_self, List.take_zero, List.append_nil]
  · constructor
    · intro hl
      have := congrArg List.length hc
      rw [List.length_append] at this
      omega
    · intro _
      rw [hc, hb, List.length_append, Nat.add_sub_cancel_left, List.take_left]

/-- The loop of `read_from_server` on the pieces still to come of a response whose first
`Content-Length:` carries the length of the body. -/
theorem server_loop_run (header pre name blanks tail body : List Nat) (n : Nat)
    (hblock : content_length_block header pre name blanks tail n) (hbody : body.length = n)
    (hsize : (header ++ bytes "\r\n\r\n" ++ body).length < 2 ^ 30) (rest : List recv_t) :
    ∀ (pieces : List (List Nat)) (bufsize : Int) (buffer : List Nat) (cl : Bool)
      (content_length : Int),
      bufsize ≤ INT_MAX →
      buffer ++ pieces.flatten = header ++ bytes "\r\n\r\n" ++ body →
      buffer.length < (header ++ bytes "\r\n\r\n" ++ body).length →
      (cl = true → content_length = n ∧ header.length + 4 ≤ buffer.length) →
      server_respects bufsize buffer.length pieces = true →
      read_from_server_loop bufsize buffer cl content_length
          (pieces.map recv_t.data ++ rest) =
        read_t.returned (header ++ bytes "\r\n\r\n" ++ body) := by
  have h4 : (bytes "\r\n\r\n").length = 4 := by decide
  have hslen : (header ++ bytes "\r\n\r\n" ++ body).length = header.length + 4 + n := by
    simp only [List.length_append, h4, hbody]
  have hn : n ≤ INT_MAX := by
    have h30 : (2 : Nat) ^ 30 = 1073741824 := by decide
    have : INT_MAX = 2147483647 := by decide
    omega
  intro pieces
  induction pieces with
  | nil =>
    intro bufsize buffer cl content_length _ hstream hshort _ _
    rw [List.flatten_nil, List.append_nil] at hstream
    rw [hstream] at hshort
    exact absurd hshort (lt_irrefl _)
  | cons p ps ih =>
    intro bufsize buffer cl content_length hb hstream hshort hcl hresp
    have hstream1 : (buffer ++ p) ++ ps.flatten = header ++ bytes "\r\n\r\n" ++ body := by
      rw [← hstream]; simp
    have hle : (buffer ++ p).length ≤ header.length + 4 + n := by
      have := congrArg List.length hstream1
      rw [List.length_append, hslen] at this
      omega
    have hl4 : (header ++ bytes "\r\n\r\n").length = header.length + 4 := by
      rw [List.length_append, h4]
    obtain ⟨hsplit1, hsplit2⟩ := prefix_split (buffer ++ p) ps.flatten
      (header ++ bytes "\r\n\r\n") body hstream1
    have hok := server_bufsize_fits bufsize buffer.length hb (by omega)
    simp only [server_respects, Bool.and_eq_true, decide_eq_true_eq] at hresp
    obtain ⟨hp, hrest⟩ := hresp
    have hrest1 : server_respects (server_bufsize bufsize buffer.length)
        (buffer ++ p).length ps = true := by
      rw [List.length_append]; exact hrest
    simp only [List.map_cons, List.cons_append, read_from_server_loop]
    rw [if_neg hok, if_neg (by omega)]
    by_cases hpart : (buffer ++ p).length < header.length + 4
    · have hbuf := hsplit1 (by rw [hl4]; exact hpart)
      rw [scan_headers_incomplete header (buffer ++ p) _ cl content_length hblock.2.1
        hblock.2.2.1 hbuf hpart]
      have hclf : cl = false := by
        cases hc : cl with
        | false => rfl
        | true =>
          have := (hcl hc).2
          rw [List.length_append] at hpart
          omega
      subst hclf
      simp only [Bool.false_eq_true, if_false]
      exact ih _ (buffer ++ p) false content_length (by omega) hstream1
        (by rw [hslen]; omega) (fun h => absurd h (by decide)) hrest1
    · have hfull : buffer ++ p =
          header ++ bytes "\r\n\r\n" ++
            body.take ((buffer ++ p).length - (header.length + 4)) := by
        have := hsplit2 (by rw [hl4]; omega)
        rw [hl4] at this
        exact this
      have hscan := scan_headers_found header pre name blanks tail
        (body.take ((buffer ++ p).length - (header.length + 4))) n cl content_length hblock hn
      rw [← hfull] at hscan
      rw [hscan]
      simp only [if_true]
      by_cases hdone : ((buffer ++ p).length : Int) - ((header.length + 4 : Nat) : Int) ≥ (n : Int)
      · rw [if_pos hdone]
        have hlen : (buffer ++ p).length = header.length + 4 + n := by omega
        have : buffer ++ p = header ++ bytes "\r\n\r\n" ++ body := by
          rw [hfull]
          congr 1
          exact List.take_of_length_le (by omega)
        rw [this]
      · rw [if_neg hdone]
        exact ih _ (buffer ++ p) true n (by omega) hstream1 (by rw [hslen]; omega)
          (fun _ => ⟨rfl, by omega⟩) hrest1

/-- Reading a framed response: let a response stream shorter than `2 ^ 30` bytes consist
of a NUL-free header block, the `"\r\n\r\n"` terminator and exactly `n` body bytes, where the
first `Content-Length:` of the block (in any letter case) is followed by optional blanks
and the decimal digits of `n`. However `recv` splits the stream into pieces, each no
longer than requested, `read_from_server` returns the whole stream unchanged, so
`*data_length` is the header length plus 4 plus `n`. -/
theorem read_from_server_spec (header pre name blanks tail body : List Nat) (n : Nat)
    (pieces : List (List Nat)) (rest : List recv_t)
    (hblock : content_length_block header pre name blanks tail n)
    (hbody : body.length = n)
    (hpieces : pieces.flatten = header ++ bytes "\r\n\r\n" ++ body)
    (hresp : server_respects INIT_BUF_SIZE 0 pieces = true)
    (hsize : (header ++ bytes "\r\n\r\n" ++ body).length < 2 ^ 30) :
    read_from_server (pieces.map recv_t.data ++ rest) =
      read_t.returned (header ++ bytes "\r\n\r\n" ++ body) ∧
    (header ++ bytes "\r\n\r\n" ++ body).length = header.length + 4 + n := by
  have h4 : (bytes "\r\n\r\n").length = 4 := by decide
  refine ⟨?_, by simp only [List.length_append, h4, hbody]⟩
  unfold read_from_server
  exact server_loop_run header pre name blanks tail body n hblock hbody hsize rest pieces
    INIT_BUF_SIZE [] false 0 (by decide) (by simpa using hpieces)
    (by simp only [List.length_append, h4, List.length_nil]; omega)
    (fun h => absurd h (by decide)) (by simpa using hresp)

/-- The response `HTTP/1.1 200 OK`, `Content-Length: 5`, `hello`, delivered in three
pieces, is returned whole. -/
theorem read_from_server_spec_witness :
    read_from_server
      ([bytes "HTTP/1.1 200 OK\r\nContent-Le", bytes "ngth: 5\r\n\r\nhe", bytes "llo"].map
        recv_t.data ++ [recv_t.error]) =
      read_t.returned (bytes "HTTP/1.1 200 OK\r\nContent-Length: 5" ++ bytes "\r\n\r\n" ++
        bytes "hello") ∧
    (bytes "HTTP/1.1 200 OK\r\nContent-Length: 5" ++ bytes "\r\n\r\n" ++ bytes "hello").length =
      (bytes "HTTP/1.1 200 OK\r\nContent-Length: 5").length + 4 + 5 :=
  read_from_server_spec (bytes "HTTP/1.1 200 OK\r\nContent-Length: 5")
    (bytes "HTTP/1.1 200 OK\r\n") (bytes "Content-Length:") (bytes " ") [] (bytes "hello") 5
    [bytes "HTTP/1.1 200 OK\r\nContent-Le", bytes "ngth: 5\r\n\r\nhe", bytes "llo"]
    [recv_t.error]
    ⟨by decide, by decide, by decide, by decide, by decide, by decide, by decide⟩
    (by decide) (by decide) (by decide) (by decide)

/-- C14 fails on the code: `read_from_server` looks for the `Content-Length` header with
`strcasestr` over the whole buffer and so takes the first `Content-Length:` anywhere,
not the one that starts a header line. The header block below contains the header line
`Content-Length: 5`, but the text `Content-Length:` occurs before it inside
`X-Content-Length: 0`; with the header and the five body bytes delivered by two `recv`
calls, `read_from_server` parses the length 0 and returns after the first call, without
the body, where the full response is the header block followed by `hello`. -/
theorem read_from_server_wrong_header :
    read_from_server
      [recv_t.data
        (bytes "HTTP/1.1 200 OK\r\nX-Content-Length: 0\r\nContent-Length: 5\r\n\r\n"),
       recv_t.data (bytes "hello")] =
      read_t.returned
        (bytes "HTTP/1.1 200 OK\r\nX-Content-Length: 0\r\nContent-Length: 5\r\n\r\n") ∧
    server_respects INIT_BUF_SIZE 0
      [bytes "HTTP/1.1 200 OK\r\nX-Content-Length: 0\r\nContent-Length: 5\r\n\r\n",
       bytes "hello"] = true ∧
    0 ∉ bytes "HTTP/1.1 200 OK\r\nX-Content-Length: 0\r\nContent-Length: 5\r\n\r\n" ∧
    bytes "HTTP/1.1 200 OK\r\nX-Content-Length: 0\r\nContent-Length: 5\r\n\r\n" ≠
      bytes "HTTP/1.1 200 OK\r\nX-Content-Length: 0\r\nContent-Length: 5\r\n\r\n" ++
        bytes "hello" := by
  decide

/-! ## A request line without a URI -/

/-- C21 fails on the code: `extract_request_uri` has no test for the end of the request
line. For the framed request `GET\r\nHost: a b\r\n\r\n`, whose request line has no space
or tab after the method, its scan runs on into the `Host` line and returns `a`; the
pipeline does not abort but connects upstream, relays the response and stores it in the
cache. For `GET\r\n\r\n`, which has no space or tab at all, the scan leaves the
NUL-terminated buffer and the run is undefined instead of aborted. -/
theorem extract_request_uri_crosses_lines :
    (bytes "\r\n\r\n").isPrefixOf ((bytes "GET\r\nHost: a b\r\n\r\n").drop 14) = true ∧
    (∀ c ∈ bytes "GET", is_blank c = false) ∧
    extract_request_uri (bytes "GET\r\nHost: a b\r\n\r\n") = some (bytes "a") ∧
    (handle_connection true (init_cache sample_cache) 0 no_uri_conn).map
        (fun r => (r.connected, r.to_client, r.cache.valid_entries,
          (r.cache.entry 0).valid)) =
      some (true, bytes "HTTP/1.1 200 OK\r\nContent-Length: 5\r\n\r\nhello", 1, 1) ∧
    (∀ c ∈ bytes "GET\r\n\r\n" ++ [0], is_blank c = false) ∧
    extract_request_uri (bytes "GET\r\n\r\n" ++ [0]) = none ∧
    handle_connection true (init_cache sample_cache) 0
      { no_uri_conn with request := some (bytes "GET\r\n\r\n" ++ [0]) } = none := by
  decide

/-! ## Only the first `Cache-Control` line is read -/

theorem strcasestr_content_length_none (buffer more : List Nat)
    (hno : ∀ k < (buffer ++ more).length,
      spec_content_length_at (buffer ++ more) k = false) :
    strcasestr buffer (bytes "Content-Length:") = none := by
  unfold strcasestr
  have hneedle : (cstr (bytes "Content-Length:")).map tolower = bytes "content-length:" := by
    decide
  rw [hneedle]
  refine find_sub_none _ (by decide) _ ?_
  intro k hk
  have hsplit : buffer ++ more =
      cstr buffer ++ (buffer.dropWhile (fun c => c != 0) ++ more) := by
    unfold cstr
    rw [← List.append_assoc, List.takeWhile_append_dropWhile]
  have hk2 : k < (buffer ++ more).length := by
    rw [hsplit, List.length_append]
    rw [List.length_map] at hk
    omega
  have := hno k hk2
  unfold spec_content_length_at at this
  rw [hsplit, List.map_append] at this
  exact isPrefixOf_drop_append _ _ _ k this

theorem scan_headers_no_length (buffer : List Nat) (content_length : Int)
    (hno : strcasestr buffer (bytes "Content-Length:") = none) :
    ∃ body_start, scan_headers buffer false content_length =
      (body_start, false, content_length) := by
  unfold scan_headers
  cases strstr buffer (bytes "\r\n\r\n") with
  | none => exact ⟨none, rfl⟩
  | some off =>
    simp only [hno]
    exact ⟨some (off + 4), rfl⟩

/-- Without the text `Content-Length:` in what `recv` delivers, `cl` stays `NULL` and the
loop of `read_from_server` never leaves through its stop condition. -/
theorem server_loop_no_length :
    ∀ (events : List recv_t) (bufsize : Int) (buffer : List Nat) (content_length : Int),
      (∀ k < (buffer ++ received events).length,
        spec_content_length_at (buffer ++ received events) k = false) →
      (∀ b, read_from_server_loop bufsize buffer false content_length events ≠
        read_t.returned b) ∧
      read_from_server_loop bufsize buffer false content_length events ≠
        read_t.null_offset := by
  intro events
  induction events with
  | nil =>
    intro bufsize buffer content_length _
    simp [read_from_server_loop]
  | cons ev evs ih =>
    intro bufsize buffer content_length hno
    simp only [read_from_server_loop]
    split
    · simp
    · cases ev with
      | error => simp
      | data piece =>
        simp only
        split
        · simp
        · have hno1 : ∀ k < (buffer ++ piece ++ received evs).length,
              spec_content_length_at (buffer ++ piece ++ received evs) k = false := by
            simpa [received, List.append_assoc] using hno
          obtain ⟨body_start, hscan⟩ := scan_headers_no_length (buffer ++ piece) content_length
            (strcasestr_content_length_none (buffer ++ piece) (received evs) hno1)
          rw [hscan]
          simp only [Bool.false_eq_true, if_false]
          exact ih _ (buffer ++ piece) content_length hno1

/-- Waiting for a length: if the bytes that `recv` delivers contain the text
`Content-Length:` nowhere, in no letter case, neither in the header block nor in the body, then however
`recv` splits them and whatever else the calls return, `read_from_server` never returns
a response: its stop condition is not met after any read. -/
theorem read_from_server_needs_content_length (events : List recv_t)
    (hno : ∀ k < (received events).length,
      spec_content_length_at (received events) k = false) :
    (∀ b, read_from_server events ≠ read_t.returned b) ∧
    read_from_server events ≠ read_t.null_offset := by
  unfold read_from_server
  exact server_loop_no_length events INIT_BUF_SIZE [] 0 (by simpa using hno)

/-- A response without the text `Content-Length:`, delivered in two pieces: the loop is
still waiting when the results are used up. -/
theorem read_from_server_needs_content_length_witness :
    (∀ b, read_from_server
        [recv_t.data (bytes "HTTP/1.1 200 OK\r\n\r\nhe"), recv_t.data (bytes "llo")] ≠
      read_t.returned b) ∧
    read_from_server
        [recv_t.data (bytes "HTTP/1.1 200 OK\r\n\r\nhe"), recv_t.data (bytes "llo")] ≠
      read_t.null_offset :=
  read_from_server_needs_content_length
    [recv_t.data (bytes "HTTP/1.1 200 OK\r\n\r\nhe"), recv_t.data (bytes "llo")] (by decide)

/-- C23 fails on the code: `read_from_server` looks for the `Content-Length` header with
`strcasestr` over the whole buffer, the body included. The header block
`HTTP/1.1 200 OK` has no `Content-Length` line, but the body starts with the text
`Content-Length: 0`; `read_from_server` takes it for the header, parses the length 0
and returns the response after the first read, where the stop condition should never
be met. -/
theorem read_from_server_length_in_body :
    is_header_block (bytes "HTTP/1.1 200 OK\r\n\r\nContent-Length: 0")
      (bytes "HTTP/1.1 200 OK") ∧
    (∀ k < (bytes "HTTP/1.1 200 OK").length,
      spec_content_length_at (bytes "HTTP/1.1 200 OK") k = false) ∧
    server_respects INIT_BUF_SIZE 0 [bytes "HTTP/1.1 200 OK\r\n\r\nContent-Length: 0"] = true ∧
    read_from_server [recv_t.data (bytes "HTTP/1.1 200 OK\r\n\r\nContent-Length: 0")] =
      read_t.returned (bytes "HTTP/1.1 200 OK\r\n\r\nContent-Length: 0") :=
  ⟨⟨⟨bytes "Content-Length: 0", by decide⟩, by decide⟩, by decide, by decide, by decide⟩

/-! ## Stamps are unique -/

theorem stamp_inv_shrink (c c1 : cache_t) (usage_counter : Nat)
    (hinv : stamp_inv c usage_counter)
    (hsub : ∀ j, c1.entry j = c.entry j ∨ (c1.entry j).valid = 0) :
    stamp_inv c1 usage_counter := by
  obtain ⟨hflag, hrange, huniq⟩ := hinv
  have hsame : ∀ j, (c1.entry j).valid = 1 → c1.entry j = c.entry j := by
    intro j hv
    rcases hsub j with h | h
    · exact h
    · rw [h] at hv; exact absurd hv (by decide)
  refine ⟨?_, ?_, ?_⟩
  · intro i hi
    rcases hsub i with h | h
    · rw [h]; exact hflag i hi
    · exact Or.inl h
  · intro i hi hv
    have h := hsame i hv
    rw [h] at hv ⊢
    exact hrange i hi hv
  · intro i hi j hj hvi hvj hst
    have h1 := hsame i hvi
    have h2 := hsame j hvj
    rw [h1] at hvi hst
    rw [h2] at hvj hst
    exact huniq i hi j hj hvi hvj hst

theorem stamp_inv_stamp (c c1 : cache_t) (usage_counter k : Nat)
    (hinv : stamp_inv c usage_counter)
    (hv : (c1.entry k).valid = 1) (hk : (c1.entry k).last_used = usage_counter + 1)
    (hother : ∀ j, j ≠ k → c1.entry j = c.entry j) :
    stamp_inv c1 (usage_counter + 1) := by
  obtain ⟨hflag, hrange, huniq⟩ := hinv
  refine ⟨?_, ?_, ?_⟩
  · intro i hi
    by_cases hik : i = k
    · rw [hik]; exact Or.inr hv
    · rw [hother i hik]; exact hflag i hi
  · intro i hi hvi
    by_cases hik : i = k
    · rw [hik, hk]; omega
    · rw [hother i hik] at hvi ⊢
      have := hrange i hi hvi
      omega
  · intro i hi j hj hvi hvj hst
    by_cases hik : i = k
    · by_cases hjk : j = k
      · rw [hik, hjk]
      · rw [hik, hk, hother j hjk] at hst
        rw [hother j hjk] at hvj
        have := hrange j hj hvj
        omega
    · by_cases hjk : j = k
      · rw [hjk, hk, hother i hik] at hst
        rw [hother i hik] at hvi
        have := hrange i hi hvi
        omega
      · rw [hother i hik] at hvi hst
        rw [hother j hjk] at hvj hst
        exact huniq i hi j hj hvi hvj hst

theorem set_invalid_entries (v w : Int) (l : List cache_entry_t) (k : Nat) (e : cache_entry_t)
    (he : e.valid = 0) (j : Nat) :
    (cache_t.mk v (l.set k e)).entry j = (cache_t.mk w l).entry j ∨
    ((cache_t.mk v (l.set k e)).entry j).valid = 0 := by
  by_cases hjk : j = k
  · subst hjk
    by_cases hjl : j < l.length
    · right
      rw [entry_set_same _ _ j e hjl]
      exact he
    · left
      simp [cache_t.entry, List.set_eq_of_length_le (Nat.le_of_not_lt hjl)]
  · left
    rw [entry_set_other _ _ k j e hjk]
    rfl

theorem evict_lru_entry_entries (cache : cache_t) (j : Nat) :
    (evict_lru_entry cache).2.entry j = cache.entry j ∨
    ((evict_lru_entry cache).2.entry j).valid = 0 := by
  unfold evict_lru_entry
  by_cases hidx : (lru_scan cache).1 = -1
  · rw [if_pos hidx]
    exact Or.inl rfl
  · rw [if_neg hidx]
    exact set_invalid_entries _ cache.valid_entries cache.entries _ _ rfl j

theorem evict_cache_entry_entries (cache : cache_t) (i j : Nat) :
    (evict_cache_entry cache i).entry j = cache.entry j ∨
    ((evict_cache_entry cache i).entry j).valid = 0 := by
  unfold evict_cache_entry
  exact set_invalid_entries _ cache.valid_entries cache.entries _ _ rfl j

theorem evict_lru_entry_length (cache : cache_t) :
    (evict_lru_entry cache).2.entries.length = cache.entries.length := by
  unfold evict_lru_entry
  by_cases hidx : (lru_scan cache).1 = -1
  · simp only [hidx, if_true]
  · simp only [hidx, if_false, List.length_set]

theorem evict_cache_entry_length (cache : cache_t) (i : Nat) :
    (evict_cache_entry cache i).entries.length = cache.entries.length := by
  simp [evict_cache_entry]

/-- The counter and the stamps along the operations of the cache engine. -/
theorem ops_reach_inv (t : Nat) (cache : cache_t) (usage_counter : Nat)
    (h : ops_reach t cache usage_counter) :
    cache.entries.length = CACHE_SIZE ∧
    (t < 2 ^ 64 → usage_counter = t ∧ stamp_inv cache usage_counter) := by
  induction h with
  | init c0 hshape =>
    obtain ⟨_, hlen, hall⟩ := init_cache_spec c0 hshape
    have hinv : ∀ i < CACHE_SIZE, ((init_cache c0).entry i).valid = 0 := by
      intro i hi; rw [hall i hi]; rfl
    refine ⟨hlen, fun _ => ⟨rfl, fun i hi => Or.inl (hinv i hi), ?_, ?_⟩⟩
    · intro i hi hv
      rw [hinv i hi] at hv
      exact absurd hv (by decide)
    · intro i hi j _ hv
      rw [hinv i hi] at hv
      exact absurd hv (by decide)
  | add t cache usage_counter request response response_size now r _ hkey hmax hfree hadd ih =>
    obtain ⟨hlen, ih⟩ := ih
    have hlen1 := add_cache_entry_length _ _ _ _ _ _ _ hadd
    refine ⟨hlen1.trans hlen, fun ht => ?_⟩
    obtain ⟨hu, hinv⟩ := ih (by omega)
    rcases find_invalid_entry_cases cache with ⟨hfind, _⟩ | ⟨i, hi, hfind, _, _⟩
    · exact absurd hfind hfree
    have hbounds : 0 ≤ response_size ∧ response_size ≤ response.length := by
      by_contra hc
      unfold add_cache_entry at hadd
      rw [if_neg (by omega)] at hadd
      simp only at hadd
      rw [if_pos (by omega)] at hadd
      exact absurd hadd (by simp)
    obtain ⟨cache1, hadd1, _, _, hnew, hold⟩ :=
      add_cache_entry_frame cache usage_counter request response response_size now i hlen hi
        hfind hkey hbounds.1 hmax hbounds.2
    rw [hadd1] at hadd
    simp only [Option.some.injEq] at hadd
    rw [← hadd]
    have hmod : (usage_counter + 1) % 2 ^ 64 = usage_counter + 1 :=
      Nat.mod_eq_of_lt (by omega)
    show (usage_counter + 1) % 2 ^ 64 = t + 1 ∧ stamp_inv cache1 ((usage_counter + 1) % 2 ^ 64)
    rw [hmod]
    refine ⟨by omega, stamp_inv_stamp cache cache1 usage_counter i hinv ?_ ?_ hold⟩
    · rw [hnew]
    · rw [hnew]; exact hmod
  | serve t cache usage_counter i _ hi hv ih =>
    obtain ⟨hlen, ih⟩ := ih
    obtain ⟨hc, hcount⟩ := serve_from_cache_state cache i usage_counter
    refine ⟨by rw [hc, set_entry_length]; exact hlen, fun ht => ?_⟩
    obtain ⟨hu, hinv⟩ := ih (by omega)
    have hmod : (usage_counter + 1) % 2 ^ 64 = usage_counter + 1 :=
      Nat.mod_eq_of_lt (by omega)
    rw [hcount, hmod]
    refine ⟨by omega, stamp_inv_stamp cache _ usage_counter i hinv ?_ ?_ ?_⟩
    · rw [hc, set_entry_same _ _ _ (by rw [hlen]; exact hi)]
      exact hv
    · rw [hc, set_entry_same _ _ _ (by rw [hlen]; exact hi)]
      exact hmod
    · intro j hj
      rw [hc]
      exact set_entry_other _ _ j _ hj
  | evict_lru t cache usage_counter _ ih =>
    obtain ⟨hlen, ih⟩ := ih
    refine ⟨(evict_lru_entry_length cache).trans hlen, fun ht => ?_⟩
    obtain ⟨hu, hinv⟩ := ih ht
    exact ⟨hu, stamp_inv_shrink cache _ usage_counter hinv (evict_lru_entry_entries cache)⟩
  | evict t cache usage_counter i _ _ ih =>
    obtain ⟨hlen, ih⟩ := ih
    refine ⟨(evict_cache_entry_length cache i).trans hlen, fun ht => ?_⟩
    obtain ⟨hu, hinv⟩ := ih ht
    exact ⟨hu, stamp_inv_shrink cache _ usage_counter hinv (evict_cache_entry_entries cache i)⟩

/-- C24: in every cache state reached from `init_cache`, with `usage_counter` 0, by
`add_cache_entry` into a free slot, `serve_from_cache` of a valid slot, `evict_lru_entry`
and `evict_cache_entry`, with fewer than `2 ^ 64` touches in total, `usage_counter`
equals the number of touches made (each touch raised it by exactly one), every valid
slot's `last_used` lies between 1 and `usage_counter`, and no two valid slots have the
same `last_used`. -/
theorem stamps_unique (t : Nat) (cache : cache_t) (usage_counter : Nat)
    (hreach : ops_reach t cache usage_counter) (ht : t < 2 ^ 64) :
    usage_counter = t ∧
    (∀ i < CACHE_SIZE, (cache.entry i).valid ≠ 0 →
      1 ≤ (cache.entry i).last_used ∧ (cache.entry i).last_used ≤ usage_counter) ∧
    (∀ i < CACHE_SIZE, ∀ j < CACHE_SIZE, (cache.entry i).valid ≠ 0 →
      (cache.entry j).valid ≠ 0 →
      (cache.entry i).last_used = (cache.entry j).last_used → i = j) := by
  obtain ⟨hu, hflag, hrange, huniq⟩ := (ops_reach_inv t cache usage_counter hreach).2 ht
  have hone : ∀ i < CACHE_SIZE, (cache.entry i).valid ≠ 0 → (cache.entry i).valid = 1 := by
    intro i hi hv
    rcases hflag i hi with h | h
    · exact absurd h hv
    · exact h
  exact ⟨hu, fun i hi hv => hrange i hi (hone i hi hv),
    fun i hi j hj hvi hvj => huniq i hi j hj (hone i hi hvi) (hone j hj hvj)⟩

/-- C24 after two inserts into the cleared `sample_cache` and a serve of the slot that
the first one filled: three touches, counter 3, slot 0 stamped 3 and slot 1 stamped 2. -/
theorem stamps_unique_witness :
    ∃ r1, add_cache_entry (init_cache sample_cache) 0 (bytes "GET /a") (bytes "alpha") 5 10
        = some r1 ∧
      ∃ r2, add_cache_entry r1.2.1 r1.2.2 (bytes "GET /b") (bytes "beta") 4 11 = some r2 ∧
        ((serve_from_cache r2.2.1 0 r2.2.2).2.1.entry 0).valid = 1 ∧
        ((serve_from_cache r2.2.1 0 r2.2.2).2.1.entry 1).valid = 1 ∧
        ((serve_from_cache r2.2.1 0 r2.2.2).2.1.entry 0).last_used = 3 ∧
        ((serve_from_cache r2.2.1 0 r2.2.2).2.1.entry 1).last_used = 2 ∧
        (serve_from_cache r2.2.1 0 r2.2.2).2.2 = 3 ∧
        (∀ i < CACHE_SIZE, ((serve_from_cache r2.2.1 0 r2.2.2).2.1.entry i).valid ≠ 0 →
          1 ≤ ((serve_from_cache r2.2.1 0 r2.2.2).2.1.entry i).last_used ∧
          ((serve_from_cache r2.2.1 0 r2.2.2).2.1.entry i).last_used ≤
            (serve_from_cache r2.2.1 0 r2.2.2).2.2) ∧
        (∀ i < CACHE_SIZE, ∀ j < CACHE_SIZE,
          ((serve_from_cache r2.2.1 0 r2.2.2).2.1.entry i).valid ≠ 0 →
          ((serve_from_cache r2.2.1 0 r2.2.2).2.1.entry j).valid ≠ 0 →
          ((serve_from_cache r2.2.1 0 r2.2.2).2.1.entry i).last_used =
            ((serve_from_cache r2.2.1 0 r2.2.2).2.1.entry j).last_used → i = j) :=
  match h1 : add_cache_entry (init_cache sample_cache) 0 (bytes "GET /a") (bytes "alpha") 5 10
  with
  | some r1 =>
    have hfact1 :
        (match add_cache_entry (init_cache sample_cache) 0 (bytes "GET /a") (bytes "alpha")
            5 10 with
         | none => false
         | some r => decide (find_invalid_entry r.2.1 ≠ -1 ∧
             r.2.1.entries.length = CACHE_SIZE)) = true := by decide
    have hr1 : find_invalid_entry r1.2.1 ≠ -1 ∧ r1.2.1.entries.length = CACHE_SIZE := by
      rw [h1] at hfact1
      simpa using hfact1
    match h2 : add_cache_entry r1.2.1 r1.2.2 (bytes "GET /b") (bytes "beta") 4 11 with
    | some r2 =>
      have hfact2 :
          (match add_cache_entry (init_cache sample_cache) 0 (bytes "GET /a") (bytes "alpha")
              5 10 with
           | none => false
           | some r =>
             match add_cache_entry r.2.1 r.2.2 (bytes "GET /b") (bytes "beta") 4 11 with
             | none => false
             | some q => decide ((q.2.1.entry 0).valid = 1 ∧
                 ((serve_from_cache q.2.1 0 q.2.2).2.1.entry 0).valid = 1 ∧
                 ((serve_from_cache q.2.1 0 q.2.2).2.1.entry 1).valid = 1 ∧
                 ((serve_from_cache q.2.1 0 q.2.2).2.1.entry 0).last_used = 3 ∧
                 ((serve_from_cache q.2.1 0 q.2.2).2.1.entry 1).last_used = 2)) = true := by
        decide
      have hr2 : (r2.2.1.entry 0).valid = 1 ∧
          ((serve_from_cache r2.2.1 0 r2.2.2).2.1.entry 0).valid = 1 ∧
          ((serve_from_cache r2.2.1 0 r2.2.2).2.1.entry 1).valid = 1 ∧
          ((serve_from_cache r2.2.1 0 r2.2.2).2.1.entry 0).last_used = 3 ∧
          ((serve_from_cache r2.2.1 0 r2.2.2).2.1.entry 1).last_used = 2 := by
        rw [h1] at hfact2
        simp only at hfact2
        rw [h2] at hfact2
        simpa using hfact2
      ⟨r1, rfl, r2, h2, hr2.2.1, hr2.2.2.1, hr2.2.2.2.1, hr2.2.2.2.2,
        stamps_unique 3 _ _
          (ops_reach.serve 2 r2.2.1 r2.2.2 0
            (ops_reach.add 1 r1.2.1 r1.2.2 _ _ _ _ r2
              (ops_reach.add 0 _ 0 _ _ _ _ r1 (ops_reach.init sample_cache (by decide))
                (by decide) (by decide) (by decide) h1)
              (by decide) (by decide) hr1.1 h2)
            (by decide) hr2.1)
          (by decide)⟩
    | none =>
      absurd h2 (add_cache_entry_defined r1.2.1 r1.2.2 (bytes "GET /b") (bytes "beta") 11
        hr1.2 (fun _ => hr1.1))
  | none => absurd h1 (by decide)

/-! ## Leftover fields of invalid slots -/

theorem find_invalid_entry_agree (c1 c2 : cache_t)
    (h : ∀ i < CACHE_SIZE, (c1.entry i).valid = (c2.entry i).valid) :
    find_invalid_entry c1 = find_invalid_entry c2 := by
  unfold find_invalid_entry
  rw [find_congr_mem (List.range CACHE_SIZE) (fun i => (c1.entry i).valid == 0)
    (fun i => (c2.entry i).valid == 0)
    (fun i hi => by
      have := h i (List.mem_range.mp hi)
      simp only [this])]

theorem search_cache_hit_agree (c1 c2 : cache_t) (h : agree c1 c2) (request : List Nat) :
    search_cache_hit c1 request = search_cache_hit c2 request := by
  unfold search_cache_hit
  rw [find_congr_mem (List.range CACHE_SIZE)
    (fun i => (c1.entry i).valid == 1 && strcmp_eq (c1.entry i).request request)
    (fun i => (c2.entry i).valid == 1 && strcmp_eq (c2.entry i).request request)
    (fun i hi => by
      obtain ⟨hv, hsame⟩ := h.2.2.2 i (List.mem_range.mp hi)
      by_cases h1 : (c1.entry i).valid = 1
      · have hk := (hsame (by rw [h1]; decide)).1
        simp only [← hv, h1, strcmp_eq, hk]
      · have h2 : ¬ (c2.entry i).valid = 1 := by rw [← hv]; exact h1
        have b1 : ((c1.entry i).valid == 1) = false := beq_eq_false_iff_ne.mpr h1
        have b2 : ((c2.entry i).valid == 1) = false := beq_eq_false_iff_ne.mpr h2
        show ((c1.entry i).valid == 1 && strcmp_eq (c1.entry i).request request) =
          ((c2.entry i).valid == 1 && strcmp_eq (c2.entry i).request request)
        rw [b1, b2, Bool.false_and, Bool.false_and])]

theorem is_timed_out_agree (c1 c2 : cache_t) (h : agree c1 c2) (i : Nat)
    (hi : i < CACHE_SIZE) (hv : (c1.entry i).valid ≠ 0) (now : Int) :
    is_timed_out c1 i now = is_timed_out c2 i now := by
  obtain ⟨_, _, _, _, hct, hma⟩ := (h.2.2.2 i hi).2 hv
  unfold is_timed_out
  rw [hct, hma]

/-- C25: let two caches agree on `valid_entries`, on which slots are valid and on what
the valid slots hold, and differ in any way in the other fields of their invalid slots.
The same `add_cache_entry` call at the same clock value and counter is undefined for
both or returns for both, with the same index and the same counter, and the caches
afterwards agree again: the slot written has the same `valid`, request key,
`response_size`, first `response_size` response bytes, `last_used`, `cached_time` and
`max_age` in both. So `search_cache_hit` gives the same answer on both for every request
and `is_timed_out` the same answer for every valid slot and every clock value. -/
theorem add_cache_entry_ignores_leftovers (c1 c2 : cache_t) (usage_counter : Nat)
    (request response : List Nat) (response_size now : Int) (hagree : agree c1 c2) :
    (add_cache_entry c1 usage_counter request response response_size now = none ↔
      add_cache_entry c2 usage_counter request response response_size now = none) ∧
    ∀ r1 r2,
      add_cache_entry c1 usage_counter request response response_size now = some r1 →
      add_cache_entry c2 usage_counter request response response_size now = some r2 →
      r1.1 = r2.1 ∧ r1.2.2 = r2.2.2 ∧ agree r1.2.1 r2.2.1 ∧
      (∀ i : Nat, r1.1 = (i : Int) →
        (r1.2.1.entry i).valid = 1 ∧ (r2.2.1.entry i).valid = 1 ∧
        same_visible (r1.2.1.entry i) (r2.2.1.entry i)) ∧
      (∀ rq, search_cache_hit r1.2.1 rq = search_cache_hit r2.2.1 rq) ∧
      (∀ i < CACHE_SIZE, (r1.2.1.entry i).valid ≠ 0 →
        ∀ t, is_timed_out r1.2.1 i t = is_timed_out r2.2.1 i t) := by
  obtain ⟨hve, hlen1, hlen2, hslots⟩ := hagree
  have hfind := find_invalid_entry_agree c1 c2 (fun i hi => (hslots i hi).1)
  have hfinal : ∀ r1 r2 : Int × cache_t × Nat, r1.1 = r2.1 → r1.2.2 = r2.2.2 →
      agree r1.2.1 r2.2.1 →
      (∀ i : Nat, r1.1 = (i : Int) →
        (r1.2.1.entry i).valid = 1 ∧ (r2.2.1.entry i).valid = 1 ∧
        same_visible (r1.2.1.entry i) (r2.2.1.entry i)) →
      r1.1 = r2.1 ∧ r1.2.2 = r2.2.2 ∧ agree r1.2.1 r2.2.1 ∧
      (∀ i : Nat, r1.1 = (i : Int) →
        (r1.2.1.entry i).valid = 1 ∧ (r2.2.1.entry i).valid = 1 ∧
        same_visible (r1.2.1.entry i) (r2.2.1.entry i)) ∧
      (∀ rq, search_cache_hit r1.2.1 rq = search_cache_hit r2.2.1 rq) ∧
      (∀ i < CACHE_SIZE, (r1.2.1.entry i).valid ≠ 0 →
        ∀ t, is_timed_out r1.2.1 i t = is_timed_out r2.2.1 i t) :=
    fun r1 r2 h1 h2 h3 h4 => ⟨h1, h2, h3, h4, search_cache_hit_agree _ _ h3,
      fun i hi hv t => is_timed_out_agree _ _ h3 i hi hv t⟩
  by_cases hrej : strlen request ≥ REQUEST_SIZE ∨ response_size > (RESPONSE_SIZE : Int)
  · have e1 : add_cache_entry c1 usage_counter request response response_size now =
        some (-1, c1, usage_counter) := by
      unfold add_cache_entry; rw [if_pos hrej]
    have e2 : add_cache_entry c2 usage_counter request response response_size now =
        some (-1, c2, usage_counter) := by
      unfold add_cache_entry; rw [if_pos hrej]
    rw [e1, e2]
    refine ⟨by simp, ?_⟩
    intro r1 r2 h1 h2
    simp only [Option.some.injEq] at h1 h2
    rw [← h1, ← h2]
    exact hfinal _ _ rfl rfl ⟨hve, hlen1, hlen2, hslots⟩
      (fun i hi => absurd hi (by show ((-1 : Int)) ≠ (i : Int); omega))
  · by_cases hbad : find_invalid_entry c1 < 0 ∨ response_size < 0 ∨
        (response.length : Int) < response_size
    · have e1 : add_cache_entry c1 usage_counter request response response_size now = none := by
        unfold add_cache_entry; rw [if_neg hrej]; simp only; rw [if_pos hbad]
      have e2 : add_cache_entry c2 usage_counter request response response_size now = none := by
        unfold add_cache_entry; rw [if_neg hrej]; simp only; rw [if_pos (by rw [← hfind]; exact hbad)]
      rw [e1, e2]
      exact ⟨by simp, fun r1 r2 h1 _ => absurd h1 (by simp)⟩
    · rcases find_invalid_entry_cases c1 with ⟨hf, _⟩ | ⟨i, hi, hf, _, _⟩
      · exact absurd (Or.inl (by rw [hf]; decide)) hbad
      obtain ⟨a1, ha1, hla1, hva1, hnew1, hold1⟩ :=
        add_cache_entry_frame c1 usage_counter request response response_size now i hlen1 hi
          hf (by omega) (by omega) (by omega) (by omega)
      obtain ⟨a2, ha2, hla2, hva2, hnew2, hold2⟩ :=
        add_cache_entry_frame c2 usage_counter request response response_size now i hlen2 hi
          (by rw [← hfind]; exact hf) (by omega) (by omega) (by omega) (by omega)
      rw [ha1, ha2]
      refine ⟨by simp, ?_⟩
      intro r1 r2 h1 h2
      simp only [Option.some.injEq] at h1 h2
      rw [← h1, ← h2]
      have hsize : response_size.toNat ≤ response.length := by omega
      have hvis : same_visible (a1.entry i) (a2.entry i) := by
        rw [hnew1, hnew2]
        refine ⟨?_, rfl, ?_, rfl, rfl, rfl⟩
        · show cstr (strncpy _ request REQUEST_SIZE) = cstr (strncpy _ request REQUEST_SIZE)
          rw [cstr_strncpy _ _ _ (by omega), cstr_strncpy _ _ _ (by omega)]
        · show (memcpy _ response response_size.toNat).take response_size.toNat =
            (memcpy _ response response_size.toNat).take response_size.toNat
          rw [take_memcpy _ _ _ hsize, take_memcpy _ _ _ hsize]
      refine hfinal _ _ rfl rfl ⟨?_, hla1, hla2, ?_⟩ ?_
      · show a1.valid_entries = a2.valid_entries
        rw [hva1, hva2, hve]
      · intro j hj
        show (a1.entry j).valid = (a2.entry j).valid ∧
          ((a1.entry j).valid ≠ 0 → same_visible (a1.entry j) (a2.entry j))
        by_cases hji : j = i
        · rw [hji]
          refine ⟨by rw [hnew1, hnew2], fun _ => hvis⟩
        · rw [hold1 j hji, hold2 j hji]
          exact hslots j hj
      · intro k hk
        have hki : k = i := by
          have : ((i : Int)) = (k : Int) := hk
          omega
        rw [hki]
        exact ⟨by rw [hnew1], by rw [hnew2], hvis⟩

/-- C25 on `sample_cache` after `evict_lru_entry` and after `evict_cache_entry` of the
same slot 1: the freed slot keeps `cached_time` 100 in the first cache and has 0 in the
second, and the insert that reuses it gives the same result on both. -/
theorem add_cache_entry_ignores_leftovers_witness :
    agree (evict_lru_entry sample_cache).2 (evict_cache_entry sample_cache 1) ∧
    ((evict_lru_entry sample_cache).2.entry 1).cached_time ≠
      ((evict_cache_entry sample_cache 1).entry 1).cached_time ∧
    (add_cache_entry (evict_lru_entry sample_cache).2 9 (bytes "GET /z") (bytes "zeta") 4 50).map
      (fun r => r.1) = some 1 ∧
    ((add_cache_entry (evict_lru_entry sample_cache).2 9 (bytes "GET /z") (bytes "zeta") 4 50
        = none ↔
      add_cache_entry (evict_cache_entry sample_cache 1) 9 (bytes "GET /z") (bytes "zeta") 4 50
        = none) ∧
    ∀ r1 r2,
      add_cache_entry (evict_lru_entry sample_cache).2 9 (bytes "GET /z") (bytes "zeta") 4 50
        = some r1 →
      add_cache_entry (evict_cache_entry sample_cache 1) 9 (bytes "GET /z") (bytes "zeta") 4 50
        = some r2 →
      r1.1 = r2.1 ∧ r1.2.2 = r2.2.2 ∧ agree r1.2.1 r2.2.1 ∧
      (∀ i : Nat, r1.1 = (i : Int) →
        (r1.2.1.entry i).valid = 1 ∧ (r2.2.1.entry i).valid = 1 ∧
        same_visible (r1.2.1.entry i) (r2.2.1.entry i)) ∧
      (∀ rq, search_cache_hit r1.2.1 rq = search_cache_hit r2.2.1 rq) ∧
      (∀ i < CACHE_SIZE, (r1.2.1.entry i).valid ≠ 0 →
        ∀ t, is_timed_out r1.2.1 i t = is_timed_out r2.2.1 i t)) :=
  ⟨by decide, by decide, by decide,
    add_cache_entry_ignores_leftovers (evict_lru_entry sample_cache).2
      (evict_cache_entry sample_cache 1) 9 (bytes "GET /z") (bytes "zeta") 4 50 (by decide)⟩

/-! ## The read loops stay inside their buffers -/

/-- The loop of `read_http_request` is the iteration of `request_step`. -/
theorem read_http_request_loop_step (bufsize : Int) (buffer : List Nat) (ev : recv_t)
    (evs : List recv_t) :
    read_http_request_loop bufsize buffer (ev :: evs) =
      match request_step bufsize buffer ev with
      | Sum.inl r => r
      | Sum.inr s => read_http_request_loop s.1 s.2 evs := by
  simp only [read_http_request_loop, request_step]
  split
  · rfl
  · cases ev with
    | error => rfl
    | data piece =>
      simp only
      split
      · rfl
      · split
        · rfl
        · split <;> rfl

/-- The loop of `read_from_server` is the iteration of `server_step`. -/
theorem read_from_server_loop_step (bufsize : Int) (buffer : List Nat) (cl : Bool)
    (content_length : Int) (ev : recv_t) (evs : List recv_t) :
    read_from_server_loop bufsize buffer cl content_length (ev :: evs) =
      match server_step bufsize buffer cl content_length ev with
      | Sum.inl r => r
      | Sum.inr s => read_from_server_loop s.1 s.2.1 s.2.2.1 s.2.2.2 evs := by
  simp only [read_from_server_loop, server_step]
  split
  · rfl
  · cases ev with
    | error => rfl
    | data piece =>
      simp only
      split
      · rfl
      · rcases hscan : scan_headers (buffer ++ piece) cl content_length with ⟨bs, cl1, cv⟩
        simp only
        cases cl1 with
        | false => rfl
        | true =>
          simp only [if_true]
          cases bs with
          | none => rfl
          | some b =>
            simp only
            by_cases hdone : ((buffer ++ piece).length : Int) - (b : Int) ≥ cv
            · rw [if_pos hdone, if_pos hdone]
            · rw [if_neg hdone, if_neg hdone]

theorem request_step_next (bufsize : Int) (buffer : List Nat) (ev : recv_t)
    (s : Int × List Nat) (h : request_step bufsize buffer ev = Sum.inr s) :
    (s.2.length : Int) ≤ s.1 - 1 := by
  unfold request_step at h
  simp only at h
  split at h
  · exact absurd h (by simp)
  · cases ev with
    | error => exact absurd h (by simp)
    | data piece =>
      simp only at h
      split at h
      · exact absurd h (by simp)
      · rename_i hlen
        split at h
        · exact absurd h (by simp)
        · split at h
          · exact absurd h (by simp)
          · simp only [Sum.inr.injEq] at h
            rw [← h]
            simp only [List.length_append, Nat.cast_add]
            unfold request_len at hlen
            omega

theorem server_step_next (bufsize : Int) (buffer : List Nat) (cl : Bool)
    (content_length : Int) (ev : recv_t) (s : Int × List Nat × Bool × Int)
    (h : server_step bufsize buffer cl content_length ev = Sum.inr s) :
    (s.2.1.length : Int) ≤ s.1 - 1 := by
  unfold server_step at h
  simp only at h
  split at h
  · exact absurd h (by simp)
  · cases ev with
    | error => exact absurd h (by simp)
    | data piece =>
      simp only at h
      split at h
      · exact absurd h (by simp)
      · rename_i hlen
        have hnew : ((buffer ++ piece).length : Int) ≤
            server_bufsize bufsize buffer.length - 1 := by
          simp only [List.length_append, Nat.cast_add]
          unfold server_len at hlen
          omega
        rcases hscan : scan_headers (buffer ++ piece) cl content_length with ⟨bs, cl1, cv⟩
        rw [hscan] at h
        simp only at h
        cases cl1 with
        | false =>
          simp only [Bool.false_eq_true, if_false, Sum.inr.injEq] at h
          rw [← h]
          exact hnew
        | true =>
          simp only [if_true] at h
          cases bs with
          | none => exact absurd h (by simp)
          | some b =>
            simp only at h
            split at h
            · exact absurd h (by simp)
            · simp only [Sum.inr.injEq] at h
              rw [← h]
              exact hnew

theorem request_iterations_fit :
    ∀ (events : List recv_t) (bufsize : Int) (buffer : List Nat),
      (buffer.length : Int) ≤ bufsize - 1 →
      ∀ s ∈ request_iterations bufsize buffer events, (s.2.length : Int) ≤ s.1 - 1 := by
  intro events
  induction events with
  | nil =>
    intro bufsize buffer hfit s hs
    simp only [request_iterations, List.mem_singleton] at hs
    rw [hs]; exact hfit
  | cons ev evs ih =>
    intro bufsize buffer hfit s hs
    simp only [request_iterations, List.mem_cons] at hs
    rcases hs with hs | hs
    · rw [hs]; exact hfit
    · cases hstep : request_step bufsize buffer ev with
      | inl r =>
        rw [hstep] at hs
        exact absurd hs (List.not_mem_nil s)
      | inr n =>
        rw [hstep] at hs
        exact ih n.1 n.2 (request_step_next bufsize buffer ev n hstep) s hs

theorem server_iterations_fit :
    ∀ (events : List recv_t) (bufsize : Int) (buffer : List Nat) (cl : Bool)
      (content_length : Int),
      (buffer.length : Int) ≤ bufsize - 1 →
      ∀ s ∈ server_iterations bufsize buffer cl content_length events,
        (s.2.1.length : Int) ≤ s.1 - 1 := by
  intro events
  induction events with
  | nil =>
    intro bufsize buffer cl content_length hfit s hs
    simp only [server_iterations, List.mem_singleton] at hs
    rw [hs]; exact hfit
  | cons ev evs ih =>
    intro bufsize buffer cl content_length hfit s hs
    simp only [server_iterations, List.mem_cons] at hs
    rcases hs with hs | hs
    · rw [hs]; exact hfit
    · cases hstep : server_step bufsize buffer cl content_length ev with
      | inl r =>
        rw [hstep] at hs
        exact absurd hs (List.not_mem_nil s)
      | inr n =>
        rw [hstep] at hs
        exact ih n.1 n.2.1 n.2.2.1 n.2.2.2
          (server_step_next bufsize buffer cl content_length ev n hstep) s hs

/-- C26: at the start of every iteration that the loops of `read_http_request` and
`read_from_server` run on `recv` results that are no longer than requested,
`total_read <= bufsize - 1`; and when the `realloc` check of the iteration does not take
`bufsize` beyond `INT_MAX`, the length passed to `recv` is at least 1 and
`total_read + length + 1 <= bufsize` for the `bufsize` after the check, so the received
bytes and the NUL written at `buffer[total_read]` lie inside the buffer. -/
theorem read_loops_stay_in_buffer (events : List recv_t) :
    (∀ s ∈ request_iterations INIT_BUF_SIZE [] events,
      (s.2.length : Int) ≤ s.1 - 1 ∧
      (request_bufsize s.1 s.2.length ≤ INT_MAX →
        1 ≤ request_len (request_bufsize s.1 s.2.length) s.2.length ∧
        (s.2.length : Int) + request_len (request_bufsize s.1 s.2.length) s.2.length + 1 ≤
          request_bufsize s.1 s.2.length)) ∧
    (∀ s ∈ server_iterations INIT_BUF_SIZE [] false 0 events,
      (s.2.1.length : Int) ≤ s.1 - 1 ∧
      (server_bufsize s.1 s.2.1.length ≤ INT_MAX →
        1 ≤ server_len (server_bufsize s.1 s.2.1.length) s.2.1.length ∧
        (s.2.1.length : Int) + server_len (server_bufsize s.1 s.2.1.length) s.2.1.length + 1 ≤
          server_bufsize s.1 s.2.1.length)) := by
  constructor
  · intro s hs
    have hfit := request_iterations_fit events INIT_BUF_SIZE [] (by decide) s hs
    refine ⟨hfit, fun _ => ?_⟩
    unfold request_len request_bufsize
    split <;> constructor <;> omega
  · intro s hs
    have hfit := server_iterations_fit events INIT_BUF_SIZE [] false 0 (by decide) s hs
    refine ⟨hfit, fun _ => ?_⟩
    unfold server_len server_bufsize
    split <;> constructor <;> omega

/-- The iterations of both loops on a delivery in two pieces. -/
theorem read_loops_iterations_sample :
    request_iterations INIT_BUF_SIZE []
        [recv_t.data (bytes "GET / HTTP/1.1\r\nHo"), recv_t.data (bytes "st: a\r\n\r\n")] =
      [(2048, []), (2048, bytes "GET / HTTP/1.1\r\nHo")] ∧
    server_iterations INIT_BUF_SIZE [] false 0
        [recv_t.data (bytes "HTTP/1.1 200 OK\r\nContent-Length: 5\r\n\r\nhe"),
         recv_t.data (bytes "llo")] =
      [(2048, [], false, 0),
       (2048, bytes "HTTP/1.1 200 OK\r\nContent-Length: 5\r\n\r\nhe", true, 5)] := by
  decide

end HttpProxy
